import Mathlib

/-!
# External scanner of the COBOL grammar (`src/scanner.c`)

A shallow embedding of the hand-written scanner and theorems about it.

* Characters are code points (`Nat`); the input is a `List Nat`.
* `TSLexer` is the host lexer the scanner is called with: the read position,
  the remaining input, the column, the start of the token (moved by
  `advance(lexer, true)`), and the positions at which `mark_end` was called.
* Loops that advance the lexer take a `fuel : Nat`; running out of fuel is the
  result `none`, so a loop that never ends is `none` for every fuel.
* `iswspace`, `iswalnum`, `towlower`, `towupper` are those of the "C" locale.
* A NUL character in the input gives the lookahead 0, like the end of the
  input, while `eof` is true at the end of the input only.
-/

namespace CobolScanner

/-! ## Token kinds -/

/-- The `enum TokenType` of `scanner.c`. -/
inductive TokenType where
  | WHITE_SPACES
  | LINE_PREFIX_COMMENT
  | LINE_SUFFIX_COMMENT
  | LINE_COMMENT
  | COMMENT_ENTRY
  | multiline_string
  | EXEC_BLOCK_CONTENT
  deriving DecidableEq

/-! ## Character classes of `<wctype.h>` ("C" locale) -/

/-- The code points of a string. -/
def codes (s : String) : List Nat := s.toList.map Char.toNat

/-- The function `iswspace`: blank, tab, newline, vertical tab, form feed,
carriage return. -/
def iswspace (c : Nat) : Bool := c == 32 || (decide (9 ≤ c) && decide (c ≤ 13))

/-- The function `iswalnum`: a decimal digit or a letter. -/
def iswalnum (c : Nat) : Bool :=
  (decide (48 ≤ c) && decide (c ≤ 57)) || (decide (65 ≤ c) && decide (c ≤ 90)) ||
    (decide (97 ≤ c) && decide (c ≤ 122))

/-- The function `towlower`. -/
def towlower (c : Nat) : Nat := if 65 ≤ c ∧ c ≤ 90 then c + 32 else c

/-- The function `towupper`. -/
def towupper (c : Nat) : Nat := if 97 ≤ c ∧ c ≤ 122 then c - 32 else c

/-! ## The host lexer -/

/-- Modelled from the spec: the host lexer interface (`TSLexer`, declared in
`tree_sitter/parser.h`, which is not in the source) with the operations of
section 6: lookahead with the end-of-input value 0, advance, mark the commit
boundary, current column, end of input. The flag of `advance` is the `skip`
flag of that header: the column counts every character read, whatever the
flag, and a skipped character moves the start of the token.

The state during one call of the scanner: `pos` is the read position, `rest`
the input not yet read, `column` the number of characters read since the last
newline, `token_start` the position after the last skipped character, `marks`
the positions given to `mark_end` (latest first), `result_symbol` the token
kind stored by the scanner. -/
structure TSLexer where
  pos : Nat
  rest : List Nat
  column : Nat
  token_start : Nat
  marks : List Nat
  result_symbol : Option TokenType
  deriving DecidableEq

namespace TSLexer

/-- The lexer at the start of a call, reading `input` from column `col`. -/
def start (input : List Nat) (col : Nat) : TSLexer :=
  { pos := 0, rest := input, column := col, token_start := 0, marks := [],
    result_symbol := none }

/-- The field `lexer->lookahead`: the next character, `0` at the end of the
input. -/
def lookahead (lexer : TSLexer) : Nat := lexer.rest.headD 0

/-- The call `lexer->eof(lexer)`. -/
def eof (lexer : TSLexer) : Bool := lexer.rest.isEmpty

/-- The call `lexer->get_column(lexer)`. -/
def get_column (lexer : TSLexer) : Nat := lexer.column

/-- The call `lexer->advance(lexer, skip)`: read one character; a newline resets the
column; with `skip` the token starts after the character. Nothing happens at
the end of the input. -/
def advance (lexer : TSLexer) (skip : Bool) : TSLexer :=
  match lexer.rest with
  | [] => lexer
  | c :: cs =>
    { lexer with
      pos := lexer.pos + 1
      rest := cs
      column := if c = 10 then 0 else lexer.column + 1
      token_start := if skip then lexer.pos + 1 else lexer.token_start }

/-- The call `lexer->mark_end(lexer)`: the commit boundary becomes the read position. -/
def mark_end (lexer : TSLexer) : TSLexer :=
  { lexer with marks := lexer.pos :: lexer.marks }

/-- The assignment `lexer->result_symbol = t`. -/
def set_result (lexer : TSLexer) (t : TokenType) : TSLexer :=
  { lexer with result_symbol := some t }

end TSLexer

/-! ## The scanner -/

/-- The function `is_white_space`; 59 is `;` and 44 is `,`. -/
def is_white_space (c : Nat) : Bool := iswspace c || c == 59 || c == 44

/-- The function `is_potential_end_exec_start`; 101 is `e`. -/
def is_potential_end_exec_start (c : Nat) : Bool := towlower c == 101

/-- The loop `while (cond) lexer->advance(lexer, skip);`. -/
def advance_while (cond : TSLexer → Bool) (skip : Bool) : Nat → TSLexer → Option TSLexer
  | 0, _ => none
  | fuel + 1, lexer =>
    if cond lexer then advance_while cond skip fuel (lexer.advance skip) else some lexer

/-- The keyword `"end-exec"` of `scan_for_end_exec`. -/
def end_exec_keyword : List Nat := [101, 110, 100, 45, 101, 120, 101, 99]

/-- The loop of `scan_for_end_exec`, with `keyword` the characters from
`keyword[matched]` on; the result is the returned count and the lexer. Both
branches of the word-boundary test after the loop return `matched`. -/
def scan_for_end_exec_from : List Nat → Nat → TSLexer → Nat × TSLexer
  | [], matched, lexer =>
    let next := lexer.lookahead
    if iswalnum next || next == 95 then (matched, lexer) else (matched, lexer)
  | k :: keyword, matched, lexer =>
    if lexer.eof then (matched, lexer)
    else if towlower lexer.lookahead != k then (matched, lexer)
    else scan_for_end_exec_from keyword (matched + 1) (lexer.advance false)

/-- The function `scan_for_end_exec`. -/
def scan_for_end_exec (lexer : TSLexer) : Nat × TSLexer :=
  scan_for_end_exec_from end_exec_keyword 0 lexer

/-- The constant `number_of_comment_entry_keywords`. -/
def number_of_comment_entry_keywords : Nat := 9

/-- The table `any_content_keyword`. -/
def any_content_keyword : List (List Nat) :=
  [codes "author", codes "installlation", codes "date-written", codes "date-compiled",
   codes "security", codes "identification division", codes "environment division",
   codes "data division", codes "procedure division"]

/-- The `while(true)` loop of `start_with_word`. A candidate is the pair of
`keyword_pointer[i]` (the characters from the pointer on) and
`continue_check[i]`. The character `c` is the lookahead narrowed to `char`. -/
def start_with_word_loop : Nat → List (List Nat × Bool) → TSLexer → Option (Bool × TSLexer)
  | 0, _, _ => none
  | fuel + 1, cands, lexer =>
    if decide (lexer.get_column > 71) || lexer.lookahead == 10 || lexer.lookahead == 0 then
      some (false, lexer)
    else if cands.all (fun kc => !kc.2) then
      (advance_while
        (fun l => decide (l.get_column < 71) && l.lookahead != 10 && l.lookahead != 0)
        true fuel lexer).map (fun l => (false, l))
    else
      let c := lexer.lookahead % 256
      if cands.any (fun kc => kc.1.isEmpty && kc.2) then some (true, lexer)
      else
        start_with_word_loop fuel
          (cands.map fun kc =>
            (kc.1.tail,
             if kc.2 then c == towupper (kc.1.headD 0) || c == towlower (kc.1.headD 0)
             else false))
          (lexer.advance true)

/-- The function `start_with_word`: the loop over leading blanks and tabs, then
the loop over the candidates. -/
def start_with_word (fuel : Nat) (lexer : TSLexer) (words : List (List Nat))
    (number_of_words : Nat) : Option (Bool × TSLexer) :=
  match advance_while (fun l => l.lookahead == 32 || l.lookahead == 9) true fuel lexer with
  | none => none
  | some l => start_with_word_loop fuel ((words.take number_of_words).map fun w => (w, true)) l

/-- The loop `for(i=0; i<=5; ++i)` of the string scanner, with `n` the number
of rounds left; `false` is its `return false`. -/
def skip_sequence_area : Nat → TSLexer → Bool × TSLexer
  | 0, lexer => (true, lexer)
  | n + 1, lexer =>
    if lexer.lookahead == 0 || lexer.lookahead == 10 then (false, lexer)
    else skip_sequence_area n (lexer.advance true)

/-- The `while(true)` loop of the `multiline_string` branch. -/
def multiline_string_loop : Nat → TSLexer → Option (Bool × TSLexer)
  | 0, _ => none
  | fuel + 1, lexer =>
    if lexer.lookahead != 34 then some (false, lexer)
    else
      match advance_while
          (fun l => l.lookahead != 34 && l.lookahead != 0 && decide (l.get_column < 72))
          false fuel (lexer.advance false) with
      | none => none
      | some l1 =>
        if l1.lookahead == 34 then
          some (true, ((l1.set_result .multiline_string).advance false).mark_end)
        else
          match advance_while (fun l => l.lookahead != 0 && l.lookahead != 10) true fuel l1 with
          | none => none
          | some l2 =>
            if l2.lookahead == 0 then some (false, l2)
            else
              match skip_sequence_area 6 (l2.advance true) with
              | (false, l3) => some (false, l3)
              | (true, l3) =>
                if l3.lookahead != 45 then some (false, l3)
                else
                  match advance_while
                      (fun l => l.lookahead == 32 && decide (l.get_column < 72))
                      true fuel (l3.advance true) with
                  | none => none
                  | some l4 => multiline_string_loop fuel l4

/-- The `while(true)` loop of the `EXEC_BLOCK_CONTENT` branch. -/
def exec_block_content_loop : Nat → Bool → TSLexer → Option (Bool × TSLexer)
  | 0, _, _ => none
  | fuel + 1, has_content, lexer =>
    if lexer.eof then
      if has_content then some (true, lexer.set_result .EXEC_BLOCK_CONTENT)
      else some (false, lexer)
    else if lexer.lookahead == 10 then
      exec_block_content_loop fuel true (lexer.advance false).mark_end
    else if decide (lexer.get_column ≥ 72) then
      match advance_while (fun l => l.lookahead != 10 && !l.eof) false fuel lexer with
      | none => none
      | some l => exec_block_content_loop fuel has_content l
    else if towlower lexer.lookahead == 101 then
      match scan_for_end_exec lexer.mark_end with
      | (matched, l) =>
        if matched == 8 then some (true, l.set_result .EXEC_BLOCK_CONTENT)
        else exec_block_content_loop fuel true l.mark_end
    else
      exec_block_content_loop fuel true (lexer.advance false).mark_end

/-- The function `tree_sitter_COBOL_external_scanner_scan`: the returned `bool`
and the lexer at the return, or `none` when `fuel` is used up. The characters
are 42 `*`, 47 `/`, 34 the double quote, 45 `-`, 32 the blank, 10 the newline. -/
def tree_sitter_COBOL_external_scanner_scan (fuel : Nat) (lexer : TSLexer)
    (valid_symbols : TokenType → Bool) : Option (Bool × TSLexer) :=
  if lexer.lookahead == 0 then some (false, lexer)
  else if valid_symbols .WHITE_SPACES && is_white_space lexer.lookahead then
    (advance_while (fun l => is_white_space l.lookahead) true fuel lexer).map
      fun l => (true, (l.set_result .WHITE_SPACES).mark_end)
  else if valid_symbols .LINE_PREFIX_COMMENT && decide (lexer.get_column ≤ 5) then
    (advance_while (fun l => decide (l.get_column ≤ 5)) true fuel lexer).map
      fun l => (true, (l.set_result .LINE_PREFIX_COMMENT).mark_end)
  else if valid_symbols .LINE_COMMENT && lexer.get_column == 6 then
    if lexer.lookahead == 42 || lexer.lookahead == 47 then
      (advance_while (fun l => l.lookahead != 10 && l.lookahead != 0) true fuel lexer).map
        fun l => (true, (l.set_result .LINE_COMMENT).mark_end)
    else some (false, (lexer.advance true).mark_end)
  else if valid_symbols .LINE_SUFFIX_COMMENT && decide (lexer.get_column ≥ 72) then
    (advance_while (fun l => l.lookahead != 10 && l.lookahead != 0) true fuel lexer).map
      fun l => (true, (l.set_result .LINE_SUFFIX_COMMENT).mark_end)
  else if valid_symbols .COMMENT_ENTRY then
    match start_with_word fuel lexer any_content_keyword number_of_comment_entry_keywords with
    | none => none
    | some (false, l) => some (true, l.mark_end.set_result .COMMENT_ENTRY)
    | some (true, l) => some (false, l)
  else if valid_symbols .multiline_string then multiline_string_loop fuel lexer
  else if valid_symbols .EXEC_BLOCK_CONTENT then exec_block_content_loop fuel false lexer
  else some (false, lexer)

/-- The admissible set that holds the single kind `t`. -/
def only (t : TokenType) : TokenType → Bool := fun s => decide (s = t)

/-! ## Definitions used to state the theorems -/

namespace TSLexer

/-- The lexer after `n` characters of the current line were read and `post`
is what remains: the closed form of `n` calls of `advance`. -/
def moved (lexer : TSLexer) (n : Nat) (post : List Nat) (skip : Bool) : TSLexer :=
  { pos := lexer.pos + n
    rest := post
    column := lexer.column + n
    token_start := if skip && n != 0 then lexer.pos + n else lexer.token_start
    marks := lexer.marks
    result_symbol := lexer.result_symbol }

end TSLexer

/-- The characters of `input` before its first newline or NUL. -/
def line_run (input : List Nat) : List Nat := input.takeWhile (fun c => c != 10 && c != 0)

/-- The characters of `input` from its first newline or NUL on. -/
def line_end (input : List Nat) : List Nat := input.dropWhile (fun c => c != 10 && c != 0)

/-- The number of leading characters of `input` that match `keyword`
case-insensitively, one by one: the count `scan_for_end_exec` returns. -/
def match_length : List Nat → List Nat → Nat
  | [], _ => 0
  | _ :: _, [] => 0
  | k :: keyword, x :: input => if towlower x = k then match_length keyword input + 1 else 0

/-- The column after the characters `xs` were read from column `col`. -/
def column_after : Nat → List Nat → Nat
  | col, [] => col
  | col, x :: xs => column_after (if x = 10 then 0 else col + 1) xs

/-- Every character of `xs` other than a newline is read at a column below
72, when the first one is read at column `col`. -/
def columns_fit : Nat → List Nat → Prop
  | _, [] => True
  | col, x :: xs => if x = 10 then columns_fit 0 xs else col < 72 ∧ columns_fit (col + 1) xs

/-- The lexer once the content `c` was read by the block scanner, with `ms`
the positions given to `mark_end` so far. -/
def after_content (lexer : TSLexer) (c tail ms : List Nat) : TSLexer :=
  { pos := lexer.pos + c.length
    rest := tail
    column := column_after lexer.column c
    token_start := lexer.token_start
    marks := ms
    result_symbol := lexer.result_symbol }

namespace TSLexer

/-- The lexer after the characters `xs` were read, newlines among them, and
`post` is what remains: the closed form of the calls of `advance`. -/
def read (lexer : TSLexer) (xs post : List Nat) (skip : Bool) : TSLexer :=
  { pos := lexer.pos + xs.length
    rest := post
    column := column_after lexer.column xs
    token_start := if skip && !xs.isEmpty then lexer.pos + xs.length else lexer.token_start
    marks := lexer.marks
    result_symbol := lexer.result_symbol }

end TSLexer

/-- The lexer state `l` comes after the state `lexer` in one call: the read
position has moved forward over a part of the remaining input, and the
positions `added` given to `mark_end` in between (latest first) do not
decrease in time and lie between the two read positions. -/
def scan_progress (lexer l : TSLexer) : Prop :=
  lexer.pos ≤ l.pos ∧ l.pos ≤ lexer.pos + lexer.rest.length ∧
  l.rest = lexer.rest.drop (l.pos - lexer.pos) ∧
  ∃ added : List Nat, l.marks = added ++ lexer.marks ∧
    added.Pairwise (fun later earlier => earlier ≤ later) ∧
    ∀ m ∈ added, lexer.pos ≤ m ∧ m ≤ l.pos

namespace TSLexer

/-- The lexer `lexer` when the input ends at position `B`. -/
def cut (lexer : TSLexer) (B : Nat) : TSLexer :=
  { lexer with rest := lexer.rest.take (B - lexer.pos) }

/-- The commit boundary at the return of the scan: the position of the latest
`mark_end`, or the read position when `mark_end` was not called. -/
def commit_boundary (lexer : TSLexer) : Nat := lexer.marks.headD lexer.pos

end TSLexer

/-- The characters of `input` from the start of the scan to the commit
boundary of the lexer `l` the scan returned. -/
def token_span (input : List Nat) (l : TSLexer) : List Nat :=
  input.take l.commit_boundary

/-- The text the host gives the token: the span without the characters that
were read with `skip`. -/
def token_text (input : List Nat) (l : TSLexer) : List Nat :=
  (input.take l.commit_boundary).drop l.token_start

/-! ## Lemmas -/

theorem TSLexer.moved_zero (lexer : TSLexer) (skip : Bool) :
    lexer.moved 0 lexer.rest skip = lexer := by
  cases lexer; simp [TSLexer.moved]

theorem TSLexer.advance_cons (lexer : TSLexer) (x : Nat) (xs : List Nat) (skip : Bool)
    (h : lexer.rest = x :: xs) (hx : x ≠ 10) :
    lexer.advance skip = lexer.moved 1 xs skip := by
  cases lexer
  simp only at h
  subst h
  cases skip <;> simp [TSLexer.advance, TSLexer.moved, hx]

theorem TSLexer.moved_moved (lexer : TSLexer) (n : Nat) (p q : List Nat) (skip : Bool) :
    (lexer.moved 1 p skip).moved n q skip = lexer.moved (n + 1) q skip := by
  cases skip
  · simp [TSLexer.moved]; omega
  · by_cases hn : n = 0
    · simp [TSLexer.moved, hn]
    · simp [TSLexer.moved, hn]; omega

/-- A loop `while (cond) advance` reads the run `xs` of the current line when
`cond` holds before each of its characters and fails after the last one. -/
theorem advance_while_run (cond : TSLexer → Bool) (skip : Bool) :
    ∀ (xs post : List Nat) (lexer : TSLexer) (fuel : Nat),
      lexer.rest = xs ++ post → 10 ∉ xs →
      (∀ a x b, xs = a ++ x :: b → cond (lexer.moved a.length (x :: b ++ post) skip) = true) →
      cond (lexer.moved xs.length post skip) = false →
      xs.length < fuel →
      advance_while cond skip fuel lexer = some (lexer.moved xs.length post skip) := by
  intro xs
  induction xs with
  | nil =>
    intro post lexer fuel hrest _ _ hend hfuel
    obtain ⟨f, rfl⟩ := Nat.exists_eq_succ_of_ne_zero (Nat.not_eq_zero_of_lt hfuel)
    simp only [List.nil_append] at hrest
    subst hrest
    simp only [List.length_nil, TSLexer.moved_zero] at hend ⊢
    simp [advance_while, hend]
  | cons x xs ih =>
    intro post lexer fuel hrest hnl hcond hend hfuel
    obtain ⟨f, rfl⟩ := Nat.exists_eq_succ_of_ne_zero (Nat.not_eq_zero_of_lt hfuel)
    have hx : x ≠ 10 := fun h => hnl (by simp [h])
    have hnl2 : 10 ∉ xs := fun h => hnl (by simp [h])
    have h0 : cond lexer = true := by
      have := hcond [] x xs rfl
      simpa [← hrest, TSLexer.moved_zero] using this
    have hadv := lexer.advance_cons x (xs ++ post) skip (by simpa using hrest) hx
    have hstep := ih post (lexer.moved 1 (xs ++ post) skip) f rfl hnl2
      (by
        intro a y b hab
        have := hcond (x :: a) y b (by simp [hab])
        simpa [TSLexer.moved_moved] using this)
      (by simpa [TSLexer.moved_moved] using hend)
      (by simpa using hfuel)
    simp only [advance_while, h0, if_true, hadv, hstep, TSLexer.moved_moved, List.length_cons]

theorem scan_only_multiline_string (fuel : Nat) (lexer : TSLexer) :
    tree_sitter_COBOL_external_scanner_scan fuel lexer (only .multiline_string) =
      if lexer.lookahead == 0 then some (false, lexer) else multiline_string_loop fuel lexer := by
  simp [tree_sitter_COBOL_external_scanner_scan, only]

theorem scan_only_exec_block_content (fuel : Nat) (lexer : TSLexer) :
    tree_sitter_COBOL_external_scanner_scan fuel lexer (only .EXEC_BLOCK_CONTENT) =
      if lexer.lookahead == 0 then some (false, lexer)
      else exec_block_content_loop fuel false lexer := by
  simp [tree_sitter_COBOL_external_scanner_scan, only]

/-- One round of the string loop on a literal closed on the current line. -/
theorem multiline_string_loop_closed (s post : List Nat) (lexer : TSLexer) (fuel : Nat)
    (hrest : lexer.rest = 34 :: s ++ 34 :: post)
    (hq : 34 ∉ s) (hn : 10 ∉ s) (h0 : 0 ∉ s) (hcol : lexer.column + s.length < 72)
    (hfuel : s.length + 2 ≤ fuel) :
    multiline_string_loop fuel lexer =
      some (true,
        { pos := lexer.pos + s.length + 2
          rest := post
          column := lexer.column + s.length + 2
          token_start := lexer.token_start
          marks := (lexer.pos + s.length + 2) :: lexer.marks
          result_symbol := some .multiline_string }) := by
  obtain ⟨f, rfl⟩ : ∃ f, fuel = f + 1 := ⟨fuel - 1, by omega⟩
  have hrun := advance_while_run
    (fun l => l.lookahead != 34 && l.lookahead != 0 && decide (l.get_column < 72)) false
    s (34 :: post) (lexer.moved 1 (s ++ 34 :: post) false) f rfl hn
    (by
      intro a x b hab
      have hx : x ∈ s := by simp [hab]
      have hlen : a.length < s.length := by simp [hab]
      have hx34 : x ≠ 34 := fun h => hq (h ▸ hx)
      have hx0 : x ≠ 0 := fun h => h0 (h ▸ hx)
      simp [TSLexer.moved, TSLexer.lookahead, TSLexer.get_column, hx34, hx0]
      omega)
    (by simp [TSLexer.moved, TSLexer.lookahead])
    (by omega)
  have hadv : lexer.advance false = lexer.moved 1 (s ++ 34 :: post) false :=
    TSLexer.advance_cons _ 34 _ false (by simpa using hrest) (by decide)
  have hla : lexer.lookahead = 34 := by simp [TSLexer.lookahead, hrest]
  rw [multiline_string_loop]
  simp only [hla, hadv, hrun]
  simp [TSLexer.lookahead, TSLexer.moved, TSLexer.set_result, TSLexer.advance,
    TSLexer.mark_end]
  omega

theorem line_run_append_line_end (input : List Nat) : line_run input ++ line_end input = input :=
  List.takeWhile_append_dropWhile _ _

theorem mem_line_run (input : List Nat) (x : Nat) (h : x ∈ line_run input) : x ≠ 10 ∧ x ≠ 0 := by
  have := List.mem_takeWhile_imp h
  simpa using this

theorem line_end_headD (input : List Nat) :
    (line_end input).headD 0 = 10 ∨ (line_end input).headD 0 = 0 := by
  induction input with
  | nil => simp [line_end]
  | cons x xs ih =>
    by_cases h10 : x = 10
    · simp [line_end, h10]
    · by_cases h0 : x = 0
      · simp [line_end, h0]
      · simpa [line_end, List.dropWhile_cons, h10, h0] using ih

/-- The loop `while(lookahead != '\n' && lookahead != 0) advance(true)`. -/
theorem advance_while_to_line_end (lexer : TSLexer) (fuel : Nat)
    (hfuel : (line_run lexer.rest).length < fuel) :
    advance_while (fun l => l.lookahead != 10 && l.lookahead != 0) true fuel lexer =
      some (lexer.moved (line_run lexer.rest).length (line_end lexer.rest) true) := by
  apply advance_while_run _ true (line_run lexer.rest) (line_end lexer.rest) lexer fuel
    (line_run_append_line_end _).symm
    (fun h => (mem_line_run _ _ h).1 rfl)
  · intro a x b hab
    have hx := mem_line_run lexer.rest x (by simp [hab])
    simp [TSLexer.moved, TSLexer.lookahead, hx.1, hx.2]
  · have hla : (lexer.moved (line_run lexer.rest).length (line_end lexer.rest) true).lookahead =
        (line_end lexer.rest).headD 0 := rfl
    rcases line_end_headD lexer.rest with h | h <;> simp only [hla, h] <;> decide
  · exact hfuel

theorem TSLexer.advance_marks (lexer : TSLexer) (skip : Bool) :
    (lexer.advance skip).marks = lexer.marks := by
  unfold TSLexer.advance
  split <;> rfl

theorem advance_while_marks (cond : TSLexer → Bool) (skip : Bool) :
    ∀ (fuel : Nat) (lexer r : TSLexer),
      advance_while cond skip fuel lexer = some r → r.marks = lexer.marks := by
  intro fuel
  induction fuel with
  | zero => intro lexer r h; simp [advance_while] at h
  | succ f ih =>
    intro lexer r h
    rw [advance_while] at h
    split at h
    · rw [ih _ _ h, TSLexer.advance_marks]
    · cases h; rfl

theorem skip_sequence_area_marks :
    ∀ (n : Nat) (lexer : TSLexer), (skip_sequence_area n lexer).2.marks = lexer.marks := by
  intro n
  induction n with
  | zero => intro lexer; rfl
  | succ n ih =>
    intro lexer
    rw [skip_sequence_area]
    split
    · rfl
    · rw [ih, TSLexer.advance_marks]

theorem multiline_string_loop_declined_marks :
    ∀ (fuel : Nat) (lexer r : TSLexer),
      multiline_string_loop fuel lexer = some (false, r) → r.marks = lexer.marks := by
  intro fuel
  induction fuel with
  | zero => intro lexer r h; simp [multiline_string_loop] at h
  | succ f ih =>
    intro lexer r h
    rw [multiline_string_loop] at h
    split at h
    · cases h; rfl
    · split at h
      · cases h
      · next l1 h1 =>
        have m1 := advance_while_marks _ _ _ _ _ h1
        rw [TSLexer.advance_marks] at m1
        split at h
        · cases h
        · split at h
          · cases h
          · next l2 h2 =>
            have m2 := advance_while_marks _ _ _ _ _ h2
            split at h
            · cases h; rw [m2, m1]
            · have m3 := skip_sequence_area_marks 6 (l2.advance true)
              rw [TSLexer.advance_marks] at m3
              split at h
              · next l3 h3 =>
                rw [h3] at m3
                cases h
                rw [m3, m2, m1]
              · next l3 h3 =>
                rw [h3] at m3
                split at h
                · cases h; rw [m3, m2, m1]
                · split at h
                  · cases h
                  · next l4 h4 =>
                    have m4 := advance_while_marks _ _ _ _ _ h4
                    rw [TSLexer.advance_marks] at m4
                    rw [ih _ _ h, m4, m3, m2, m1]

/-- The `for` loop over the sequence area reads `seq` when none of its
characters is a newline or NUL. -/
theorem skip_sequence_area_run :
    ∀ (seq post : List Nat) (lexer : TSLexer),
      lexer.rest = seq ++ post → 10 ∉ seq → 0 ∉ seq →
      skip_sequence_area seq.length lexer = (true, lexer.moved seq.length post true) := by
  intro seq
  induction seq with
  | nil =>
    intro post lexer hrest _ _
    simp only [List.nil_append] at hrest
    subst hrest
    simp [skip_sequence_area, TSLexer.moved_zero]
  | cons x xs ih =>
    intro post lexer hrest hnl h0
    have hx10 : x ≠ 10 := fun h => hnl (by simp [h])
    have hx0 : x ≠ 0 := fun h => h0 (by simp [h])
    have hla : lexer.lookahead = x := by simp [TSLexer.lookahead, hrest]
    have hadv := lexer.advance_cons x (xs ++ post) true (by simpa using hrest) hx10
    have hstep := ih post (lexer.moved 1 (xs ++ post) true) rfl
      (fun h => hnl (by simp [h])) (fun h => h0 (by simp [h]))
    simp only [List.length_cons, skip_sequence_area, hla, hadv, hstep, TSLexer.moved_moved]
    simp [hx10, hx0]

theorem headD_append_ne (xs ys : List Nat) (y c : Nat) (hxs : c ∉ xs) (hy : y ≠ c) :
    (xs ++ y :: ys).headD 0 ≠ c := by
  cases xs with
  | nil => simpa using hy
  | cons x xs => simp at hxs ⊢; exact fun h => hxs.1 h.symm

theorem match_length_le_keyword : ∀ (ks xs : List Nat), match_length ks xs ≤ ks.length := by
  intro ks
  induction ks with
  | nil => intro xs; simp [match_length]
  | cons k ks ih =>
    intro xs
    cases xs with
    | nil => simp [match_length]
    | cons x xs =>
      rw [match_length]
      split
      · simpa using ih xs
      · simp

theorem match_length_le_input : ∀ (ks xs : List Nat), match_length ks xs ≤ xs.length := by
  intro ks
  induction ks with
  | nil => intro xs; simp [match_length]
  | cons k ks ih =>
    intro xs
    cases xs with
    | nil => simp [match_length]
    | cons x xs =>
      rw [match_length]
      split
      · simpa using ih xs
      · simp

/-- The matched characters are the keyword's, up to letter case. -/
theorem match_length_take : ∀ (ks xs : List Nat),
    (xs.take (match_length ks xs)).map towlower = ks.take (match_length ks xs) := by
  intro ks
  induction ks with
  | nil => intro xs; simp [match_length]
  | cons k ks ih =>
    intro xs
    cases xs with
    | nil => simp [match_length]
    | cons x xs =>
      rw [match_length]
      split
      · next h => simp [h, ih xs]
      · simp

theorem match_length_eq_length : ∀ (ks xs : List Nat),
    (xs.take ks.length).map towlower = ks → match_length ks xs = ks.length := by
  intro ks
  induction ks with
  | nil => intro xs _; simp [match_length]
  | cons k ks ih =>
    intro xs h
    cases xs with
    | nil => simp at h
    | cons x xs =>
      simp only [List.length_cons, List.take_succ_cons, List.map_cons, List.cons.injEq] at h
      simp [match_length, h.1, ih xs h.2]

theorem towlower_ne_newline (x : Nat) (h : towlower x ≠ 10) : x ≠ 10 := by
  intro hx; subst hx; exact h (by decide)

/-- What `scan_for_end_exec_from` returns, in closed form. -/
theorem scan_for_end_exec_from_eq : ∀ (ks : List Nat) (matched : Nat) (lexer : TSLexer),
    10 ∉ ks →
    scan_for_end_exec_from ks matched lexer =
      (matched + match_length ks lexer.rest,
        lexer.moved (match_length ks lexer.rest) (lexer.rest.drop (match_length ks lexer.rest))
          false) := by
  intro ks
  induction ks with
  | nil =>
    intro matched lexer _
    simp [scan_for_end_exec_from, match_length, TSLexer.moved_zero]
  | cons k ks ih =>
    intro matched lexer hk
    cases hr : lexer.rest with
    | nil =>
      have := lexer.moved_zero false
      rw [hr] at this
      simp [scan_for_end_exec_from, TSLexer.eof, hr, match_length, this]
    | cons x xs =>
      by_cases hx : towlower x = k
      · have hx10 : x ≠ 10 := towlower_ne_newline x (by rw [hx]; exact fun h => hk (by simp [h]))
        have hadv := lexer.advance_cons x xs false hr hx10
        have hstep := ih (matched + 1) (lexer.moved 1 xs false) (fun h => hk (by simp [h]))
        have hrest : (lexer.moved 1 xs false).rest = xs := rfl
        rw [hrest] at hstep
        simp only [scan_for_end_exec_from, TSLexer.eof, TSLexer.lookahead, hr, hadv, hstep,
          match_length, TSLexer.moved_moved]
        simp [hx]
        omega
      · have := lexer.moved_zero false
        rw [hr] at this
        simp [scan_for_end_exec_from, TSLexer.eof, TSLexer.lookahead, hr, match_length, hx, this]

theorem scan_for_end_exec_eq (lexer : TSLexer) :
    scan_for_end_exec lexer =
      (match_length end_exec_keyword lexer.rest,
        lexer.moved (match_length end_exec_keyword lexer.rest)
          (lexer.rest.drop (match_length end_exec_keyword lexer.rest)) false) := by
  rw [scan_for_end_exec, scan_for_end_exec_from_eq _ _ _ (by decide)]
  simp

theorem column_after_line : ∀ (xs : List Nat) (col : Nat),
    10 ∉ xs → column_after col xs = col + xs.length := by
  intro xs
  induction xs with
  | nil => intro col _; rfl
  | cons x xs ih =>
    intro col h
    have hx : x ≠ 10 := fun e => h (by simp [e])
    rw [column_after, if_neg hx, ih _ (fun e => h (by simp [e]))]
    simp; omega

theorem column_after_append : ∀ (xs ys : List Nat) (col : Nat),
    column_after col (xs ++ ys) = column_after (column_after col xs) ys := by
  intro xs
  induction xs with
  | nil => intro ys col; rfl
  | cons x xs ih => intro ys col; simp [column_after, ih]

theorem columns_fit_drop_line : ∀ (k : Nat) (xs : List Nat) (col : Nat),
    columns_fit col xs → 10 ∉ xs.take k → k ≤ xs.length → columns_fit (col + k) (xs.drop k) := by
  intro k
  induction k with
  | zero => intro xs col h _ _; simpa using h
  | succ k ih =>
    intro xs col h hnl hk
    cases xs with
    | nil => simp at hk
    | cons x xs =>
      have hx : x ≠ 10 := fun e => hnl (by simp [e])
      rw [columns_fit, if_neg hx] at h
      have := ih xs (col + 1) h.2 (fun e => hnl (by simp [e])) (by simpa using hk)
      simpa [Nat.add_assoc, Nat.add_comm 1 k] using this

theorem match_length_take_no_newline (ks xs : List Nat) (hk : 10 ∉ ks) :
    10 ∉ xs.take (match_length ks xs) := by
  intro h
  have h2 : towlower 10 ∈ (xs.take (match_length ks xs)).map towlower :=
    List.mem_map_of_mem towlower h
  rw [match_length_take] at h2
  exact hk (List.mem_of_mem_take h2)

/-- The block scanner reads the content `c` when every character of `c` is in
a column below 72, no terminator starts in `c`, and no attempt to match the
terminator that starts in `c` reads beyond `c`; the commit boundary follows. -/
theorem exec_block_content_loop_content :
    ∀ (n : Nat) (c tail : List Nat) (lexer : TSLexer) (has_content : Bool),
      c.length ≤ n → lexer.rest = c ++ tail → columns_fit lexer.column c →
      (∀ i, i < c.length →
        i + match_length end_exec_keyword ((c ++ tail).drop i) ≤ c.length ∧
        match_length end_exec_keyword ((c ++ tail).drop i) ≠ 8) →
      ∃ ms : List Nat,
        (c ≠ [] → ms.head? = some (lexer.pos + c.length)) ∧ (c = [] → ms = lexer.marks) ∧
        ∀ (f : Nat) (res : Bool × TSLexer),
          (∀ f', f ≤ f' →
            exec_block_content_loop f' (has_content || !c.isEmpty)
              (after_content lexer c tail ms) = some res) →
          ∀ F, f + c.length ≤ F → exec_block_content_loop F has_content lexer = some res := by
  intro n
  induction n with
  | zero =>
    intro c tail lexer hc hlen hrest _ _
    have hc0 : c = [] := List.eq_nil_of_length_eq_zero (Nat.le_zero.1 hlen)
    subst hc0
    refine ⟨lexer.marks, by simp, by simp, ?_⟩
    intro f res hres F hF
    have hst : after_content lexer [] tail lexer.marks = lexer := by
      cases lexer; simp at hrest; simp [after_content, column_after, hrest]
    have := hres F (by simpa using hF)
    simpa [hst] using this
  | succ n ih =>
    intro c tail lexer hc hlen hrest hfit hno
    cases c with
    | nil =>
      refine ⟨lexer.marks, by simp, by simp, ?_⟩
      intro f res hres F hF
      have hst : after_content lexer [] tail lexer.marks = lexer := by
        cases lexer; simp at hrest; simp [after_content, column_after, hrest]
      have := hres F (by simpa using hF)
      simpa [hst] using this
    | cons x c =>
      have hrest2 : lexer.rest = x :: (c ++ tail) := by simpa using hrest
      have heof : lexer.eof = false := by simp [TSLexer.eof, hrest2]
      have hla : lexer.lookahead = x := by simp [TSLexer.lookahead, hrest2]
      have hlen2 : c.length ≤ n := by simpa using hlen
      by_cases hx : x = 10
      · -- a newline is content
        subst hx
        rw [columns_fit, if_pos rfl] at hfit
        have hadv : (lexer.advance false).mark_end =
            { lexer with pos := lexer.pos + 1, rest := c ++ tail, column := 0,
                         marks := (lexer.pos + 1) :: lexer.marks } := by
          simp [TSLexer.advance, TSLexer.mark_end, hrest2]
        obtain ⟨ms, hms1, hms2, hrun⟩ := ih c tail _ true hlen2
          (show ((lexer.advance false).mark_end).rest = c ++ tail by rw [hadv])
          (by rw [hadv]; exact hfit)
          (by
            intro i hi
            have := hno (i + 1) (by simpa using hi)
            simp only [List.cons_append, List.drop_succ_cons, List.length_cons] at this
            exact ⟨by omega, this.2⟩)
        refine ⟨ms, ?_, by simp, ?_⟩
        · intro _
          by_cases hcn : c = []
          · rw [hms2 hcn, hadv, hcn]; simp
          · rw [hms1 hcn, hadv]; simp; omega
        · intro f res hres F hF
          obtain ⟨F0, rfl⟩ : ∃ F0, F = F0 + 1 := ⟨F - 1, by simp at hF; omega⟩
          have hst : after_content ((lexer.advance false).mark_end) c tail ms =
              after_content lexer (10 :: c) tail ms := by
            rw [hadv]; simp [after_content, column_after]; omega
          rw [exec_block_content_loop]
          simp only [heof, hla]
          simp only [Bool.false_eq_true, if_false, beq_self_eq_true, if_true]
          apply hrun f res _ F0 (by simp at hF; omega)
          intro f' hf'
          have := hres f' hf'
          simpa [hst] using this
      · rw [columns_fit, if_neg hx] at hfit
        have hcol : ¬ lexer.get_column ≥ 72 := by simp [TSLexer.get_column]; omega
        have hx10 : (x == 10) = false := by simpa using hx
        by_cases he : towlower x = 101
        · -- an attempt to match the terminator
          have hk := hno 0 (by simp)
          simp only [List.drop_zero, Nat.zero_add] at hk
          generalize hkdef : match_length end_exec_keyword (x :: c ++ tail) = k at hk
          have hk1 : 1 ≤ k := by
            rw [← hkdef]; simp [end_exec_keyword, match_length, he]
          have hscan := scan_for_end_exec_eq lexer.mark_end
          have hmrest : lexer.mark_end.rest = x :: c ++ tail := by
            simp [TSLexer.mark_end, hrest]
          rw [hmrest, hkdef] at hscan
          have hklen : k ≤ (x :: c).length := hk.1
          have hdrop : (x :: c ++ tail).drop k = (x :: c).drop k ++ tail := by
            rw [List.drop_append_of_le_length hklen]
          have htake : (x :: c ++ tail).take k = (x :: c).take k := by
            rw [List.take_append_of_le_length hklen]
          have hnl : 10 ∉ (x :: c).take k := by
            rw [← htake, ← hkdef]
            exact match_length_take_no_newline _ _ (by decide)
          generalize hl1 : (lexer.mark_end.moved k ((x :: c ++ tail).drop k) false).mark_end = l1
          have hl1rest : l1.rest = (x :: c).drop k ++ tail := by
            rw [← hl1, ← hdrop]; rfl
          have hl1col : l1.column = lexer.column + k := by rw [← hl1]; rfl
          have hl1pos : l1.pos = lexer.pos + k := by rw [← hl1]; rfl
          have hl1ts : l1.token_start = lexer.token_start := by
            rw [← hl1]; simp [TSLexer.moved, TSLexer.mark_end]
          have hl1res : l1.result_symbol = lexer.result_symbol := by rw [← hl1]; rfl
          have hl1marks : l1.marks = (lexer.pos + k) :: lexer.pos :: lexer.marks := by
            rw [← hl1]; rfl
          have hfit2 : columns_fit lexer.column (x :: c) := by
            rw [columns_fit, if_neg hx]; exact hfit
          obtain ⟨ms, hms1, hms2, hrun⟩ := ih ((x :: c).drop k) tail l1 true
            (by rw [List.length_drop]; simp; omega) hl1rest
            (by rw [hl1col]; exact columns_fit_drop_line k _ _ hfit2 hnl hklen)
            (by
              intro i hi
              rw [List.length_drop] at hi
              have := hno (i + k) (by omega)
              rw [← hdrop, List.drop_drop]
              rw [List.length_drop]
              have e : k + i = i + k := Nat.add_comm _ _
              rw [e]
              constructor
              · omega
              · exact this.2)
          refine ⟨ms, ?_, by simp, ?_⟩
          · intro _
            by_cases hcn : (x :: c).drop k = []
            · rw [hms2 hcn, hl1marks]
              have : (x :: c).length ≤ k := List.drop_eq_nil_iff.1 hcn
              simp; simp at this hklen; omega
            · rw [hms1 hcn, hl1pos, List.length_drop]; simp; simp at hklen; omega
          · intro f res hres F hF
            obtain ⟨F0, rfl⟩ : ∃ F0, F = F0 + 1 := ⟨F - 1, by simp at hF; omega⟩
            have hst : after_content l1 ((x :: c).drop k) tail ms =
                after_content lexer (x :: c) tail ms := by
              have hsplit : (x :: c) = (x :: c).take k ++ (x :: c).drop k :=
                (List.take_append_drop k _).symm
              have hcolafter : column_after lexer.column (x :: c) =
                  column_after (lexer.column + k) ((x :: c).drop k) := by
                conv_lhs => rw [hsplit]
                rw [column_after_append, column_after_line _ _ hnl, List.length_take,
                  Nat.min_eq_left hklen]
              simp only [after_content, hl1pos, hl1col, hl1ts, hl1res, hcolafter,
                List.length_drop]
              congr 1
              omega
            rw [exec_block_content_loop]
            simp only [heof, hla, hx10, hcol, he, hscan]
            have hk8 : (k == 8) = false := by simpa using hk.2
            simp only [Bool.false_eq_true, if_false, decide_False, beq_self_eq_true, if_true,
              hk8, hl1]
            apply hrun f res _ F0
              (by rw [List.length_drop]; simp at hF hklen ⊢; omega)
            intro f' hf'
            have := hres f' hf'
            simpa [hst] using this
        · -- an ordinary character
          have hadv : (lexer.advance false).mark_end =
              { lexer with pos := lexer.pos + 1, rest := c ++ tail, column := lexer.column + 1,
                           marks := (lexer.pos + 1) :: lexer.marks } := by
            simp [TSLexer.advance, TSLexer.mark_end, hrest2, hx]
          obtain ⟨ms, hms1, hms2, hrun⟩ := ih c tail _ true hlen2
            (show ((lexer.advance false).mark_end).rest = c ++ tail by rw [hadv])
            (by rw [hadv]; exact hfit.2)
            (by
              intro i hi
              have := hno (i + 1) (by simpa using hi)
              simp only [List.cons_append, List.drop_succ_cons, List.length_cons] at this
              exact ⟨by omega, this.2⟩)
          refine ⟨ms, ?_, by simp, ?_⟩
          · intro _
            by_cases hcn : c = []
            · rw [hms2 hcn, hadv, hcn]; simp
            · rw [hms1 hcn, hadv]; simp; omega
          · intro f res hres F hF
            obtain ⟨F0, rfl⟩ : ∃ F0, F = F0 + 1 := ⟨F - 1, by simp at hF; omega⟩
            have hst : after_content ((lexer.advance false).mark_end) c tail ms =
                after_content lexer (x :: c) tail ms := by
              rw [hadv]; simp [after_content, column_after, hx]; omega
            have he2 : (towlower x == 101) = false := by simpa using he
            rw [exec_block_content_loop]
            simp only [heof, hla, hx10, hcol, he2]
            simp only [Bool.false_eq_true, if_false, decide_False]
            apply hrun f res _ F0 (by simp at hF; omega)
            intro f' hf'
            have := hres f' hf'
            simpa [hst] using this

theorem columns_fit_of_lines : ∀ (input : List Nat) (col : Nat),
    (∀ l b, input = l ++ b → 10 ∉ l → col + l.length < 72) →
    (∀ a l b, input = a ++ 10 :: (l ++ b) → 10 ∉ l → l.length < 72) →
    columns_fit col input := by
  intro input
  induction input with
  | nil => intro col _ _; trivial
  | cons x xs ih =>
    intro col h1 h2
    rw [columns_fit]
    split
    · next hx =>
      subst hx
      apply ih 0
      · intro l b hl hnl
        have := h2 [] l b (by simp [hl]) hnl
        omega
      · intro a l b hl hnl
        exact h2 (10 :: a) l b (by simp [hl]) hnl
    · next hx =>
      constructor
      · have := h1 [x] xs rfl (by simpa using fun h => hx h.symm)
        simp at this; omega
      · apply ih (col + 1)
        · intro l b hl hnl
          have := h1 (x :: l) b (by simp [hl]) (by simp; exact ⟨fun h => hx h.symm, hnl⟩)
          simp at this; omega
        · intro a l b hl hnl
          exact h2 (x :: a) l b (by simp [hl]) hnl

theorem match_length_ne_of_no_terminator (xs : List Nat)
    (h : (xs.take 8).map towlower ≠ end_exec_keyword) :
    match_length end_exec_keyword xs ≠ 8 := by
  intro h8
  have := match_length_take end_exec_keyword xs
  rw [h8] at this
  exact h (by rw [this]; rfl)

theorem columns_fit_line : ∀ (c : List Nat) (col : Nat),
    10 ∉ c → col + c.length ≤ 72 → columns_fit col c := by
  intro c
  induction c with
  | nil => intro col _ _; trivial
  | cons x xs ih =>
    intro col hnl hlen
    have hx : x ≠ 10 := fun e => hnl (by simp [e])
    rw [columns_fit, if_neg hx]
    simp at hlen
    exact ⟨by omega, ih (col + 1) (fun e => hnl (by simp [e])) (by omega)⟩

/-- An attempt to match the terminator that starts in the content `c` does not
read into the terminator `t` that follows `c`, unless `c` ends with `END-` or
with `END-EX`. -/
theorem match_length_within_content (c t rest : List Nat) (i : Nat) (hi : i < c.length)
    (ht : t.map towlower = end_exec_keyword)
    (hend4 : (c.map towlower).drop (c.length - 4) ≠ [101, 110, 100, 45])
    (hend6 : (c.map towlower).drop (c.length - 6) ≠ [101, 110, 100, 45, 101, 120])
    (h8 : match_length end_exec_keyword ((c ++ (t ++ rest)).drop i) ≠ 8) :
    i + match_length end_exec_keyword ((c ++ (t ++ rest)).drop i) ≤ c.length := by
  by_contra hcon
  have hle := match_length_le_keyword end_exec_keyword ((c ++ (t ++ rest)).drop i)
  have hk := match_length_take end_exec_keyword ((c ++ (t ++ rest)).drop i)
  generalize match_length end_exec_keyword ((c ++ (t ++ rest)).drop i) = m at hcon hle hk h8
  have hm7 : m ≤ 7 := by
    have : end_exec_keyword.length = 8 := rfl
    omega
  obtain ⟨j, hj⟩ : ∃ j, c.length = i + j := ⟨c.length - i, by omega⟩
  have hjm : j < m := by omega
  have hj1 : 1 ≤ j := by omega
  have htlen : t.length = 8 := by
    have := congrArg List.length ht
    simpa [end_exec_keyword] using this
  -- the character at offset `j` of the attempt is the first one of `t`
  have h1 := congrArg (fun l => l[j]?) hk
  simp only [List.getElem?_map, List.getElem?_take, hjm, if_true, List.getElem?_drop] at h1
  rw [List.getElem?_append_right (by omega)] at h1
  have hz : i + j - c.length = 0 := by omega
  rw [hz, List.getElem?_append_left (by omega)] at h1
  have ht0 := congrArg (fun l => l[0]?) ht
  simp only [List.getElem?_map] at ht0
  rw [ht0] at h1
  have hj46 : j = 4 ∨ j = 6 := by
    have hj6 : j ≤ 6 := by omega
    clear hj hz hcon hjm hk
    interval_cases j <;> simp [end_exec_keyword] at h1 <;> simp
  -- so the `j` characters before `t` are the first `j` ones of the keyword
  have hj : (c.map towlower).drop (c.length - j) = end_exec_keyword.take j := by
    have h4 := congrArg (List.take j) hk
    rw [List.take_take, Nat.min_eq_left (by omega), ← List.map_take, List.take_take,
      Nat.min_eq_left (by omega), List.drop_append_of_le_length (by omega),
      List.take_append_of_le_length (by rw [List.length_drop]; omega),
      List.take_of_length_le (by rw [List.length_drop]; omega)] at h4
    have hi4 : c.length - j = i := by omega
    rw [hi4, ← List.map_drop, h4]
  rcases hj46 with h | h <;> subst h
  · exact hend4 hj
  · exact hend6 hj

theorem TSLexer.advance_rest_length (lexer : TSLexer) (skip : Bool) (h : lexer.rest ≠ []) :
    (lexer.advance skip).rest.length + 1 = lexer.rest.length := by
  unfold TSLexer.advance
  cases hr : lexer.rest with
  | nil => exact absurd hr h
  | cons x xs => simp

/-- A loop `while (cond) advance` ends when `cond` fails at the end of input. -/
theorem advance_while_returns (cond : TSLexer → Bool) (skip : Bool)
    (hcond : ∀ l, cond l = true → l.rest ≠ []) :
    ∀ (fuel : Nat) (lexer : TSLexer), lexer.rest.length < fuel →
      ∃ r, advance_while cond skip fuel lexer = some r ∧
        r.rest.length ≤ lexer.rest.length ∧
        (cond lexer = true → r.rest.length < lexer.rest.length) := by
  intro fuel
  induction fuel with
  | zero => intro lexer h; omega
  | succ f ih =>
    intro lexer h
    rw [advance_while]
    by_cases hc : cond lexer = true
    · have hlen := lexer.advance_rest_length skip (hcond lexer hc)
      obtain ⟨r, hr, hle, _⟩ := ih (lexer.advance skip) (by omega)
      exact ⟨r, by simp [hc, hr], by omega, fun _ => by omega⟩
    · exact ⟨lexer, by simp [hc], Nat.le_refl _, fun h => absurd h hc⟩

/-- Once the block scanner has content it returns `EXEC_BLOCK_CONTENT`. -/
theorem exec_block_content_loop_has_content :
    ∀ (fuel : Nat) (lexer : TSLexer), lexer.rest.length + 1 < fuel →
      ∃ r, exec_block_content_loop fuel true lexer = some (true, r) ∧
        r.result_symbol = some .EXEC_BLOCK_CONTENT := by
  intro fuel
  induction fuel with
  | zero => intro lexer h; omega
  | succ f ih =>
    intro lexer h
    rw [exec_block_content_loop]
    cases hr : lexer.rest with
    | nil => exact ⟨lexer.set_result .EXEC_BLOCK_CONTENT, by simp [TSLexer.eof, hr], rfl⟩
    | cons x xs =>
      have heof : lexer.eof = false := by simp [TSLexer.eof, hr]
      have hne : lexer.rest ≠ [] := by simp [hr]
      have hadv := lexer.advance_rest_length false hne
      have hstep : ∃ r, exec_block_content_loop f true (lexer.advance false).mark_end =
          some (true, r) ∧ r.result_symbol = some .EXEC_BLOCK_CONTENT :=
        ih _ (by simp only [TSLexer.mark_end]; omega)
      simp only [heof, Bool.false_eq_true, if_false, if_true]
      split
      · exact hstep
      · next hnl =>
        split
        · -- the trailing area
          have hc : (fun l : TSLexer => l.lookahead != 10 && !l.eof) lexer = true := by
            simp only [heof]; simpa using hnl
          obtain ⟨l, hl, _, hlt⟩ := advance_while_returns
            (fun l => l.lookahead != 10 && !l.eof) false
            (by intro l hl; simp [TSLexer.eof] at hl; exact hl.2)
            f lexer (by omega)
          obtain ⟨r, hr1, hr2⟩ := ih l (by have := hlt hc; omega)
          exact ⟨r, by simp only [hl, hr1], hr2⟩
        · split
          · -- an attempt to match the terminator
            next he =>
            have hscan := scan_for_end_exec_eq lexer.mark_end
            have hmrest : lexer.mark_end.rest = lexer.rest := rfl
            rw [hmrest] at hscan
            generalize hk : match_length end_exec_keyword lexer.rest = k at hscan
            have hk1 : 1 ≤ k := by
              rw [← hk, hr]
              have : towlower x = 101 := by
                simpa [TSLexer.lookahead, hr] using he
              simp [end_exec_keyword, match_length, this]
            have hkle : k ≤ lexer.rest.length := by
              rw [← hk]; exact match_length_le_input _ _
            rw [hscan]
            simp only
            split
            · exact ⟨_, rfl, rfl⟩
            · apply ih
              simp only [TSLexer.mark_end, TSLexer.moved, List.length_drop]
              omega
          · exact hstep

/-! ## The claims -/

/-! ### C1: the word-boundary test of the block terminator -/

/-- Claim C1 fails on the code: on `MOVE A END-EXECUTION B. END-EXEC`, with only
ExecBlockContent admissible, the scan stops at the `END-EXEC` of
`END-EXECUTION`. It returns ExecBlockContent with the commit boundary at
offset 7, before that occurrence, and `UTION B. END-EXEC` is left unread; the
text is not taken as content and the scan does not go on to the terminator at
offset 24. The count returned by `scan_for_end_exec` is 8 whatever follows the
eight characters. -/
theorem C1_end_execution_ends_block :
    tree_sitter_COBOL_external_scanner_scan 40
        (TSLexer.start (codes "MOVE A END-EXECUTION B. END-EXEC") 0)
        (only .EXEC_BLOCK_CONTENT) =
      some (true,
        { pos := 15
          rest := codes "UTION B. END-EXEC"
          column := 15
          token_start := 0
          marks := [7, 7, 6, 5, 4, 3, 3, 2, 1]
          result_symbol := some .EXEC_BLOCK_CONTENT }) ∧
    (scan_for_end_exec (TSLexer.start (codes "END-EXECUTION") 0)).1 = 8 := by
  decide

/-! ### C2: the block ends at the first terminator -/

/-- Claim C2, as amended: with only ExecBlockContent admissible and the scan
starting at column 0, let `c` be a content string on one line that does not
begin with NUL and does not end with `END-` or `END-EX` in any letter case,
such that `c` followed by the terminator fits in columns 0..71 and no
case-insensitive `END-EXEC` starts in `c ++ t` before offset `|c|`; let `t` be
`END-EXEC` in any letter case and let `rest` be empty or begin with a
character that is neither alphanumeric nor an underscore. Then the scan of
`c ++ t ++ rest` returns ExecBlockContent with the commit boundary at the end
of `c`; nothing was skipped, so the token is `c`. -/
theorem C2_block_ends_at_terminator (c t rest : List Nat) (fuel : Nat)
    (hnl : 10 ∉ c) (hfits : c.length + 8 ≤ 72)
    (ht : t.map towlower = end_exec_keyword)
    (hfirst : ∀ i, i < c.length →
      (((c ++ t).drop i).take 8).map towlower ≠ end_exec_keyword)
    (_hrest : rest = [] ∨ (iswalnum (rest.headD 0) = false ∧ rest.headD 0 ≠ 95))
    (hnul : c.head? ≠ some 0)
    (hend4 : (c.map towlower).drop (c.length - 4) ≠ [101, 110, 100, 45])
    (hend6 : (c.map towlower).drop (c.length - 6) ≠ [101, 110, 100, 45, 101, 120])
    (hfuel : c.length + 1 ≤ fuel) :
    ∃ ms : List Nat,
      tree_sitter_COBOL_external_scanner_scan fuel (TSLexer.start (c ++ (t ++ rest)) 0)
          (only .EXEC_BLOCK_CONTENT) =
        some (true,
          { pos := c.length + 8
            rest := rest
            column := c.length + 8
            token_start := 0
            marks := c.length :: ms
            result_symbol := some .EXEC_BLOCK_CONTENT }) := by
  have htlen : t.length = 8 := by
    have := congrArg List.length ht
    simpa [end_exec_keyword] using this
  obtain ⟨t0, ts, rfl⟩ : ∃ t0 ts, t = t0 :: ts := by
    cases t with
    | nil => simp at htlen
    | cons a b => exact ⟨a, b, rfl⟩
  have ht0 : towlower t0 = 101 := by
    simp [end_exec_keyword] at ht; exact ht.1
  have ht0nl : t0 ≠ 10 := towlower_ne_newline t0 (by rw [ht0]; decide)
  have ht0nul : t0 ≠ 0 := by
    intro h; subst h; revert ht0; decide
  have hno8 : ∀ i, i < c.length →
      match_length end_exec_keyword ((c ++ (t0 :: ts ++ rest)).drop i) ≠ 8 := by
    intro i hi
    apply match_length_ne_of_no_terminator
    have := hfirst i hi
    rw [← List.append_assoc, List.drop_append_of_le_length (by simp; omega),
      List.take_append_of_le_length (by rw [List.length_drop]; simp at htlen ⊢; omega)]
    exact this
  obtain ⟨ms, _, _, hrun⟩ := exec_block_content_loop_content c.length c (t0 :: ts ++ rest)
    (TSLexer.start (c ++ (t0 :: ts ++ rest)) 0) false (Nat.le_refl _) rfl
    (columns_fit_line c 0 hnl (by omega))
    (fun i hi => ⟨match_length_within_content c (t0 :: ts) rest i hi ht hend4 hend6 (hno8 i hi),
      hno8 i hi⟩)
  have hla : ((TSLexer.start (c ++ (t0 :: ts ++ rest)) 0).lookahead == 0) = false := by
    cases c with
    | nil => simpa [TSLexer.start, TSLexer.lookahead] using ht0nul
    | cons y ys =>
      have : y ≠ 0 := by simpa using hnul
      simpa [TSLexer.start, TSLexer.lookahead] using this
  refine ⟨ms, ?_⟩
  rw [scan_only_exec_block_content, hla]
  simp only [Bool.false_eq_true, if_false]
  apply hrun 1 _ _ fuel (by omega)
  intro f' hf'
  obtain ⟨g, rfl⟩ : ∃ g, f' = g + 1 := ⟨f' - 1, by omega⟩
  generalize hS : after_content (TSLexer.start (c ++ (t0 :: ts ++ rest)) 0) c
    (t0 :: ts ++ rest) ms = S
  have hSrest : S.rest = t0 :: ts ++ rest := by rw [← hS]; rfl
  have hSeof : S.eof = false := by simp [TSLexer.eof, hSrest]
  have hSla : S.lookahead = t0 := by simp [TSLexer.lookahead, hSrest]
  have hScol : S.column = c.length := by
    rw [← hS]; simp [after_content, TSLexer.start, column_after_line c 0 hnl]
  have hScol2 : ¬ S.get_column ≥ 72 := by simp [TSLexer.get_column, hScol]; omega
  have hmatch : match_length end_exec_keyword (t0 :: ts ++ rest) = 8 :=
    match_length_eq_length end_exec_keyword (t0 :: ts ++ rest)
      (by
        have : end_exec_keyword.length = (t0 :: ts).length := by rw [htlen]; rfl
        rw [this, List.take_left']
        · exact ht
        · rfl)
  have hscan := scan_for_end_exec_eq S.mark_end
  have hmrest : S.mark_end.rest = t0 :: ts ++ rest := by simp [TSLexer.mark_end, hSrest]
  rw [hmrest, hmatch] at hscan
  have hdrop : (t0 :: ts ++ rest).drop 8 = rest := by
    rw [← htlen]; exact List.drop_left' rfl
  have ht0b : (t0 == 10) = false := by simpa using ht0nl
  rw [exec_block_content_loop]
  simp only [hSeof, hSla, ht0b, hScol2, ht0, hscan, hdrop]
  simp [TSLexer.moved, TSLexer.mark_end, TSLexer.set_result]
  rw [← hS]
  simp [after_content, TSLexer.start, column_after_line c 0 hnl]

/-- Claim C2 at `c = MOVE A TO B`, followed by `END-EXEC` and the end of input. -/
theorem C2_block_ends_at_terminator_witness :
    ∃ ms : List Nat,
      tree_sitter_COBOL_external_scanner_scan 12
          (TSLexer.start (codes "MOVE A TO B" ++ (codes "END-EXEC" ++ [])) 0)
          (only .EXEC_BLOCK_CONTENT) =
        some (true,
          { pos := (codes "MOVE A TO B").length + 8
            rest := []
            column := (codes "MOVE A TO B").length + 8
            token_start := 0
            marks := (codes "MOVE A TO B").length :: ms
            result_symbol := some .EXEC_BLOCK_CONTENT }) :=
  C2_block_ends_at_terminator (codes "MOVE A TO B") (codes "END-EXEC") [] 12
    (by decide) (by decide) (by decide) (by decide) (Or.inl rfl) (by decide) (by decide)
    (by decide) (by decide)

/-- Claim C2 fails as stated. The content `END-` satisfies its conditions (one
line, 12 columns with the terminator, no `END-EXEC` before offset 4), yet on
`END-END-EXEC` the scan reads `END-E` as a failed attempt, never sees the
terminator, and returns with the commit boundary at the end of input, 12; the
content `END-EX` behaves alike; and a content that begins with NUL makes the
scan decline. -/
theorem C2_counterexample :
    (10 ∉ codes "END-" ∧ (codes "END-").length + 8 ≤ 72 ∧
      (∀ i, i < (codes "END-").length →
        (((codes "END-" ++ codes "END-EXEC").drop i).take 8).map towlower ≠ end_exec_keyword)) ∧
    tree_sitter_COBOL_external_scanner_scan 20
        (TSLexer.start (codes "END-" ++ (codes "END-EXEC" ++ [])) 0)
        (only .EXEC_BLOCK_CONTENT) =
      some (true,
        { pos := 12, rest := [], column := 12, token_start := 0,
          marks := [12, 11, 10, 10, 9, 8, 8, 7, 6, 5, 0],
          result_symbol := some .EXEC_BLOCK_CONTENT }) ∧
    (tree_sitter_COBOL_external_scanner_scan 20
        (TSLexer.start (codes "END-EX" ++ (codes "END-EXEC" ++ [])) 0)
        (only .EXEC_BLOCK_CONTENT)).map (fun r => (r.1, r.2.marks.head?)) =
      some (true, some 14) ∧
    tree_sitter_COBOL_external_scanner_scan 20
        (TSLexer.start ([0] ++ (codes "END-EXEC" ++ [])) 0) (only .EXEC_BLOCK_CONTENT) =
      some (false, TSLexer.start ([0] ++ (codes "END-EXEC" ++ [])) 0) := by
  decide

/-! ### C3: a block of whitespace only -/

/-- Claim C3, as amended: with only ExecBlockContent admissible, for every
non-empty input that consists solely of whitespace characters, read from a
start column below 72, the scan returns ExecBlockContent: whitespace and
newlines are content. -/
theorem C3_whitespace_only_block (input : List Nat) (col fuel : Nat)
    (hne : input ≠ []) (hws : ∀ x ∈ input, iswspace x = true)
    (hcol : col < 72) (hfuel : input.length + 2 ≤ fuel) :
    ∃ r, tree_sitter_COBOL_external_scanner_scan fuel (TSLexer.start input col)
        (only .EXEC_BLOCK_CONTENT) = some (true, r) ∧
      r.result_symbol = some .EXEC_BLOCK_CONTENT := by
  cases input with
  | nil => exact absurd rfl hne
  | cons x xs =>
    have hx : iswspace x = true := hws x (by simp)
    have hx32 : x ≤ 32 ∧ 9 ≤ x := by
      simp [iswspace] at hx; omega
    have hx0 : x ≠ 0 := by omega
    have hxe : towlower x ≠ 101 := by
      have : towlower x = x := by simp [towlower]; omega
      omega
    obtain ⟨f, rfl⟩ : ∃ f, fuel = f + 1 := ⟨fuel - 1, by simp at hfuel; omega⟩
    have hstep := exec_block_content_loop_has_content f
      ((TSLexer.start (x :: xs) col).advance false).mark_end
      (by simp [TSLexer.start, TSLexer.advance, TSLexer.mark_end] at hfuel ⊢; omega)
    have hla : (TSLexer.start (x :: xs) col).lookahead = x := rfl
    have heof : (TSLexer.start (x :: xs) col).eof = false := rfl
    have hc : ¬ (TSLexer.start (x :: xs) col).get_column ≥ 72 := by
      simp [TSLexer.start, TSLexer.get_column]; exact hcol
    rw [scan_only_exec_block_content, exec_block_content_loop]
    simp only [hla, heof]
    simp only [hx0, hxe, hc, beq_iff_eq, Bool.false_eq_true, if_false, decide_False]
    split
    · exact hstep
    · exact hstep

/-- Claim C3 (amended) on a blank, a newline and a tab. -/
theorem C3_whitespace_only_block_witness :
    ∃ r, tree_sitter_COBOL_external_scanner_scan 5 (TSLexer.start [32, 10, 9] 0)
        (only .EXEC_BLOCK_CONTENT) = some (true, r) ∧
      r.result_symbol = some .EXEC_BLOCK_CONTENT :=
  C3_whitespace_only_block [32, 10, 9] 0 5 (by decide) (by decide) (by decide) (by decide)

/-- Claim C3 fails as stated: the input of one blank is non-empty, holds only
whitespace and no terminator, and the scan returns ExecBlockContent. -/
theorem C3_counterexample :
    ([32] : List Nat) ≠ [] ∧ (∀ x ∈ ([32] : List Nat), x = 32 ∨ x = 9 ∨ x = 10) ∧
    tree_sitter_COBOL_external_scanner_scan 3 (TSLexer.start [32] 0)
        (only .EXEC_BLOCK_CONTENT) =
      some (true,
        { pos := 1, rest := [], column := 1, token_start := 0, marks := [1],
          result_symbol := some .EXEC_BLOCK_CONTENT }) := by
  decide

/-! ### C4: an unterminated block -/

/-- Claim C4, as amended: with only ExecBlockContent admissible, for every
input that does not begin with NUL, contains a non-whitespace character and no
case-insensitive `END-EXEC`, and whose every line is shorter than 72 columns
(the first line counted from the start column `col`), the scan returns
ExecBlockContent with the commit boundary at the end of input; nothing was
skipped, so the token is the whole remaining input. -/
theorem C4_unterminated_block (input : List Nat) (col fuel : Nat)
    (hreal : ∃ x ∈ input, iswspace x = false)
    (hnul : input.head? ≠ some 0)
    (hno : ∀ i, i < input.length →
      ((input.drop i).take 8).map towlower ≠ end_exec_keyword)
    (hline1 : ∀ l b, input = l ++ b → 10 ∉ l → col + l.length < 72)
    (hlines : ∀ a l b, input = a ++ 10 :: (l ++ b) → 10 ∉ l → l.length < 72)
    (hfuel : input.length + 1 ≤ fuel) :
    ∃ ms : List Nat,
      tree_sitter_COBOL_external_scanner_scan fuel (TSLexer.start input col)
          (only .EXEC_BLOCK_CONTENT) =
        some (true,
          { pos := input.length
            rest := []
            column := column_after col input
            token_start := 0
            marks := ms
            result_symbol := some .EXEC_BLOCK_CONTENT }) ∧
      ms.head? = some input.length := by
  obtain ⟨x0, hx0, _⟩ := hreal
  have hne : input ≠ [] := List.ne_nil_of_mem hx0
  have hla : ((TSLexer.start input col).lookahead == 0) = false := by
    cases input with
    | nil => exact absurd rfl hne
    | cons y ys =>
      have : y ≠ 0 := by simpa using hnul
      simpa [TSLexer.start, TSLexer.lookahead] using this
  obtain ⟨ms, hms1, _, hrun⟩ := exec_block_content_loop_content input.length input []
    (TSLexer.start input col) false (Nat.le_refl _) (by simp [TSLexer.start])
    (columns_fit_of_lines input col hline1 hlines)
    (by
      intro i hi
      simp only [List.append_nil]
      constructor
      · have := match_length_le_input end_exec_keyword (input.drop i)
        rw [List.length_drop] at this
        omega
      · exact match_length_ne_of_no_terminator _ (hno i hi))
  refine ⟨ms, ?_, by simpa [TSLexer.start] using hms1 hne⟩
  rw [scan_only_exec_block_content, hla]
  simp only [Bool.false_eq_true, if_false]
  apply hrun 1 _ _ fuel (by omega)
  intro f' hf'
  obtain ⟨g, rfl⟩ : ∃ g, f' = g + 1 := ⟨f' - 1, by omega⟩
  have hemp : (!input.isEmpty) = true := by
    cases input with
    | nil => exact absurd rfl hne
    | cons y ys => rfl
  rw [exec_block_content_loop]
  simp [after_content, TSLexer.eof, hemp, TSLexer.set_result, TSLexer.start]

/-- Claim C4 (amended) on `MOVE A TO B END-EX`, which ends in a part of the
terminator. -/
theorem C4_unterminated_block_witness :
    ∃ ms : List Nat,
      tree_sitter_COBOL_external_scanner_scan 19 (TSLexer.start (codes "MOVE A TO B END-EX") 0)
          (only .EXEC_BLOCK_CONTENT) =
        some (true,
          { pos := (codes "MOVE A TO B END-EX").length
            rest := []
            column := column_after 0 (codes "MOVE A TO B END-EX")
            token_start := 0
            marks := ms
            result_symbol := some .EXEC_BLOCK_CONTENT }) ∧
      ms.head? = some (codes "MOVE A TO B END-EX").length :=
  C4_unterminated_block (codes "MOVE A TO B END-EX") 0 19 (by decide) (by decide) (by decide)
    (fun l b h _ => by
      have := congrArg List.length h
      rw [List.length_append] at this
      have h18 : (codes "MOVE A TO B END-EX").length = 18 := by decide
      omega)
    (fun a l b h _ => by
      have := congrArg List.length h
      simp only [List.length_append, List.length_cons] at this
      have h18 : (codes "MOVE A TO B END-EX").length = 18 := by decide
      omega)
    (by decide)

/-- Claim C4 fails as stated: the input NUL, `A` has a non-whitespace
character, no `END-EXEC` and one short line, and the scan declines at once,
because the lookahead is 0. -/
theorem C4_counterexample :
    (∃ x ∈ ([0, 65] : List Nat), iswspace x = false) ∧
    (∀ i, i < ([0, 65] : List Nat).length →
      ((([0, 65] : List Nat).drop i).take 8).map towlower ≠ end_exec_keyword) ∧
    tree_sitter_COBOL_external_scanner_scan 10 (TSLexer.start [0, 65] 0)
        (only .EXEC_BLOCK_CONTENT) =
      some (false, TSLexer.start [0, 65] 0) := by
  decide

/-! ### C5: a string literal on one line -/

/-- Claim C5: with only MultilineString admissible, for every `s` without a
double quote, newline or NUL whose last character is before column 72, the
scan of the quote, `s`, the quote and any `rest`, from any start column `col`,
returns MultilineString with the commit boundary right after the closing
quote; nothing was skipped, so the token is `s` in its two quotes. -/
theorem C5_single_line_string (s rest : List Nat) (col fuel : Nat)
    (hq : 34 ∉ s) (hn : 10 ∉ s) (h0 : 0 ∉ s) (hcol : col + s.length < 72)
    (hfuel : s.length + 2 ≤ fuel) :
    tree_sitter_COBOL_external_scanner_scan fuel (TSLexer.start (34 :: s ++ 34 :: rest) col)
        (only .multiline_string) =
      some (true,
        { pos := s.length + 2
          rest := rest
          column := col + s.length + 2
          token_start := 0
          marks := [s.length + 2]
          result_symbol := some .multiline_string }) := by
  have h := multiline_string_loop_closed s rest (TSLexer.start (34 :: s ++ 34 :: rest) col) fuel
    rfl hq hn h0 hcol hfuel
  have hla : (TSLexer.start (34 :: s ++ 34 :: rest) col).lookahead = 34 := rfl
  rw [scan_only_multiline_string, hla, h]
  simp [TSLexer.start]

/-- Claim C5 on the literal `ABC` in quotes. -/
theorem C5_single_line_string_witness :
    tree_sitter_COBOL_external_scanner_scan 5 (TSLexer.start (34 :: codes "ABC" ++ 34 :: []) 0)
        (only .multiline_string) =
      some (true,
        { pos := (codes "ABC").length + 2
          rest := []
          column := 0 + (codes "ABC").length + 2
          token_start := 0
          marks := [(codes "ABC").length + 2]
          result_symbol := some .multiline_string }) :=
  C5_single_line_string (codes "ABC") [] 0 5 (by decide) (by decide) (by decide) (by decide)
    (by decide)

/-! ### C6: a string literal continued on the next line -/

/-- Claim C6, as amended: with only MultilineString admissible, let the input
be (1) a double quote and `body`, a first line without a further double quote
and without NUL that reaches column 72, (2) a newline, (3) six characters
`seq`, none a newline or NUL, (4) the marker `-`, (5) `n` blanks, (6) a double
quote, `t` and a double quote, where `t` has no double quote, newline or NUL
and the closing quote is before column 72. Then the scan returns one
MultilineString whose commit boundary is right after the closing quote on the
second line. -/
theorem C6_continued_string (body seq t rest : List Nat) (n col fuel : Nat)
    (hbq : 34 ∉ body) (hbn : 10 ∉ body) (hb0 : 0 ∉ body)
    (hreach : 72 ≤ col + 1 + body.length)
    (hseq : seq.length = 6) (hsn : 10 ∉ seq) (hs0 : 0 ∉ seq)
    (htq : 34 ∉ t) (htn : 10 ∉ t) (ht0 : 0 ∉ t)
    (hclose : 8 + n + t.length < 72)
    (hfuel : body.length + n + t.length + 4 ≤ fuel) :
    tree_sitter_COBOL_external_scanner_scan fuel
        (TSLexer.start
          (34 :: (body ++ 10 :: (seq ++ 45 :: (List.replicate n 32 ++ 34 :: (t ++ 34 :: rest)))))
          col)
        (only .multiline_string) =
      some (true,
        { pos := body.length + n + t.length + 11
          rest := rest
          column := n + t.length + 9
          token_start := body.length + n + 9
          marks := [body.length + n + t.length + 11]
          result_symbol := some .multiline_string }) := by
  obtain ⟨f, rfl⟩ : ∃ f, fuel = f + 1 := ⟨fuel - 1, by omega⟩
  -- the parts of the input
  generalize hV : t ++ 34 :: rest = V
  generalize hU : List.replicate n 32 ++ 34 :: V = U
  generalize hT : seq ++ 45 :: U = T
  generalize hL0 : TSLexer.start (34 :: (body ++ 10 :: T)) col = L0
  have hL0pos : L0.pos = 0 := by rw [← hL0]; rfl
  have hL0col : L0.column = col := by rw [← hL0]; rfl
  have hL0ts : L0.token_start = 0 := by rw [← hL0]; rfl
  have hL0marks : L0.marks = [] := by rw [← hL0]; rfl
  have hL0res : L0.result_symbol = none := by rw [← hL0]; rfl
  have hL0rest : L0.rest = 34 :: (body ++ 10 :: T) := by rw [← hL0]; rfl
  have hla0 : L0.lookahead = 34 := by simp [TSLexer.lookahead, hL0rest]
  -- the opening quote
  have hA : L0.advance false = L0.moved 1 (body ++ 10 :: T) false :=
    TSLexer.advance_cons _ 34 _ false hL0rest (by decide)
  -- the content of the first line up to column 72
  have hsplit : body.take (71 - col) ++ (body.drop (71 - col) ++ 10 :: T) = body ++ 10 :: T := by
    rw [← List.append_assoc, List.take_append_drop]
  have hlen1 : (body.take (71 - col)).length = 71 - col := by
    rw [List.length_take]; omega
  have hB := advance_while_run
    (fun l => l.lookahead != 34 && l.lookahead != 0 && decide (l.get_column < 72)) false
    (body.take (71 - col)) (body.drop (71 - col) ++ 10 :: T)
    (L0.moved 1 (body ++ 10 :: T) false) f hsplit.symm
    (fun h => hbn (List.mem_of_mem_take h))
    (by
      intro a x b hab
      have hx : x ∈ body := List.mem_of_mem_take (by rw [hab]; simp)
      have hlen : a.length < 71 - col := by
        rw [← hlen1, hab]; simp
      have hx34 : x ≠ 34 := fun h => hbq (h ▸ hx)
      have hx0 : x ≠ 0 := fun h => hb0 (h ▸ hx)
      simp [TSLexer.moved, TSLexer.lookahead, TSLexer.get_column, hx34, hx0, hL0col]
      omega)
    (by
      simp [TSLexer.moved, TSLexer.get_column, hL0col, hlen1]
      intro _ _
      omega)
    (by rw [hlen1]; omega)
  generalize hB1 : (L0.moved 1 (body ++ 10 :: T) false).moved (body.take (71 - col)).length
    (body.drop (71 - col) ++ 10 :: T) false = B1 at hB
  have hB1rest : B1.rest = body.drop (71 - col) ++ 10 :: T := by rw [← hB1]; rfl
  have hlaB : B1.lookahead ≠ 34 := by
    rw [TSLexer.lookahead, hB1rest]
    exact headD_append_ne _ _ _ _ (fun h => hbq (List.mem_of_mem_drop h)) (by decide)
  -- the rest of the first line
  have hD := advance_while_run (fun l => l.lookahead != 0 && l.lookahead != 10) true
    (body.drop (71 - col)) (10 :: T) B1 f hB1rest
    (fun h => hbn (List.mem_of_mem_drop h))
    (by
      intro a x b hab
      have hx : x ∈ body := List.mem_of_mem_drop (by rw [hab]; simp)
      have hx10 : x ≠ 10 := fun h => hbn (h ▸ hx)
      have hx0 : x ≠ 0 := fun h => hb0 (h ▸ hx)
      simp [TSLexer.moved, TSLexer.lookahead, hx10, hx0])
    (by simp [TSLexer.moved, TSLexer.lookahead])
    (by rw [List.length_drop]; omega)
  generalize hD1 : B1.moved (body.drop (71 - col)).length (10 :: T) true = D1 at hD
  have hD1rest : D1.rest = 10 :: T := by rw [← hD1]; rfl
  have hlaD : D1.lookahead = 10 := by simp [TSLexer.lookahead, hD1rest]
  -- the newline, the sequence area, the indicator, the blanks
  have hF := skip_sequence_area_run seq (45 :: U) (D1.advance true)
    (by simp [TSLexer.advance, hD1rest, hT]) hsn hs0
  rw [hseq] at hF
  generalize hF1 : (D1.advance true).moved 6 (45 :: U) true = F1 at hF
  have hF1rest : F1.rest = 45 :: U := by rw [← hF1]; rfl
  have hF1col : F1.column = 6 := by
    rw [← hF1]; simp [TSLexer.moved, TSLexer.advance, hD1rest]
  have hlaF : F1.lookahead = 45 := by simp [TSLexer.lookahead, hF1rest]
  have hG : F1.advance true = F1.moved 1 U true :=
    TSLexer.advance_cons _ 45 _ true hF1rest (by decide)
  have hH := advance_while_run (fun l => l.lookahead == 32 && decide (l.get_column < 72)) true
    (List.replicate n 32) (34 :: V) (F1.moved 1 U true) f (by rw [← hU]; rfl)
    (by simp)
    (by
      intro a x b hab
      have hx : x ∈ List.replicate n 32 := by rw [hab]; simp
      have hx32 : x = 32 := (List.mem_replicate.1 hx).2
      have hlen : a.length < n := by
        have := congrArg List.length hab
        simp at this; omega
      simp [TSLexer.moved, TSLexer.lookahead, TSLexer.get_column, hx32, hF1col]
      omega)
    (by simp [TSLexer.moved, TSLexer.lookahead])
    (by simp; omega)
  simp only [List.length_replicate] at hH
  generalize hH1 : (F1.moved 1 U true).moved n (34 :: V) true = H1 at hH
  have hD1adv : D1.advance true =
      { D1 with pos := D1.pos + 1, rest := T, column := 0, token_start := D1.pos + 1 } := by
    simp [TSLexer.advance, hD1rest]
  have hH1col : H1.column = 7 + n := by
    rw [← hH1]; simp [TSLexer.moved, hF1col]
  have hdrop : (body.drop (71 - col)).length = body.length - (71 - col) := List.length_drop _ _
  have hH1pos : H1.pos = body.length + n + 9 := by
    rw [← hH1, ← hF1, hD1adv, ← hD1, ← hB1]
    simp [TSLexer.moved, hL0pos, hlen1, hdrop]
    omega
  have hH1ts : H1.token_start = body.length + n + 9 := by
    rw [← hH1, ← hF1, hD1adv, ← hD1, ← hB1]
    simp [TSLexer.moved, hL0pos, hlen1, hdrop]
    split <;> omega
  have hH1marks : H1.marks = [] := by
    rw [← hH1, ← hF1, hD1adv, ← hD1, ← hB1]
    simp [TSLexer.moved, hL0marks]
  -- the literal on the continuation line
  have hI := multiline_string_loop_closed t rest H1 f (by rw [← hH1, ← hV]; rfl) htq htn ht0
    (by rw [hH1col]; omega) (by omega)
  rw [hH1col, hH1pos, hH1ts, hH1marks] at hI
  rw [scan_only_multiline_string, multiline_string_loop]
  simp only [hla0, hA, hB, hD, hlaD, hF, hlaF, hG, hH, hI]
  simp [hlaB]
  omega

/-- Claim C6 (amended): a first line of 80 characters, the quote and 79
letters, then `000010-`, four blanks and the literal `DEF` in quotes. -/
theorem C6_continued_string_witness :
    tree_sitter_COBOL_external_scanner_scan 90
        (TSLexer.start
          (34 :: (List.replicate 79 65 ++ 10 :: (codes "000010" ++ 45 ::
            (List.replicate 4 32 ++ 34 :: (codes "DEF" ++ 34 :: [])))))
          0)
        (only .multiline_string) =
      some (true,
        { pos := (List.replicate 79 65).length + 4 + (codes "DEF").length + 11
          rest := []
          column := 4 + (codes "DEF").length + 9
          token_start := (List.replicate 79 65).length + 4 + 9
          marks := [(List.replicate 79 65).length + 4 + (codes "DEF").length + 11]
          result_symbol := some .multiline_string }) :=
  C6_continued_string (List.replicate 79 65) (codes "000010") (codes "DEF") [] 4 0 90
    (by decide) (by decide) (by decide) (by decide) (by decide) (by decide) (by decide)
    (by decide) (by decide) (by decide) (by decide) (by decide)

/-- Claim C6 fails as stated: the first line below starts with a double quote,
has no further double quote and has 80 characters, and the rest of the input
is as the claim asks; the NUL in the first line stops the scan, which
declines with one character read and no commit boundary. -/
theorem C6_counterexample :
    34 ∉ (0 :: List.replicate 78 65) ∧ (34 :: 0 :: List.replicate 78 65).length = 80 ∧
    (tree_sitter_COBOL_external_scanner_scan 100
        (TSLexer.start
          (34 :: (0 :: List.replicate 78 65 ++ 10 :: (codes "000010" ++ 45 ::
            (List.replicate 4 32 ++ 34 :: (codes "DEF" ++ 34 :: [])))))
          0)
        (only .multiline_string)).map (fun r => (r.1, r.2.pos, r.2.marks)) =
      some (false, 1, []) := by
  decide

/-! ### C7: a declined string scan sets no commit boundary -/

/-- Claim C7: with only MultilineString admissible, on every input and from
every lexer state, a scan that declines has called `mark_end` not once (the
list of commit positions is as it was at the start); and when the first
lookahead is not a double quote the scan declines with the lexer unchanged, so
no character was read. -/
theorem C7_declined_string_sets_no_boundary (fuel : Nat) (lexer : TSLexer) :
    (∀ r, tree_sitter_COBOL_external_scanner_scan fuel lexer (only .multiline_string) =
        some (false, r) → r.marks = lexer.marks) ∧
    (lexer.lookahead ≠ 34 → 0 < fuel →
      tree_sitter_COBOL_external_scanner_scan fuel lexer (only .multiline_string) =
        some (false, lexer)) := by
  constructor
  · intro r h
    rw [scan_only_multiline_string] at h
    split at h
    · cases h; rfl
    · exact multiline_string_loop_declined_marks fuel lexer r h
  · intro hq hfuel
    obtain ⟨f, rfl⟩ : ∃ f, fuel = f + 1 := ⟨fuel - 1, by omega⟩
    rw [scan_only_multiline_string, multiline_string_loop]
    simp [hq]

/-- Claim C7 on a literal that is not closed before the end of input, and on
an input that does not start with a double quote. -/
theorem C7_declined_string_sets_no_boundary_witness :
    ({ pos := 4, rest := [], column := 4, token_start := 0, marks := [],
       result_symbol := none } : TSLexer).marks = (TSLexer.start (34 :: codes "ABC") 0).marks ∧
    tree_sitter_COBOL_external_scanner_scan 1 (TSLexer.start (codes "ABC") 0)
        (only .multiline_string) = some (false, TSLexer.start (codes "ABC") 0) :=
  ⟨(C7_declined_string_sets_no_boundary 6 (TSLexer.start (34 :: codes "ABC") 0)).1
      { pos := 4, rest := [], column := 4, token_start := 0, marks := [],
        result_symbol := none } (by decide),
    (C7_declined_string_sets_no_boundary 1 (TSLexer.start (codes "ABC") 0)).2
      (by decide) (by decide)⟩

/-! ### C8: a full-line comment -/

/-- Claim C8, as amended: for every input and every admissible set that holds
LineComment, if the column is 6 and the lookahead is `*` or `/`, the scan
returns LineComment, whatever else is admissible, and the commit boundary is
at the first newline or NUL character at or after the start, or at the end of
input if there is none; that character is not read. -/
theorem C8_line_comment (fuel : Nat) (lexer : TSLexer) (valid_symbols : TokenType → Bool)
    (hv : valid_symbols .LINE_COMMENT = true) (hcol : lexer.get_column = 6)
    (hla : lexer.lookahead = 42 ∨ lexer.lookahead = 47)
    (hfuel : lexer.rest.length < fuel) :
    tree_sitter_COBOL_external_scanner_scan fuel lexer valid_symbols =
      some (true,
        { pos := lexer.pos + (line_run lexer.rest).length
          rest := line_end lexer.rest
          column := 6 + (line_run lexer.rest).length
          token_start := lexer.pos + (line_run lexer.rest).length
          marks := (lexer.pos + (line_run lexer.rest).length) :: lexer.marks
          result_symbol := some .LINE_COMMENT }) := by
  have hlen : (line_run lexer.rest).length ≤ lexer.rest.length := by
    have := congrArg List.length (line_run_append_line_end lexer.rest)
    simp at this; omega
  have hrun := advance_while_to_line_end lexer fuel (by omega)
  have hne : (line_run lexer.rest).length ≠ 0 := by
    cases hr : lexer.rest with
    | nil => simp [TSLexer.lookahead, hr] at hla
    | cons x xs =>
      rcases hla with h | h <;> simp [TSLexer.lookahead, hr] at h <;>
        simp [line_run, h]
  have hws : is_white_space lexer.lookahead = false := by
    rcases hla with h | h <;> rw [h] <;> decide
  have h0 : (lexer.lookahead == 0) = false := by
    rcases hla with h | h <;> rw [h] <;> decide
  have hstar : (lexer.lookahead == 42 || lexer.lookahead == 47) = true := by
    rcases hla with h | h <;> rw [h] <;> decide
  have hc5 : ¬ lexer.get_column ≤ 5 := by omega
  simp only [TSLexer.get_column] at hcol
  simp [tree_sitter_COBOL_external_scanner_scan, hv, hws, h0, hstar, hc5, hrun, hcol,
    TSLexer.get_column, TSLexer.moved, TSLexer.set_result, TSLexer.mark_end, hne]

/-- Claim C8 (amended) on the line `* hello`, followed by a newline and `X`. -/
theorem C8_line_comment_witness :
    tree_sitter_COBOL_external_scanner_scan 10
        (TSLexer.start (codes "* hello" ++ 10 :: codes "X") 6) (only .LINE_COMMENT) =
      some (true,
        { pos := 7, rest := 10 :: codes "X", column := 13, token_start := 7, marks := [7],
          result_symbol := some .LINE_COMMENT }) :=
  C8_line_comment 10 (TSLexer.start (codes "* hello" ++ 10 :: codes "X") 6) (only .LINE_COMMENT)
    (by decide) (by decide) (by decide) (by decide)

/-- Claim C8 fails as stated: on `*a`, NUL, `b`, newline at column 6 the first
newline is at offset 4, and the commit boundary is at offset 2, at the NUL. -/
theorem C8_counterexample :
    (([42, 97, 0, 98, 10] : List Nat).takeWhile (fun c => c != 10)).length = 4 ∧
    tree_sitter_COBOL_external_scanner_scan 9 (TSLexer.start [42, 97, 0, 98, 10] 6)
        (only .LINE_COMMENT) =
      some (true,
        { pos := 2, rest := [0, 98, 10], column := 8, token_start := 2, marks := [2],
          result_symbol := some .LINE_COMMENT }) := by
  decide

/-! ### C9: the indicator column without a comment marker -/

/-- Claim C9: for every input with LineComment admissible and WhiteSpace not
admissible, if the column is 6 and the lookahead is neither `*` nor `/` nor
the end-of-input value 0, the scan declines after one `advance` and one
`mark_end`: one character was read and the commit boundary is at the new
position. The result does not depend on the other admissible kinds, so no
other recognizer took part; no fuel is needed. -/
theorem C9_line_comment_consuming_decline (fuel : Nat) (lexer : TSLexer)
    (valid_symbols : TokenType → Bool)
    (hv : valid_symbols .LINE_COMMENT = true) (hw : valid_symbols .WHITE_SPACES = false)
    (hcol : lexer.get_column = 6)
    (h1 : lexer.lookahead ≠ 42) (h2 : lexer.lookahead ≠ 47) (h3 : lexer.lookahead ≠ 0) :
    tree_sitter_COBOL_external_scanner_scan fuel lexer valid_symbols =
        some (false, (lexer.advance true).mark_end) ∧
      ((lexer.advance true).mark_end).pos = lexer.pos + 1 ∧
      ((lexer.advance true).mark_end).rest = lexer.rest.tail ∧
      ((lexer.advance true).mark_end).marks = (lexer.pos + 1) :: lexer.marks := by
  refine ⟨?_, ?_⟩
  · simp [tree_sitter_COBOL_external_scanner_scan, hv, hw, hcol, h1, h2, h3]
  · cases hr : lexer.rest with
    | nil => simp [TSLexer.lookahead, hr] at h3
    | cons x xs => simp [TSLexer.advance, TSLexer.mark_end, hr]

/-- Claim C9 on `X hello` at column 6. -/
theorem C9_line_comment_consuming_decline_witness :
    tree_sitter_COBOL_external_scanner_scan 0 (TSLexer.start (codes "X hello") 6)
        (only .LINE_COMMENT) =
      some (false, ((TSLexer.start (codes "X hello") 6).advance true).mark_end) :=
  (C9_line_comment_consuming_decline 0 (TSLexer.start (codes "X hello") 6) (only .LINE_COMMENT)
    (by decide) (by decide) (by decide) (by decide) (by decide) (by decide)).1

/-! ### C10: the sequence-number area -/

/-- Claim C10, as amended: with LinePrefixComment admissible and WhiteSpace
not, for every start column `c ≤ 5` with a lookahead that is not 0, if the
current line has `6 - c` further characters before its newline or the end of
input, the scan returns LinePrefixComment having read exactly these
characters, whatever they are, with the commit boundary at column 6 of the
same line. -/
theorem C10_line_prefix_comment (fuel : Nat) (lexer : TSLexer) (valid_symbols : TokenType → Bool)
    (area post : List Nat)
    (hv : valid_symbols .LINE_PREFIX_COMMENT = true) (hw : valid_symbols .WHITE_SPACES = false)
    (hcol : lexer.get_column ≤ 5) (hla : lexer.lookahead ≠ 0)
    (hrest : lexer.rest = area ++ post) (hlen : lexer.get_column + area.length = 6)
    (hnl : 10 ∉ area) (hfuel : 7 ≤ fuel) :
    tree_sitter_COBOL_external_scanner_scan fuel lexer valid_symbols =
      some (true,
        { pos := lexer.pos + area.length
          rest := post
          column := 6
          token_start := lexer.pos + area.length
          marks := (lexer.pos + area.length) :: lexer.marks
          result_symbol := some .LINE_PREFIX_COMMENT }) := by
  have hcol2 : lexer.column ≤ 5 := hcol
  have hlen2 : lexer.column + area.length = 6 := hlen
  have hrun := advance_while_run (fun l => decide (l.get_column ≤ 5)) true area post lexer fuel
    hrest hnl
    (by
      intro a x b hab
      have : a.length < area.length := by simp [hab]
      simp [TSLexer.moved, TSLexer.get_column]
      omega)
    (by simp [TSLexer.moved, TSLexer.get_column]; omega)
    (by omega)
  have hne : area.length ≠ 0 := by omega
  simp only [tree_sitter_COBOL_external_scanner_scan, hv, hw, hrun]
  simp [hla, hcol, TSLexer.moved, TSLexer.set_result, TSLexer.mark_end, hne]
  omega

/-- Claim C10 (amended) on a line that starts with `0001 ?`. -/
theorem C10_line_prefix_comment_witness :
    tree_sitter_COBOL_external_scanner_scan 7 (TSLexer.start (codes "0001 ?* note") 0)
        (only .LINE_PREFIX_COMMENT) =
      some (true,
        { pos := 6, rest := codes "* note", column := 6, token_start := 6, marks := [6],
          result_symbol := some .LINE_PREFIX_COMMENT }) :=
  C10_line_prefix_comment 7 (TSLexer.start (codes "0001 ?* note") 0) (only .LINE_PREFIX_COMMENT)
    (codes "0001 ?") (codes "* note")
    (by decide) (by decide) (by decide) (by decide) (by decide) (by decide) (by decide)
    (by decide)

/-- Claim C10 fails as stated: on `ab`, newline, `cdefgh` from column 0 the
lookahead is not 0, and the scan reads nine characters, across the newline,
up to column 6 of the next line. -/
theorem C10_counterexample :
    (TSLexer.start (codes "ab" ++ 10 :: codes "cdefgh") 0).get_column ≤ 5 ∧
    (TSLexer.start (codes "ab" ++ 10 :: codes "cdefgh") 0).lookahead ≠ 0 ∧
    tree_sitter_COBOL_external_scanner_scan 10
        (TSLexer.start (codes "ab" ++ 10 :: codes "cdefgh") 0) (only .LINE_PREFIX_COMMENT) =
      some (true,
        { pos := 9, rest := [], column := 6, token_start := 9, marks := [9],
          result_symbol := some .LINE_PREFIX_COMMENT }) := by
  decide

/-! ## Lemmas for the line-region recognizers -/

theorem TSLexer.read_nil (lexer : TSLexer) (skip : Bool) :
    lexer.read [] lexer.rest skip = lexer := by
  cases lexer; simp [TSLexer.read, column_after]

theorem TSLexer.read_cons (lexer : TSLexer) (x : Nat) (xs post : List Nat) (skip : Bool)
    (h : lexer.rest = x :: (xs ++ post)) :
    (lexer.advance skip).read xs post skip = lexer.read (x :: xs) post skip := by
  cases skip
  · simp [TSLexer.advance, TSLexer.read, column_after, h]; omega
  · cases xs with
    | nil => simp [TSLexer.advance, TSLexer.read, column_after, h]
    | cons y ys => simp [TSLexer.advance, TSLexer.read, column_after, h]; omega

/-- A loop `while (p(lookahead)) advance` reads the run `xs` when `p` holds
for its characters and fails for the lookahead after it. -/
theorem advance_while_lookahead (p : Nat → Bool) (skip : Bool) :
    ∀ (xs post : List Nat) (lexer : TSLexer) (fuel : Nat),
      lexer.rest = xs ++ post → (∀ x ∈ xs, p x = true) → p (post.headD 0) = false →
      xs.length < fuel →
      advance_while (fun l => p l.lookahead) skip fuel lexer = some (lexer.read xs post skip) := by
  intro xs
  induction xs with
  | nil =>
    intro post lexer fuel hrest _ hend hfuel
    obtain ⟨f, rfl⟩ := Nat.exists_eq_succ_of_ne_zero (Nat.not_eq_zero_of_lt hfuel)
    simp only [List.nil_append] at hrest
    subst hrest
    have hla : p lexer.lookahead = false := hend
    simp [advance_while, hla, TSLexer.read_nil]
  | cons x xs ih =>
    intro post lexer fuel hrest hp hend hfuel
    obtain ⟨f, rfl⟩ := Nat.exists_eq_succ_of_ne_zero (Nat.not_eq_zero_of_lt hfuel)
    have hrest2 : lexer.rest = x :: (xs ++ post) := by simpa using hrest
    have hla : p lexer.lookahead = true := by
      simpa [TSLexer.lookahead, hrest2] using hp x (by simp)
    have hstep := ih post (lexer.advance skip) f (by simp [TSLexer.advance, hrest2])
      (fun y hy => hp y (by simp [hy])) hend (by simpa using hfuel)
    simp only [advance_while, hla, if_true, hstep, TSLexer.read_cons _ _ _ _ _ hrest2]

theorem headD_dropWhile (p : Nat → Bool) (h0 : p 0 = false) :
    ∀ xs : List Nat, p ((xs.dropWhile p).headD 0) = false := by
  intro xs
  induction xs with
  | nil => simpa using h0
  | cons x xs ih =>
    by_cases hx : p x = true
    · simpa [List.dropWhile_cons, hx] using ih
    · simp [List.dropWhile_cons, hx]

/-- The WhiteSpace branch in closed form: the run of layout characters is read. -/
theorem scan_white_space (fuel : Nat) (lexer : TSLexer) (valid_symbols : TokenType → Bool)
    (hv : valid_symbols .WHITE_SPACES = true) (hla : is_white_space lexer.lookahead = true)
    (hfuel : lexer.rest.length < fuel) :
    tree_sitter_COBOL_external_scanner_scan fuel lexer valid_symbols =
      some (true,
        { pos := lexer.pos + (lexer.rest.takeWhile is_white_space).length
          rest := lexer.rest.dropWhile is_white_space
          column := column_after lexer.column (lexer.rest.takeWhile is_white_space)
          token_start := lexer.pos + (lexer.rest.takeWhile is_white_space).length
          marks := (lexer.pos + (lexer.rest.takeWhile is_white_space).length) :: lexer.marks
          result_symbol := some .WHITE_SPACES }) := by
  have hlen : (lexer.rest.takeWhile is_white_space).length ≤ lexer.rest.length := by
    have := congrArg List.length (List.takeWhile_append_dropWhile is_white_space lexer.rest)
    rw [List.length_append] at this; omega
  have hrun := advance_while_lookahead is_white_space true
    (lexer.rest.takeWhile is_white_space) (lexer.rest.dropWhile is_white_space) lexer fuel
    (List.takeWhile_append_dropWhile _ _).symm
    (fun x hx => List.mem_takeWhile_imp hx)
    (headD_dropWhile is_white_space (by decide) _) (by omega)
  have h0 : (lexer.lookahead == 0) = false := by
    by_cases h : lexer.lookahead = 0
    · rw [h] at hla; exact absurd hla (by decide)
    · simpa using h
  have hne : (lexer.rest.takeWhile is_white_space).isEmpty = false := by
    cases hr : lexer.rest with
    | nil => simp [TSLexer.lookahead, hr] at hla; exact absurd hla (by decide)
    | cons x xs =>
      have : is_white_space x = true := by simpa [TSLexer.lookahead, hr] using hla
      simp [List.takeWhile_cons, this]
  simp only [tree_sitter_COBOL_external_scanner_scan, h0, hv, hla, hrun]
  simp [TSLexer.read, TSLexer.set_result, TSLexer.mark_end, hne]

/-! ### C13: the WhiteSpace recognizer and line ends -/

/-- Claim C13, as amended: the newline is a layout character
(`is_white_space` holds for it), so with WhiteSpace admissible the recognizer
reads over newlines: on a run of layout characters `a`, a newline, a run of
layout characters `b`, followed by a character that is not a layout character
or by the end of input, the scan returns WhiteSpace with the commit boundary
after `b`, on the line after the newline. -/
theorem C13_white_space_crosses_newline (fuel : Nat) (lexer : TSLexer)
    (valid_symbols : TokenType → Bool) (a b post : List Nat)
    (hv : valid_symbols .WHITE_SPACES = true)
    (hrest : lexer.rest = a ++ 10 :: (b ++ post))
    (ha : ∀ x ∈ a, is_white_space x = true) (hb : ∀ x ∈ b, is_white_space x = true)
    (hpost : is_white_space (post.headD 0) = false)
    (hfuel : lexer.rest.length < fuel) :
    is_white_space 10 = true ∧
    tree_sitter_COBOL_external_scanner_scan fuel lexer valid_symbols =
      some (true,
        { pos := lexer.pos + a.length + 1 + b.length
          rest := post
          column := column_after 0 b
          token_start := lexer.pos + a.length + 1 + b.length
          marks := (lexer.pos + a.length + 1 + b.length) :: lexer.marks
          result_symbol := some .WHITE_SPACES }) := by
  refine ⟨by decide, ?_⟩
  have hall : ∀ x ∈ a ++ 10 :: b, is_white_space x = true := by
    intro x hx
    rcases List.mem_append.1 hx with h | h
    · exact ha x h
    · rcases List.mem_cons.1 h with h | h
      · rw [h]; decide
      · exact hb x h
  have hrest2 : lexer.rest = (a ++ 10 :: b) ++ post := by simp [hrest]
  have htake : lexer.rest.takeWhile is_white_space = a ++ 10 :: b := by
    rw [hrest2, List.takeWhile_append_of_pos hall]
    cases post with
    | nil => simp
    | cons y ys =>
      have : is_white_space y = false := by simpa using hpost
      simp [List.takeWhile_cons, this]
  have hdrop : lexer.rest.dropWhile is_white_space = post := by
    have h1 := List.takeWhile_append_dropWhile is_white_space lexer.rest
    rw [htake] at h1
    conv at h1 => rhs; rw [hrest2]
    exact List.append_cancel_left h1
  have hla : is_white_space lexer.lookahead = true := by
    cases a with
    | nil => simp [TSLexer.lookahead, hrest]; decide
    | cons y ys => simpa [TSLexer.lookahead, hrest] using ha y (by simp)
  rw [scan_white_space fuel lexer valid_symbols hv hla hfuel, htake, hdrop]
  have hcol : column_after lexer.column (a ++ 10 :: b) = column_after 0 b := by
    rw [column_after_append]; simp [column_after]
  simp [hcol]
  omega

/-- Claim C13 (amended) on a blank, a newline, a blank and `x`. -/
theorem C13_white_space_crosses_newline_witness :
    is_white_space 10 = true ∧
    tree_sitter_COBOL_external_scanner_scan 5 (TSLexer.start [32, 10, 32, 120] 0)
        (only .WHITE_SPACES) =
      some (true,
        { pos := 0 + [32].length + 1 + [32].length
          rest := [120]
          column := column_after 0 [32]
          token_start := 0 + [32].length + 1 + [32].length
          marks := [0 + [32].length + 1 + [32].length]
          result_symbol := some .WHITE_SPACES }) :=
  C13_white_space_crosses_newline 5 (TSLexer.start [32, 10, 32, 120] 0) (only .WHITE_SPACES)
    [32] [32] [120] (by decide) (by decide) (by decide) (by decide) (by decide) (by decide)

/-- Claim C13 fails as stated: `is_white_space` holds for the newline, and on
a blank, a newline, a blank and `x` the WhiteSpace token ends at offset 3, on
the second line. -/
theorem C13_counterexample :
    is_white_space 10 = true ∧
    tree_sitter_COBOL_external_scanner_scan 5 (TSLexer.start [32, 10, 32, 120] 0)
        (only .WHITE_SPACES) =
      some (true,
        { pos := 3, rest := [120], column := 1, token_start := 3, marks := [3],
          result_symbol := some .WHITE_SPACES }) := by
  decide

/-! ### C14: WhiteSpace is greedy and comes first -/

/-- Claim C14: for every input, column and admissible set that holds
WhiteSpace, if the lookahead is a layout character the scan returns
WhiteSpace, whatever else is admissible, having read the maximal run of layout
characters: the commit boundary is at the first character that is not a layout
character, or at the end of input. -/
theorem C14_white_space_greedy (fuel : Nat) (lexer : TSLexer) (valid_symbols : TokenType → Bool)
    (hv : valid_symbols .WHITE_SPACES = true) (hla : is_white_space lexer.lookahead = true)
    (hfuel : lexer.rest.length < fuel) :
    tree_sitter_COBOL_external_scanner_scan fuel lexer valid_symbols =
        some (true,
          { pos := lexer.pos + (lexer.rest.takeWhile is_white_space).length
            rest := lexer.rest.dropWhile is_white_space
            column := column_after lexer.column (lexer.rest.takeWhile is_white_space)
            token_start := lexer.pos + (lexer.rest.takeWhile is_white_space).length
            marks := (lexer.pos + (lexer.rest.takeWhile is_white_space).length) :: lexer.marks
            result_symbol := some .WHITE_SPACES }) ∧
      (∀ x ∈ lexer.rest.takeWhile is_white_space, is_white_space x = true) ∧
      is_white_space ((lexer.rest.dropWhile is_white_space).headD 0) = false ∧
      lexer.rest.takeWhile is_white_space ++ lexer.rest.dropWhile is_white_space = lexer.rest :=
  ⟨scan_white_space fuel lexer valid_symbols hv hla hfuel,
    fun _ hx => List.mem_takeWhile_imp hx,
    headD_dropWhile is_white_space (by decide) _,
    List.takeWhile_append_dropWhile _ _⟩

/-- Claim C14 on `, ;` followed by `MOVE`, with every kind admissible. -/
theorem C14_white_space_greedy_witness :
    tree_sitter_COBOL_external_scanner_scan 8 (TSLexer.start (codes ", ;MOVE") 8)
        (fun _ => true) =
      some (true,
        { pos := 3, rest := codes "MOVE", column := 11, token_start := 3, marks := [3],
          result_symbol := some .WHITE_SPACES }) :=
  (C14_white_space_greedy 8 (TSLexer.start (codes ", ;MOVE") 8) (fun _ => true)
    (by decide) (by decide) (by decide)).1

/-! ### C15: the trailing area -/

/-- Claim C15, as amended: for every input with LineSuffixComment admissible,
WhiteSpace not admissible, a lookahead that is not 0 and a column of 72 or
more, the scan returns LineSuffixComment with the commit boundary at the next
newline or NUL character, which is not read, or at the end of input; it
does not decline. -/
theorem C15_line_suffix_comment (fuel : Nat) (lexer : TSLexer) (valid_symbols : TokenType → Bool)
    (hv : valid_symbols .LINE_SUFFIX_COMMENT = true) (hw : valid_symbols .WHITE_SPACES = false)
    (hla : lexer.lookahead ≠ 0) (hcol : lexer.get_column ≥ 72)
    (hfuel : lexer.rest.length < fuel) :
    ∃ l, tree_sitter_COBOL_external_scanner_scan fuel lexer valid_symbols = some (true, l) ∧
      l.result_symbol = some .LINE_SUFFIX_COMMENT ∧
      l.pos = lexer.pos + (line_run lexer.rest).length ∧
      l.rest = line_end lexer.rest ∧
      l.marks = (lexer.pos + (line_run lexer.rest).length) :: lexer.marks := by
  have hlen : (line_run lexer.rest).length ≤ lexer.rest.length := by
    have := congrArg List.length (line_run_append_line_end lexer.rest)
    rw [List.length_append] at this; omega
  have hrun := advance_while_to_line_end lexer fuel (by omega)
  have hc5 : ¬ lexer.get_column ≤ 5 := by omega
  have hc6 : ¬ lexer.get_column = 6 := by omega
  refine ⟨((lexer.moved (line_run lexer.rest).length (line_end lexer.rest) true).set_result
    .LINE_SUFFIX_COMMENT).mark_end, ?_, ?_⟩
  · simp only [tree_sitter_COBOL_external_scanner_scan, hw, hv, hrun]
    simp [hla, hc5, hc6, hcol]
  · simp [TSLexer.moved, TSLexer.set_result, TSLexer.mark_end]

/-- Claim C15 (amended) on `000123`, a newline and `X`, at column 74. -/
theorem C15_line_suffix_comment_witness :
    ∃ l, tree_sitter_COBOL_external_scanner_scan 9
        (TSLexer.start (codes "000123" ++ 10 :: codes "X") 74) (only .LINE_SUFFIX_COMMENT) =
        some (true, l) ∧
      l.result_symbol = some .LINE_SUFFIX_COMMENT ∧
      l.pos = 0 + (line_run (codes "000123" ++ 10 :: codes "X")).length ∧
      l.rest = line_end (codes "000123" ++ 10 :: codes "X") ∧
      l.marks = [0 + (line_run (codes "000123" ++ 10 :: codes "X")).length] :=
  C15_line_suffix_comment 9 (TSLexer.start (codes "000123" ++ 10 :: codes "X") 74)
    (only .LINE_SUFFIX_COMMENT) (by decide) (by decide) (by decide) (by decide) (by decide)

/-- Claim C15 fails as stated: on `ab`, NUL, `cd`, newline at column 72 the
next newline is at offset 5, and the commit boundary is at offset 2, at the
NUL. -/
theorem C15_counterexample :
    (([97, 98, 0, 99, 100, 10] : List Nat).takeWhile (fun c => c != 10)).length = 5 ∧
    tree_sitter_COBOL_external_scanner_scan 9 (TSLexer.start [97, 98, 0, 99, 100, 10] 72)
        (only .LINE_SUFFIX_COMMENT) =
      some (true,
        { pos := 2, rest := [0, 99, 100, 10], column := 74, token_start := 2, marks := [2],
          result_symbol := some .LINE_SUFFIX_COMMENT }) := by
  decide

/-! ## Lemmas on the token kind of a match -/

theorem TSLexer.advance_result_symbol (lexer : TSLexer) (skip : Bool) :
    (lexer.advance skip).result_symbol = lexer.result_symbol := by
  unfold TSLexer.advance
  split <;> rfl

theorem multiline_string_loop_matched_kind :
    ∀ (fuel : Nat) (lexer l : TSLexer),
      multiline_string_loop fuel lexer = some (true, l) →
      l.result_symbol = some .multiline_string := by
  intro fuel
  induction fuel with
  | zero => intro lexer l h; simp [multiline_string_loop] at h
  | succ f ih =>
    intro lexer l h
    rw [multiline_string_loop] at h
    split at h
    · cases h
    · split at h
      · cases h
      · split at h
        · cases h
          simp [TSLexer.mark_end, TSLexer.advance_result_symbol, TSLexer.set_result]
        · split at h
          · cases h
          · split at h
            · cases h
            · split at h
              · cases h
              · split at h
                · cases h
                · split at h
                  · cases h
                  · exact ih _ _ h

theorem exec_block_content_loop_matched_kind :
    ∀ (fuel : Nat) (has_content : Bool) (lexer l : TSLexer),
      exec_block_content_loop fuel has_content lexer = some (true, l) →
      l.result_symbol = some .EXEC_BLOCK_CONTENT := by
  intro fuel
  induction fuel with
  | zero => intro hc lexer l h; simp [exec_block_content_loop] at h
  | succ f ih =>
    intro hc lexer l h
    rw [exec_block_content_loop] at h
    split at h
    · split at h
      · cases h; rfl
      · cases h
    · split at h
      · exact ih _ _ _ h
      · split at h
        · split at h
          · cases h
          · exact ih _ _ _ h
        · split at h
          · split at h
            next matched l1 _ =>
            split at h
            · cases h; rfl
            · exact ih _ _ _ h
          · exact ih _ _ _ h

/-- The kind of a match and the admissible kinds it needs: the branches of the
scan in their order. -/
theorem scan_matched_kind (fuel : Nat) (lexer l : TSLexer) (valid_symbols : TokenType → Bool)
    (h : tree_sitter_COBOL_external_scanner_scan fuel lexer valid_symbols = some (true, l)) :
    (valid_symbols .WHITE_SPACES = true ∧ l.result_symbol = some .WHITE_SPACES) ∨
    (valid_symbols .LINE_PREFIX_COMMENT = true ∧ l.result_symbol = some .LINE_PREFIX_COMMENT) ∨
    (valid_symbols .LINE_COMMENT = true ∧ l.result_symbol = some .LINE_COMMENT) ∨
    (valid_symbols .LINE_SUFFIX_COMMENT = true ∧ l.result_symbol = some .LINE_SUFFIX_COMMENT) ∨
    (valid_symbols .COMMENT_ENTRY = true ∧ l.result_symbol = some .COMMENT_ENTRY) ∨
    (valid_symbols .multiline_string = true ∧ valid_symbols .COMMENT_ENTRY = false ∧
      l.result_symbol = some .multiline_string) ∨
    (valid_symbols .EXEC_BLOCK_CONTENT = true ∧ valid_symbols .COMMENT_ENTRY = false ∧
      valid_symbols .multiline_string = false ∧ l.result_symbol = some .EXEC_BLOCK_CONTENT) := by
  rw [tree_sitter_COBOL_external_scanner_scan] at h
  split at h
  · cases h
  · split at h
    · next hc =>
      simp only [Bool.and_eq_true] at hc
      simp only [Option.map_eq_some'] at h
      obtain ⟨a, _, ha⟩ := h
      cases ha
      exact Or.inl ⟨hc.1, rfl⟩
    · split at h
      · next hc =>
        simp only [Bool.and_eq_true] at hc
        simp only [Option.map_eq_some'] at h
        obtain ⟨a, _, ha⟩ := h
        cases ha
        exact Or.inr (Or.inl ⟨hc.1, rfl⟩)
      · split at h
        · next hc =>
          simp only [Bool.and_eq_true] at hc
          split at h
          · simp only [Option.map_eq_some'] at h
            obtain ⟨a, _, ha⟩ := h
            cases ha
            exact Or.inr (Or.inr (Or.inl ⟨hc.1, rfl⟩))
          · cases h
        · split at h
          · next hc =>
            simp only [Bool.and_eq_true] at hc
            simp only [Option.map_eq_some'] at h
            obtain ⟨a, _, ha⟩ := h
            cases ha
            exact Or.inr (Or.inr (Or.inr (Or.inl ⟨hc.1, rfl⟩)))
          · split at h
            · next hc =>
              split at h
              · cases h
              · cases h
                exact Or.inr (Or.inr (Or.inr (Or.inr (Or.inl ⟨hc, rfl⟩))))
              · cases h
            · next hce =>
              have hce2 : valid_symbols .COMMENT_ENTRY = false := by simpa using hce
              split at h
              · next hc =>
                exact Or.inr (Or.inr (Or.inr (Or.inr (Or.inr (Or.inl
                  ⟨hc, hce2, multiline_string_loop_matched_kind _ _ _ h⟩)))))
              · next hml =>
                have hml2 : valid_symbols .multiline_string = false := by simpa using hml
                split at h
                · next hc =>
                  exact Or.inr (Or.inr (Or.inr (Or.inr (Or.inr (Or.inr
                    ⟨hc, hce2, hml2, exec_block_content_loop_matched_kind _ _ _ _ h⟩)))))
                · cases h

/-! ### C16: the scan of the sequence-number area at the end of input -/

theorem advance_while_stuck (cond : TSLexer → Bool) (skip : Bool) :
    ∀ (fuel : Nat) (lexer : TSLexer), lexer.rest = [] → cond lexer = true →
      advance_while cond skip fuel lexer = none := by
  intro fuel
  induction fuel with
  | zero => intro lexer _ _; rfl
  | succ f ih =>
    intro lexer hr hc
    have hadv : lexer.advance skip = lexer := by simp [TSLexer.advance, hr]
    rw [advance_while, hc, if_pos rfl, hadv]
    exact ih lexer hr hc

/-- The loop over the sequence-number area never ends when the input ends
before column 6 is reached. -/
theorem advance_while_sequence_area_diverges :
    ∀ (xs : List Nat) (lexer : TSLexer) (fuel : Nat), lexer.rest = xs →
      (∀ a b, xs = a ++ b → column_after lexer.column a ≤ 5) →
      advance_while (fun l => decide (l.get_column ≤ 5)) true fuel lexer = none := by
  intro xs
  induction xs with
  | nil =>
    intro lexer fuel hr hcol
    have := hcol [] [] rfl
    exact advance_while_stuck _ _ fuel lexer hr (by simpa [column_after, TSLexer.get_column] using this)
  | cons x xs ih =>
    intro lexer fuel hr hcol
    cases fuel with
    | zero => rfl
    | succ f =>
      have h0 := hcol [] (x :: xs) rfl
      have hc : decide (lexer.get_column ≤ 5) = true := by
        simpa [column_after, TSLexer.get_column] using h0
      rw [advance_while]
      simp only [hc, if_true]
      apply ih
      · simp [TSLexer.advance, hr]
      · intro a b hab
        have := hcol (x :: a) b (by simp [hab])
        simpa [TSLexer.advance, hr, column_after] using this

/-- Claim C16 fails on the code: with LinePrefixComment admissible (and
WhiteSpace not), from a column of 5 or less, on an input that ends before
column 6 is reached on any of its lines, the scan does not return: it is out
of fuel for every amount of fuel. At the end of input `advance` reads nothing
and the column stays where it is, so `while(get_column <= 5)` goes on for
ever. -/
theorem C16_sequence_area_never_returns (fuel : Nat) (input : List Nat) (col : Nat)
    (valid_symbols : TokenType → Bool)
    (hv : valid_symbols .LINE_PREFIX_COMMENT = true) (hw : valid_symbols .WHITE_SPACES = false)
    (hla : input.head? ≠ some 0) (hne : input ≠ [])
    (hshort : ∀ n, n ≤ input.length → column_after col (input.take n) ≤ 5) :
    tree_sitter_COBOL_external_scanner_scan fuel (TSLexer.start input col) valid_symbols =
      none := by
  have hshort2 : ∀ a b, input = a ++ b → column_after col a ≤ 5 := by
    intro a b hab
    have := hshort a.length (by rw [hab]; simp)
    rwa [hab, List.take_left] at this
  have hloop := advance_while_sequence_area_diverges input (TSLexer.start input col) fuel rfl
    hshort2
  have h0 : ((TSLexer.start input col).lookahead == 0) = false := by
    cases input with
    | nil => exact absurd rfl hne
    | cons y ys =>
      have : y ≠ 0 := by simpa using hla
      simpa [TSLexer.start, TSLexer.lookahead] using this
  have hc : (TSLexer.start input col).get_column ≤ 5 := by
    simpa [column_after] using hshort2 [] input rfl
  simp only [tree_sitter_COBOL_external_scanner_scan, h0, hw, hv, hloop]
  simp [hc]

/-- Claim C16 fails on `ab`, a newline and `cd` from column 0: the scan has no
result for a fuel of 1000, as for any other. -/
theorem C16_sequence_area_never_returns_witness :
    tree_sitter_COBOL_external_scanner_scan 1000
        (TSLexer.start (codes "ab" ++ 10 :: codes "cd") 0) (only .LINE_PREFIX_COMMENT) = none :=
  C16_sequence_area_never_returns 1000 (codes "ab" ++ 10 :: codes "cd") 0
    (only .LINE_PREFIX_COMMENT) (by decide) (by decide) (by decide) (by decide) (by decide)

/-! ### C17: a produced token kind is admissible -/

/-- Claim C17: for every input, column and admissible set, a scan that returns
a match has stored one of the seven token kinds and that kind is admissible;
with no admissible kind, or with the lookahead at its end-of-input value 0,
the scan declines with the lexer unchanged: nothing was read and no commit
boundary was set. -/
theorem C17_token_kind_admissible (fuel : Nat) (lexer : TSLexer)
    (valid_symbols : TokenType → Bool) :
    (∀ l, tree_sitter_COBOL_external_scanner_scan fuel lexer valid_symbols = some (true, l) →
      ∃ t : TokenType, l.result_symbol = some t ∧ valid_symbols t = true) ∧
    ((∀ t, valid_symbols t = false) →
      tree_sitter_COBOL_external_scanner_scan fuel lexer valid_symbols = some (false, lexer)) ∧
    (lexer.lookahead = 0 →
      tree_sitter_COBOL_external_scanner_scan fuel lexer valid_symbols = some (false, lexer)) := by
  refine ⟨?_, ?_, ?_⟩
  · intro l h
    rcases scan_matched_kind fuel lexer l valid_symbols h with
      h | h | h | h | h | h | h
    · exact ⟨_, h.2, h.1⟩
    · exact ⟨_, h.2, h.1⟩
    · exact ⟨_, h.2, h.1⟩
    · exact ⟨_, h.2, h.1⟩
    · exact ⟨_, h.2, h.1⟩
    · exact ⟨_, h.2.2, h.1⟩
    · exact ⟨_, h.2.2.2, h.1⟩
  · intro hv
    simp [tree_sitter_COBOL_external_scanner_scan, hv]
  · intro h0
    simp [tree_sitter_COBOL_external_scanner_scan, h0]

/-- Claim C17 on the literal `ABC` in quotes, on an empty admissible set and
on an empty input. -/
theorem C17_token_kind_admissible_witness :
    (∃ t : TokenType,
      ({ pos := 5, rest := [], column := 5, token_start := 0, marks := [5],
         result_symbol := some .multiline_string } : TSLexer).result_symbol = some t ∧
      only .multiline_string t = true) ∧
    tree_sitter_COBOL_external_scanner_scan 5 (TSLexer.start (codes "ABC") 0) (fun _ => false) =
      some (false, TSLexer.start (codes "ABC") 0) ∧
    tree_sitter_COBOL_external_scanner_scan 5 (TSLexer.start [] 0) (fun _ => true) =
      some (false, TSLexer.start [] 0) :=
  ⟨(C17_token_kind_admissible 5 (TSLexer.start (34 :: codes "ABC" ++ [34]) 0)
      (only .multiline_string)).1 _ (by decide),
    (C17_token_kind_admissible 5 (TSLexer.start (codes "ABC") 0) (fun _ => false)).2.1
      (fun _ => rfl),
    (C17_token_kind_admissible 5 (TSLexer.start [] 0) (fun _ => true)).2.2 (by decide)⟩

/-! ### C20: the fixed order of the recognizers -/

theorem advance_while_result_symbol (cond : TSLexer → Bool) (skip : Bool) :
    ∀ (fuel : Nat) (lexer r : TSLexer),
      advance_while cond skip fuel lexer = some r → r.result_symbol = lexer.result_symbol := by
  intro fuel
  induction fuel with
  | zero => intro lexer r h; simp [advance_while] at h
  | succ f ih =>
    intro lexer r h
    rw [advance_while] at h
    split at h
    · rw [ih _ _ h, TSLexer.advance_result_symbol]
    · cases h; rfl

/-! ## Lemmas on the keyword matcher -/

theorem any_content_keyword_chars :
    ∀ kw ∈ any_content_keyword, ∀ k ∈ kw, (97 ≤ k ∧ k ≤ 122) ∨ k = 32 ∨ k = 45 := by
  decide

theorem any_content_keyword_head :
    ∀ kw ∈ any_content_keyword, 97 ≤ kw.headD 0 ∧ kw.headD 0 ≤ 122 := by
  decide

/-- A character that lower-cases to the keyword character `k` passes the
comparison of `start_with_word`, and is not a newline, NUL, blank or tab when
`k` is a letter. -/
theorem keyword_char_accepts (x k : Nat) (hk : (97 ≤ k ∧ k ≤ 122) ∨ k = 32 ∨ k = 45)
    (hx : towlower x = k) :
    (x % 256 == towupper k || x % 256 == towlower k) = true ∧ x ≠ 10 ∧ x ≠ 0 ∧
      (97 ≤ k → x ≠ 32 ∧ x ≠ 9) := by
  unfold towlower at hx
  unfold towupper towlower
  split at hx
  · rcases hk with h | h | h
    · have e : x % 256 = x := Nat.mod_eq_of_lt (by omega)
      simp [e, h]; omega
    · omega
    · omega
  · subst hx
    rcases hk with h | h | h
    · have e : x % 256 = x := Nat.mod_eq_of_lt (by omega)
      have h2 : ¬ (65 ≤ x ∧ x ≤ 90) := by omega
      simp [e, h, h2]; omega
    · subst h; decide
    · subst h; decide

/-- A character below 256 that passes the comparison of `start_with_word`
against the keyword character `k` lower-cases to `k`. -/
theorem keyword_char_accepted (x k : Nat) (hk : (97 ≤ k ∧ k ≤ 122) ∨ k = 32 ∨ k = 45)
    (hx : x < 256) (h : (x % 256 == towupper k || x % 256 == towlower k) = true) :
    towlower x = k := by
  have e : x % 256 = x := Nat.mod_eq_of_lt hx
  rw [e] at h
  unfold towupper towlower at h
  unfold towlower
  rcases hk with hk | hk | hk
  · have h2 : ¬ (65 ≤ k ∧ k ≤ 90) := by omega
    simp [hk, h2] at h
    rcases h with h | h
    · have : 65 ≤ x ∧ x ≤ 90 := by omega
      simp [this]; omega
    · have : ¬ (65 ≤ x ∧ x ≤ 90) := by omega
      simp [this]; omega
  · subst hk; simp at h; subst h; decide
  · subst hk; simp at h; subst h; decide

theorem start_with_word_loop_marks :
    ∀ (fuel : Nat) (cands : List (List Nat × Bool)) (lexer l : TSLexer) (b : Bool),
      start_with_word_loop fuel cands lexer = some (b, l) →
      l.marks = lexer.marks ∧ l.result_symbol = lexer.result_symbol := by
  intro fuel
  induction fuel with
  | zero => intro cands lexer l b h; simp [start_with_word_loop] at h
  | succ f ih =>
    intro cands lexer l b h
    rw [start_with_word_loop] at h
    split at h
    · cases h; exact ⟨rfl, rfl⟩
    · split at h
      · simp only [Option.map_eq_some'] at h
        obtain ⟨a, ha, hb⟩ := h
        cases hb
        exact ⟨advance_while_marks _ _ _ _ _ ha, advance_while_result_symbol _ _ _ _ _ ha⟩
      · simp only at h
        split at h
        · cases h; exact ⟨rfl, rfl⟩
        · have := ih _ _ _ _ h
          rw [TSLexer.advance_marks, TSLexer.advance_result_symbol] at this
          exact this

/-- The matcher reports a keyword when the input goes on with a spelling `K`
of a candidate that is still alive, followed by a character `y` other than
newline and NUL at a column of 71 or less. -/
theorem start_with_word_loop_keyword :
    ∀ (K kw : List Nat) (cands : List (List Nat × Bool)) (lexer : TSLexer) (y : Nat)
      (rest : List Nat) (fuel : Nat),
      K.map towlower = kw → (∀ k ∈ kw, (97 ≤ k ∧ k ≤ 122) ∨ k = 32 ∨ k = 45) →
      (kw, true) ∈ cands → lexer.rest = K ++ y :: rest → y ≠ 10 → y ≠ 0 →
      lexer.column + K.length ≤ 71 → K.length + 1 ≤ fuel →
      ∃ l, start_with_word_loop fuel cands lexer = some (true, l) := by
  intro K
  induction K with
  | nil =>
    intro kw cands lexer y rest fuel hK _ hmem hrest hy10 hy0 hcol hfuel
    obtain ⟨f, rfl⟩ : ∃ f, fuel = f + 1 := ⟨fuel - 1, by omega⟩
    simp only [List.map_nil] at hK
    subst hK
    have hla : lexer.lookahead = y := by simp [TSLexer.lookahead, hrest]
    have hc : ¬ lexer.get_column > 71 := by simp [TSLexer.get_column] at hcol ⊢; omega
    have hall : cands.all (fun kc => !kc.2) = false := by
      rw [Bool.eq_false_iff]
      intro h
      have := List.all_eq_true.1 h _ hmem
      simp at this
    have hany : cands.any (fun kc => kc.1.isEmpty && kc.2) = true :=
      List.any_eq_true.2 ⟨_, hmem, rfl⟩
    rw [start_with_word_loop]
    simp [hla, hc, hy10, hy0, hall, hany]
  | cons x K ih =>
    intro kw cands lexer y rest fuel hK hkw hmem hrest hy10 hy0 hcol hfuel
    obtain ⟨f, rfl⟩ : ∃ f, fuel = f + 1 := ⟨fuel - 1, by omega⟩
    cases kw with
    | nil => simp at hK
    | cons k kw =>
      simp only [List.map_cons, List.cons.injEq] at hK
      have hacc := keyword_char_accepts x k (hkw k (by simp)) hK.1
      have hrest2 : lexer.rest = x :: (K ++ y :: rest) := by simpa using hrest
      have hla : lexer.lookahead = x := by simp [TSLexer.lookahead, hrest2]
      have hc : ¬ lexer.get_column > 71 := by simp [TSLexer.get_column] at hcol ⊢; omega
      have hall : cands.all (fun kc => !kc.2) = false := by
        rw [Bool.eq_false_iff]
        intro h
        have := List.all_eq_true.1 h _ hmem
        simp at this
      have hadv : lexer.advance true =
          { lexer with pos := lexer.pos + 1, rest := K ++ y :: rest,
                       column := lexer.column + 1, token_start := lexer.pos + 1 } := by
        simp [TSLexer.advance, hrest2, hacc.2.1]
      have hguard : (decide (lexer.get_column > 71) || x == 10 || x == 0) = false := by
        simp [hc, hacc.2.1, hacc.2.2.1]
      rw [start_with_word_loop]
      simp only [hla, hguard, hall, Bool.false_eq_true, if_false]
      split
      · exact ⟨_, rfl⟩
      · apply ih kw _ _ y rest f hK.2 (fun k' hk' => hkw k' (by simp [hk']))
        · apply List.mem_map.2
          refine ⟨(k :: kw, true), hmem, ?_⟩
          simp [hacc.1]
        · rw [hadv]
        · exact hy10
        · exact hy0
        · rw [hadv]; simp at hcol ⊢; omega
        · simp at hfuel; omega

theorem start_with_word_marks (fuel : Nat) (lexer l : TSLexer) (words : List (List Nat))
    (n : Nat) (b : Bool) (h : start_with_word fuel lexer words n = some (b, l)) :
    l.marks = lexer.marks ∧ l.result_symbol = lexer.result_symbol := by
  rw [start_with_word] at h
  split at h
  · cases h
  · next l0 h0 =>
    have h1 := start_with_word_loop_marks _ _ _ _ _ h
    rw [advance_while_marks _ _ _ _ _ h0, advance_while_result_symbol _ _ _ _ _ h0] at h1
    exact h1

/-! ### A heading keyword followed by a character -/

/-- Where the matcher does find the heading: with only CommentEntry
admissible, for every line made of leading blanks or tabs, one of the nine
keywords in any mix of upper and lower case, and at least one further
character `y` that is neither a newline nor NUL and lies at a column of 71 or
less, the scan declines and sets no commit boundary: no CommentEntry is
emitted. -/
theorem scan_heading_followed_declines (blanks K kw rest : List Nat) (y col fuel : Nat)
    (hb : ∀ x ∈ blanks, x = 32 ∨ x = 9) (hkw : kw ∈ any_content_keyword)
    (hK : K.map towlower = kw) (hy10 : y ≠ 10) (hy0 : y ≠ 0)
    (hcol : col + blanks.length + K.length ≤ 71)
    (hfuel : blanks.length + K.length + 2 ≤ fuel) :
    ∃ l, tree_sitter_COBOL_external_scanner_scan fuel
        (TSLexer.start (blanks ++ (K ++ y :: rest)) col) (only .COMMENT_ENTRY) =
        some (false, l) ∧ l.marks = [] := by
  have hchars := any_content_keyword_chars kw hkw
  have hhead := any_content_keyword_head kw hkw
  -- the first character of the keyword
  obtain ⟨x, K', rfl⟩ : ∃ x K', K = x :: K' := by
    cases K with
    | nil =>
      simp only [List.map_nil] at hK
      subst hK
      simp at hhead
    | cons x K' => exact ⟨x, K', rfl⟩
  obtain ⟨k, kw', rfl⟩ : ∃ k kw', kw = k :: kw' := by
    cases kw with
    | nil => simp at hK
    | cons k kw' => exact ⟨k, kw', rfl⟩
  have hxk : towlower x = k := by simp at hK; exact hK.1
  have hk97 : 97 ≤ k := by simpa using hhead.1
  have hx := keyword_char_accepts x k (hchars k (by simp)) hxk
  have hxb := hx.2.2.2 hk97
  have hnl : 10 ∉ blanks := by
    intro h; rcases hb 10 h with h | h <;> omega
  -- the leading blanks and tabs
  have hblank := advance_while_lookahead (fun c => c == 32 || c == 9) true blanks
    (x :: K' ++ y :: rest) (TSLexer.start (blanks ++ (x :: K' ++ y :: rest)) col) fuel rfl
    (by intro z hz; rcases hb z hz with h | h <;> simp [h])
    (by simp [hxb.1, hxb.2]) (by omega)
  generalize hL : (TSLexer.start (blanks ++ (x :: K' ++ y :: rest)) col).read blanks
    (x :: K' ++ y :: rest) true = L at hblank
  have hLrest : L.rest = x :: K' ++ y :: rest := by rw [← hL]; rfl
  have hLcol : L.column = col + blanks.length := by
    rw [← hL]; simp [TSLexer.read, TSLexer.start, column_after_line blanks col hnl]
  have hLmarks : L.marks = [] := by rw [← hL]; rfl
  -- the keyword
  obtain ⟨l, hl⟩ := start_with_word_loop_keyword (x :: K') (k :: kw')
    ((any_content_keyword.take number_of_comment_entry_keywords).map fun w => (w, true))
    L y rest fuel hK hchars
    (List.mem_map.2 ⟨k :: kw', by simpa [number_of_comment_entry_keywords,
      any_content_keyword] using hkw, rfl⟩)
    hLrest hy10 hy0 (by rw [hLcol]; simp at hcol ⊢; omega) (by simp at hfuel ⊢; omega)
  have hmarks := (start_with_word_loop_marks _ _ _ _ _ hl).1
  have hla : ((TSLexer.start (blanks ++ (x :: K' ++ y :: rest)) col).lookahead == 0) = false := by
    cases blanks with
    | nil => simpa [TSLexer.start, TSLexer.lookahead] using hx.2.2.1
    | cons z zs =>
      have : z ≠ 0 := by rcases hb z (by simp) with h | h <;> omega
      simpa [TSLexer.start, TSLexer.lookahead] using this
  refine ⟨l, ?_, by rw [hmarks, hLmarks]⟩
  simp only [tree_sitter_COBOL_external_scanner_scan, hla, only, start_with_word, hblank, hl]
  simp

/-- Two blanks, `Identification Division` and a full stop, from column 7: the
scan declines. -/
theorem scan_heading_followed_declines_example :
    ∃ l, tree_sitter_COBOL_external_scanner_scan 30
        (TSLexer.start (codes "  " ++ (codes "Identification Division" ++ 46 :: [])) 7)
        (only .COMMENT_ENTRY) = some (false, l) ∧ l.marks = [] :=
  scan_heading_followed_declines (codes "  ") (codes "Identification Division")
    (codes "identification division") [] 46 7 30
    (by decide) (by decide) (by decide) (by decide) (by decide) (by decide) (by decide)

/-! ### C11: a heading keyword at the end of the line -/

theorem any_content_keyword_no_prefix :
    ∀ kw ∈ any_content_keyword, ∀ w ∈ any_content_keyword,
      kw.length ≤ w.length ∨ kw.take w.length ≠ w := by
  decide

theorem towlower_keyword_char_lt (x k : Nat) (hk : (97 ≤ k ∧ k ≤ 122) ∨ k = 32 ∨ k = 45)
    (hx : towlower x = k) : x < 256 := by
  unfold towlower at hx
  split at hx <;> omega

/-- The matcher reports no keyword when the input goes on with a spelling `K`
of a candidate that is still alive and the keyword is followed by the end of
the input (or NUL), by a newline, or ends at column 71: the loop reads the
keyword and leaves by its first test, before it looks for a finished keyword.
No other candidate that is alive is a proper prefix of the keyword. -/
theorem start_with_word_loop_keyword_at_end :
    ∀ (K kw : List Nat) (cands : List (List Nat × Bool)) (lexer : TSLexer)
      (rest : List Nat) (fuel : Nat),
      K.map towlower = kw → (∀ k ∈ kw, (97 ≤ k ∧ k ≤ 122) ∨ k = 32 ∨ k = 45) →
      (kw, true) ∈ cands →
      (∀ kc ∈ cands, kc.2 = true →
        (∀ k ∈ kc.1, (97 ≤ k ∧ k ≤ 122) ∨ k = 32 ∨ k = 45) ∧
        (kw.length ≤ kc.1.length ∨ kw.take kc.1.length ≠ kc.1)) →
      lexer.rest = K ++ rest →
      (rest.headD 0 = 0 ∨ rest.headD 0 = 10 ∨ 71 < lexer.column + K.length) →
      lexer.column + K.length ≤ 72 → K.length + 1 ≤ fuel →
      ∃ l, start_with_word_loop fuel cands lexer = some (false, l) ∧
        l.pos = lexer.pos + K.length ∧ l.rest = rest := by
  intro K
  induction K with
  | nil =>
    intro kw cands lexer rest fuel _ _ _ _ hrest hend _ hfuel
    obtain ⟨f, rfl⟩ : ∃ f, fuel = f + 1 := ⟨fuel - 1, by omega⟩
    have hrest2 : lexer.rest = rest := by simpa using hrest
    have hla : lexer.lookahead = rest.headD 0 := by simp [TSLexer.lookahead, hrest2]
    have hguard : (decide (lexer.get_column > 71) || lexer.lookahead == 10 ||
        lexer.lookahead == 0) = true := by
      rcases hend with h | h | h
      · have e : lexer.lookahead = 0 := by rw [hla, h]
        simp [e]
      · have e : lexer.lookahead = 10 := by rw [hla, h]
        simp [e]
      · have : lexer.get_column > 71 := by simpa [TSLexer.get_column] using h
        simp [this]
    refine ⟨lexer, ?_, by simp, hrest2⟩
    rw [start_with_word_loop, if_pos hguard]
  | cons x K ih =>
    intro kw cands lexer rest fuel hK hkw hmem hinv hrest hend hcol hfuel
    obtain ⟨f, rfl⟩ : ∃ f, fuel = f + 1 := ⟨fuel - 1, by omega⟩
    cases kw with
    | nil => simp at hK
    | cons k kw =>
      simp only [List.map_cons, List.cons.injEq] at hK
      have hacc := keyword_char_accepts x k (hkw k (by simp)) hK.1
      have hx256 := towlower_keyword_char_lt x k (hkw k (by simp)) hK.1
      have hrest2 : lexer.rest = x :: (K ++ rest) := by simpa using hrest
      have hla : lexer.lookahead = x := by simp [TSLexer.lookahead, hrest2]
      have hc : ¬ lexer.get_column > 71 := by
        simp [TSLexer.get_column] at hcol ⊢; omega
      have hall : cands.all (fun kc => !kc.2) = false := by
        rw [Bool.eq_false_iff]
        intro h
        have := List.all_eq_true.1 h _ hmem
        simp at this
      have hany : cands.any (fun kc => kc.1.isEmpty && kc.2) = false := by
        rw [Bool.eq_false_iff]
        intro h
        obtain ⟨kc, hkc, hfin⟩ := List.any_eq_true.1 h
        simp only [Bool.and_eq_true, List.isEmpty_iff] at hfin
        have h2 := (hinv kc hkc hfin.2).2
        rw [hfin.1] at h2
        rcases h2 with h2 | h2
        · simp at h2
        · simp at h2
      have hadv : lexer.advance true =
          { lexer with pos := lexer.pos + 1, rest := K ++ rest,
                       column := lexer.column + 1, token_start := lexer.pos + 1 } := by
        simp [TSLexer.advance, hrest2, hacc.2.1]
      have hguard : (decide (lexer.get_column > 71) || x == 10 || x == 0) = false := by
        simp [hc, hacc.2.1, hacc.2.2.1]
      rw [start_with_word_loop]
      simp only [hla, hguard, hall, hany, Bool.false_eq_true, if_false]
      obtain ⟨l, hl, hpos, hlrest⟩ := ih kw
        (cands.map fun kc =>
          (kc.1.tail,
            if kc.2 then x % 256 == towupper (kc.1.headD 0) || x % 256 == towlower (kc.1.headD 0)
            else false))
        (lexer.advance true) rest f hK.2 (fun k' hk' => hkw k' (by simp [hk']))
        (by
          apply List.mem_map.2
          refine ⟨(k :: kw, true), hmem, ?_⟩
          simp [hacc.1])
        (by
          intro kc' hkc' halive
          obtain ⟨kc, hkc, rfl⟩ := List.mem_map.1 hkc'
          simp only at halive ⊢
          have hkc2 : kc.2 = true := by
            cases h2 : kc.2 with
            | true => rfl
            | false => simp [h2] at halive
          rw [hkc2] at halive
          simp only [if_true] at halive
          obtain ⟨hchars, hpre⟩ := hinv kc hkc hkc2
          cases hw : kc.1 with
          | nil =>
            rw [hw] at hpre
            rcases hpre with h | h
            · simp at h
            · simp at h
          | cons h w' =>
            rw [hw] at hpre hchars halive
            simp only [List.tail_cons]
            have hh : towlower x = h :=
              keyword_char_accepted x h (hchars h (by simp)) hx256 (by simpa using halive)
            have hkh : k = h := hK.1.symm.trans hh
            subst hkh
            refine ⟨fun k' hk' => hchars k' (by simp [hk']), ?_⟩
            rcases hpre with h1 | h1
            · left
              simp at h1 ⊢
              omega
            · right
              intro e
              apply h1
              simp [e])
        (by rw [hadv])
        (by
          rw [hadv]
          rcases hend with h | h | h
          · exact Or.inl h
          · exact Or.inr (Or.inl h)
          · right; right
            simp only [List.length_cons] at h ⊢
            omega)
        (by rw [hadv]; simp only [List.length_cons] at hcol ⊢; omega)
        (by simp only [List.length_cons] at hfuel; omega)
      refine ⟨l, hl, ?_, hlrest⟩
      rw [hpos, hadv]
      simp only [List.length_cons]
      omega

/-- Claim C11 fails on the code: with only CommentEntry admissible, for every
line made of leading blanks or tabs and one of the nine keywords in any mix of
upper and lower case, lying within columns up to 71, when the keyword is
followed by nothing (the end of the input, or a NUL), by a newline, or ends at
column 71, the scan does not decline: it returns CommentEntry with the commit
boundary after the keyword. The matcher leaves by its test for the end of the
line before it looks for a finished keyword. -/
theorem C11_heading_at_line_end_is_comment_entry (blanks K kw rest : List Nat)
    (col fuel : Nat)
    (hb : ∀ x ∈ blanks, x = 32 ∨ x = 9) (hkw : kw ∈ any_content_keyword)
    (hK : K.map towlower = kw)
    (hcol : col + blanks.length + K.length ≤ 72)
    (hend : rest.headD 0 = 0 ∨ rest.headD 0 = 10 ∨ col + blanks.length + K.length = 72)
    (hfuel : blanks.length + K.length + 2 ≤ fuel) :
    ∃ l, tree_sitter_COBOL_external_scanner_scan fuel
        (TSLexer.start (blanks ++ (K ++ rest)) col) (only .COMMENT_ENTRY) =
        some (true, l) ∧
      l.result_symbol = some .COMMENT_ENTRY ∧ l.marks = [blanks.length + K.length] ∧
      l.pos = blanks.length + K.length ∧ l.rest = rest := by
  have hchars := any_content_keyword_chars kw hkw
  have hhead := any_content_keyword_head kw hkw
  -- the first character of the keyword
  obtain ⟨x, K', rfl⟩ : ∃ x K', K = x :: K' := by
    cases K with
    | nil =>
      simp only [List.map_nil] at hK
      subst hK
      simp at hhead
    | cons x K' => exact ⟨x, K', rfl⟩
  obtain ⟨k, kw', rfl⟩ : ∃ k kw', kw = k :: kw' := by
    cases kw with
    | nil => simp at hK
    | cons k kw' => exact ⟨k, kw', rfl⟩
  have hxk : towlower x = k := by simp at hK; exact hK.1
  have hk97 : 97 ≤ k := by simpa using hhead.1
  have hx := keyword_char_accepts x k (hchars k (by simp)) hxk
  have hxb := hx.2.2.2 hk97
  have hnl : 10 ∉ blanks := by
    intro h; rcases hb 10 h with h | h <;> omega
  -- the leading blanks and tabs
  have hblank := advance_while_lookahead (fun c => c == 32 || c == 9) true blanks
    (x :: K' ++ rest) (TSLexer.start (blanks ++ (x :: K' ++ rest)) col) fuel rfl
    (by intro z hz; rcases hb z hz with h | h <;> simp [h])
    (by simp [hxb.1, hxb.2]) (by omega)
  generalize hL : (TSLexer.start (blanks ++ (x :: K' ++ rest)) col).read blanks
    (x :: K' ++ rest) true = L at hblank
  have hLrest : L.rest = x :: K' ++ rest := by rw [← hL]; rfl
  have hLcol : L.column = col + blanks.length := by
    rw [← hL]; simp [TSLexer.read, TSLexer.start, column_after_line blanks col hnl]
  have hLmarks : L.marks = [] := by rw [← hL]; rfl
  have hLres : L.result_symbol = none := by rw [← hL]; rfl
  have hLpos : L.pos = blanks.length := by
    rw [← hL]; simp [TSLexer.read, TSLexer.start]
  -- the keyword
  have hcands : ∀ kc ∈ (any_content_keyword.take number_of_comment_entry_keywords).map
      (fun w => (w, true)), kc.2 = true →
      (∀ k' ∈ kc.1, (97 ≤ k' ∧ k' ≤ 122) ∨ k' = 32 ∨ k' = 45) ∧
      ((k :: kw').length ≤ kc.1.length ∨ (k :: kw').take kc.1.length ≠ kc.1) := by
    intro kc hkc _
    obtain ⟨w, hw, rfl⟩ := List.mem_map.1 hkc
    have hw2 : w ∈ any_content_keyword := List.mem_of_mem_take hw
    exact ⟨any_content_keyword_chars w hw2, any_content_keyword_no_prefix _ hkw w hw2⟩
  obtain ⟨l, hl, hpos, hlrest⟩ := start_with_word_loop_keyword_at_end (x :: K') (k :: kw')
    ((any_content_keyword.take number_of_comment_entry_keywords).map fun w => (w, true))
    L rest fuel hK hchars
    (List.mem_map.2 ⟨k :: kw', by simpa [number_of_comment_entry_keywords,
      any_content_keyword] using hkw, rfl⟩)
    hcands hLrest
    (by
      rcases hend with h | h | h
      · exact Or.inl h
      · exact Or.inr (Or.inl h)
      · right; right
        rw [hLcol]
        omega)
    (by rw [hLcol]; omega) (by simp only [List.length_cons] at hfuel ⊢; omega)
  have hmarks := start_with_word_loop_marks _ _ _ _ _ hl
  have hla : ((TSLexer.start (blanks ++ (x :: K' ++ rest)) col).lookahead == 0) = false := by
    cases blanks with
    | nil => simpa [TSLexer.start, TSLexer.lookahead] using hx.2.2.1
    | cons z zs =>
      have : z ≠ 0 := by rcases hb z (by simp) with h | h <;> omega
      simpa [TSLexer.start, TSLexer.lookahead] using this
  refine ⟨(l.mark_end).set_result .COMMENT_ENTRY, ?_, rfl, ?_, ?_, hlrest⟩
  · simp only [tree_sitter_COBOL_external_scanner_scan, hla, only, start_with_word, hblank, hl]
    simp
  · show l.pos :: l.marks = _
    rw [hmarks.1, hLmarks, hpos, hLpos]
  · show l.pos = _
    rw [hpos, hLpos]

/-- Claim C11 fails on two blanks and `Procedure Division` followed by a
newline, from column 7: the scan returns CommentEntry with the commit
boundary after the keyword, at offset 20, before the newline. -/
theorem C11_heading_at_line_end_is_comment_entry_witness :
    ∃ l, tree_sitter_COBOL_external_scanner_scan 30
        (TSLexer.start (codes "  " ++ (codes "Procedure Division" ++ 10 :: codes "X")) 7)
        (only .COMMENT_ENTRY) = some (true, l) ∧
      l.result_symbol = some .COMMENT_ENTRY ∧ l.marks = [20] ∧ l.pos = 20 ∧
      l.rest = 10 :: codes "X" :=
  C11_heading_at_line_end_is_comment_entry (codes "  ") (codes "Procedure Division")
    (codes "procedure division") (10 :: codes "X") 7 30
    (by decide) (by decide) (by decide) (by decide) (by decide) (by decide)

/-- A heading keyword at the end of the line, evaluated: `AUTHOR` followed by
the end of the input, `PROCEDURE DIVISION` followed by a newline, and
`AUTHOR.` with the `R` at column 71; each time the scan returns CommentEntry
with the commit boundary after the keyword. -/
theorem scan_heading_at_line_end_examples :
    codes "author" ∈ any_content_keyword ∧ (codes "AUTHOR").map towlower = codes "author" ∧
    tree_sitter_COBOL_external_scanner_scan 10 (TSLexer.start (codes "AUTHOR") 7)
        (only .COMMENT_ENTRY) =
      some (true,
        { pos := 6, rest := [], column := 13, token_start := 6, marks := [6],
          result_symbol := some .COMMENT_ENTRY }) ∧
    tree_sitter_COBOL_external_scanner_scan 30
        (TSLexer.start (codes "PROCEDURE DIVISION" ++ [10]) 7) (only .COMMENT_ENTRY) =
      some (true,
        { pos := 18, rest := [10], column := 25, token_start := 18, marks := [18],
          result_symbol := some .COMMENT_ENTRY }) ∧
    tree_sitter_COBOL_external_scanner_scan 10 (TSLexer.start (codes "AUTHOR.") 66)
        (only .COMMENT_ENTRY) =
      some (true,
        { pos := 6, rest := [46], column := 72, token_start := 6, marks := [6],
          result_symbol := some .COMMENT_ENTRY }) := by
  decide

/-- The loop of the keyword matcher returns. -/
theorem start_with_word_loop_returns :
    ∀ (fuel : Nat) (cands : List (List Nat × Bool)) (lexer : TSLexer),
      lexer.rest.length + 1 < fuel →
      ∃ b l, start_with_word_loop fuel cands lexer = some (b, l) := by
  intro fuel
  induction fuel with
  | zero => intro cands lexer h; omega
  | succ f ih =>
    intro cands lexer h
    rw [start_with_word_loop]
    split
    · exact ⟨_, _, rfl⟩
    · next hg =>
      split
      · obtain ⟨r, hr, _, _⟩ := advance_while_returns
          (fun l => decide (l.get_column < 71) && l.lookahead != 10 && l.lookahead != 0) true
          (by
            intro l hl
            simp only [Bool.and_eq_true, bne_iff_ne] at hl
            intro he
            exact hl.2 (by simp [TSLexer.lookahead, he]))
          f lexer (by omega)
        exact ⟨_, _, by rw [hr]; rfl⟩
      · simp only
        split
        · exact ⟨_, _, rfl⟩
        · have hne : lexer.rest ≠ [] := by
            intro he
            apply hg
            simp [TSLexer.lookahead, he]
          have := lexer.advance_rest_length true hne
          exact ih _ _ (by omega)

/-- The loop of the keyword matcher reports no keyword when none of the nine
keywords starts the text, made of the characters `consumed` read so far and
the rest of the input, all below 256. -/
theorem start_with_word_loop_no_keyword :
    ∀ (fuel : Nat) (cands : List (List Nat × Bool)) (lexer l : TSLexer) (consumed : List Nat)
      (b : Bool),
      (∀ c ∈ cands, c.2 = true → ∃ kw ∈ any_content_keyword,
        c.1 = kw.drop consumed.length ∧ consumed.length ≤ kw.length ∧
        consumed.map towlower = kw.take consumed.length) →
      (∀ x ∈ lexer.rest, x < 256) →
      (∀ kw ∈ any_content_keyword,
        ((consumed ++ lexer.rest).take kw.length).map towlower ≠ kw) →
      start_with_word_loop fuel cands lexer = some (b, l) → b = false := by
  intro fuel
  induction fuel with
  | zero => intro cands lexer l consumed b _ _ _ h; simp [start_with_word_loop] at h
  | succ f ih =>
    intro cands lexer l consumed b hinv hlt hno h
    rw [start_with_word_loop] at h
    split at h
    · cases h; rfl
    · next hg =>
      split at h
      · simp only [Option.map_eq_some'] at h
        obtain ⟨a, _, ha⟩ := h
        cases ha; rfl
      · simp only at h
        split at h
        · next hany =>
          -- a finished candidate would be a keyword at the start of the text
          exfalso
          obtain ⟨c, hc, hfin⟩ := List.any_eq_true.1 hany
          simp only [Bool.and_eq_true, List.isEmpty_iff] at hfin
          obtain ⟨kw, hkw, hdrop, hle, htake⟩ := hinv c hc hfin.2
          rw [hfin.1] at hdrop
          have hlen : kw.length ≤ consumed.length := List.drop_eq_nil_iff.1 hdrop.symm
          have heq : consumed.length = kw.length := Nat.le_antisymm hle hlen
          apply hno kw hkw
          rw [← heq, List.take_left, htake, heq, List.take_length]
        · next hany =>
          cases hr : lexer.rest with
          | nil =>
            exfalso; apply hg; simp [TSLexer.lookahead, hr]
          | cons x xs =>
            have hla : lexer.lookahead = x := by simp [TSLexer.lookahead, hr]
            have hx : x < 256 := hlt x (by simp [hr])
            apply ih _ _ _ (consumed ++ [x]) _ ?_ ?_ ?_ h
            · intro c' hc' halive
              obtain ⟨c, hc, rfl⟩ := List.mem_map.1 hc'
              simp only at halive
              have hc2 : c.2 = true := by
                by_contra hn
                simp [hn] at halive
              simp only [hc2, if_true, hla] at halive
              obtain ⟨kw, hkw, hdrop, hle, htake⟩ := hinv c hc hc2
              have hnotfin : c.1 ≠ [] := by
                intro he
                apply hany
                exact List.any_eq_true.2 ⟨c, hc, by simp [he, hc2]⟩
              obtain ⟨k, tl, hktl⟩ : ∃ k tl, c.1 = k :: tl := by
                cases hc1 : c.1 with
                | nil => exact absurd hc1 hnotfin
                | cons k tl => exact ⟨k, tl, rfl⟩
              have hlt2 : consumed.length < kw.length := by
                by_contra hn
                have : kw.drop consumed.length = [] := List.drop_eq_nil_iff.2 (by omega)
                rw [this] at hdrop
                exact hnotfin hdrop
              have hk : kw[consumed.length]? = some k := by
                have := congrArg List.head? hdrop
                rw [hktl] at this
                simp only [List.head?_cons, List.head?_drop] at this
                exact this.symm
              have hkmem : k ∈ kw := by
                have := List.getElem?_eq_some_iff.1 hk
                obtain ⟨hh, he⟩ := this
                rw [← he]; exact List.getElem_mem _
              have hlow : towlower x = k := by
                apply keyword_char_accepted x k (any_content_keyword_chars kw hkw k hkmem) hx
                simpa [hktl] using halive
              refine ⟨kw, hkw, ?_, ?_, ?_⟩
              · simp only [hktl, List.tail_cons, List.length_append, List.length_singleton]
                have : kw.drop (consumed.length + 1) = (kw.drop consumed.length).tail := by
                  rw [List.tail_drop]
                rw [this, ← hdrop, hktl]; rfl
              · simp; omega
              · simp only [List.map_append, List.map_cons, List.map_nil, List.length_append,
                  List.length_singleton]
                rw [List.take_succ, htake, hk, hlow]; rfl
            · intro z hz
              apply hlt z
              rw [hr]
              simp only [TSLexer.advance, hr] at hz
              exact List.mem_cons_of_mem _ hz
            · intro kw hkw
              have := hno kw hkw
              rw [hr] at this
              simpa [TSLexer.advance, hr] using this

theorem mem_takeWhile_holds (p : Nat → Bool) (xs : List Nat) (x : Nat)
    (h : x ∈ xs.takeWhile p) : p x = true :=
  List.mem_takeWhile_imp h

theorem mem_of_mem_dropWhile (p : Nat → Bool) (xs : List Nat) (x : Nat)
    (h : x ∈ xs.dropWhile p) : x ∈ xs := by
  have hs := List.takeWhile_append_dropWhile p xs
  rw [← hs]
  exact List.mem_append_right _ h

/-! ### C12: a line of free text -/

/-- Claim C12, as amended: with only CommentEntry admissible, for every
non-empty input that does not begin with NUL, whose characters are all below
256, and whose text after the leading blanks and tabs does not begin with any
of the nine keywords under case-insensitive comparison, the scan returns
CommentEntry, with the commit boundary where the matcher stopped. -/
theorem C12_free_text_comment_entry (input : List Nat) (col fuel : Nat)
    (hne : input ≠ []) (hnul : input.head? ≠ some 0) (hlatin : ∀ x ∈ input, x < 256)
    (hno : ∀ kw ∈ any_content_keyword,
      ((input.dropWhile (fun c => c == 32 || c == 9)).take kw.length).map towlower ≠ kw)
    (hfuel : input.length + 2 ≤ fuel) :
    ∃ l, tree_sitter_COBOL_external_scanner_scan fuel (TSLexer.start input col)
        (only .COMMENT_ENTRY) = some (true, l) ∧
      l.result_symbol = some .COMMENT_ENTRY ∧ l.marks = [l.pos] := by
  have hsplit := List.takeWhile_append_dropWhile (fun c => c == 32 || c == 9) input
  have hlen := congrArg List.length hsplit
  rw [List.length_append] at hlen
  have hblank := advance_while_lookahead (fun c => c == 32 || c == 9) true
    (input.takeWhile (fun c => c == 32 || c == 9)) (input.dropWhile (fun c => c == 32 || c == 9))
    (TSLexer.start input col) fuel hsplit.symm
    (mem_takeWhile_holds _ input)
    (headD_dropWhile (fun c => c == 32 || c == 9) (by decide) _) (by omega)
  generalize hL : (TSLexer.start input col).read (input.takeWhile (fun c => c == 32 || c == 9))
    (input.dropWhile (fun c => c == 32 || c == 9)) true = L at hblank
  have hLrest : L.rest = input.dropWhile (fun c => c == 32 || c == 9) := by rw [← hL]; rfl
  have hLmarks : L.marks = [] := by rw [← hL]; rfl
  obtain ⟨b, l, hl⟩ := start_with_word_loop_returns fuel
    ((any_content_keyword.take number_of_comment_entry_keywords).map fun w => (w, true)) L
    (by rw [hLrest]; omega)
  have hb : b = false := by
    apply start_with_word_loop_no_keyword fuel _ L l [] b ?_ ?_ ?_ hl
    · intro c hc _
      obtain ⟨w, hw, rfl⟩ := List.mem_map.1 hc
      exact ⟨w, List.mem_of_mem_take hw, by simp, by simp, by simp⟩
    · intro x hx
      rw [hLrest] at hx
      exact hlatin x (mem_of_mem_dropWhile _ _ _ hx)
    · intro kw hkw
      rw [hLrest]
      simpa using hno kw hkw
  subst hb
  have hmarks := (start_with_word_loop_marks _ _ _ _ _ hl).1
  have hla : ((TSLexer.start input col).lookahead == 0) = false := by
    cases input with
    | nil => exact absurd rfl hne
    | cons y ys =>
      have : y ≠ 0 := by simpa using hnul
      simpa [TSLexer.start, TSLexer.lookahead] using this
  refine ⟨l.mark_end.set_result .COMMENT_ENTRY, ?_, rfl, ?_⟩
  · simp only [tree_sitter_COBOL_external_scanner_scan, hla, only, start_with_word, hblank, hl]
    simp
  · simp [TSLexer.mark_end, TSLexer.set_result, hmarks, hLmarks]

/-- Claim C12 (amended) on the line `  written by J. Doe.`. -/
theorem C12_free_text_comment_entry_witness :
    ∃ l, tree_sitter_COBOL_external_scanner_scan 30
        (TSLexer.start (codes "  written by J. Doe.") 7) (only .COMMENT_ENTRY) = some (true, l) ∧
      l.result_symbol = some .COMMENT_ENTRY ∧ l.marks = [l.pos] :=
  C12_free_text_comment_entry (codes "  written by J. Doe.") 7 30
    (by decide) (by decide) (by decide) (by decide) (by decide)

/-- Claim C12 fails as stated. The line of the code point 321 (a capital L
with stroke) and `UTHOR.` does not begin with a keyword, since 321 lower-cases
to no keyword character; the matcher narrows 321 to `char`, which is `A`,
finds `author` and the scan declines. An input that begins with NUL is
declined at once. -/
theorem C12_counterexample :
    (∀ kw ∈ any_content_keyword,
      (((321 :: codes "UTHOR.").dropWhile (fun c => c == 32 || c == 9)).take kw.length).map
        towlower ≠ kw) ∧
    (tree_sitter_COBOL_external_scanner_scan 20 (TSLexer.start (321 :: codes "UTHOR.") 7)
        (only .COMMENT_ENTRY)).map (fun r => (r.1, r.2.marks)) = some (false, []) ∧
    tree_sitter_COBOL_external_scanner_scan 20 (TSLexer.start (0 :: codes "free text") 7)
        (only .COMMENT_ENTRY) = some (false, TSLexer.start (0 :: codes "free text") 7) := by
  decide

/-! ## Lemmas on the progress of the lexer and the order of the commit positions -/

theorem scan_progress_refl (lexer : TSLexer) : scan_progress lexer lexer :=
  ⟨Nat.le_refl _, Nat.le_add_right _ _, by simp, [], rfl, List.Pairwise.nil, by simp⟩

theorem scan_progress_trans {a b c : TSLexer} (h1 : scan_progress a b) (h2 : scan_progress b c) :
    scan_progress a c := by
  obtain ⟨p1, q1, r1, m1, e1, s1, b1⟩ := h1
  obtain ⟨p2, q2, r2, m2, e2, s2, b2⟩ := h2
  have hlen : b.rest.length = a.rest.length - (b.pos - a.pos) := by
    rw [r1, List.length_drop]
  refine ⟨Nat.le_trans p1 p2, by omega, ?_, m2 ++ m1, by rw [e2, e1, List.append_assoc], ?_, ?_⟩
  · rw [r2, r1, List.drop_drop]
    congr 1
    omega
  · rw [List.pairwise_append]
    refine ⟨s2, s1, ?_⟩
    intro x hx y hy
    have := (b2 x hx).1
    have := (b1 y hy).2
    omega
  · intro m hm
    rcases List.mem_append.1 hm with h | h
    · have := b2 m h; omega
    · have := b1 m h; omega

theorem scan_progress_advance (lexer : TSLexer) (skip : Bool) :
    scan_progress lexer (lexer.advance skip) := by
  unfold TSLexer.advance
  cases hr : lexer.rest with
  | nil => simpa [hr] using scan_progress_refl lexer
  | cons x xs =>
    exact ⟨by simp, by simp [hr], by simp [hr], [], rfl, List.Pairwise.nil, by simp⟩

theorem scan_progress_mark_end (lexer : TSLexer) : scan_progress lexer lexer.mark_end :=
  ⟨Nat.le_refl _, Nat.le_add_right _ _, by simp [TSLexer.mark_end], [lexer.pos], rfl,
    List.pairwise_singleton _ _, by simp [TSLexer.mark_end]⟩

theorem scan_progress_set_result (lexer : TSLexer) (t : TokenType) :
    scan_progress lexer (lexer.set_result t) :=
  ⟨Nat.le_refl _, Nat.le_add_right _ _, by simp [TSLexer.set_result], [], rfl,
    List.Pairwise.nil, by simp⟩

theorem scan_progress_advance_while (cond : TSLexer → Bool) (skip : Bool) :
    ∀ (fuel : Nat) (lexer r : TSLexer),
      advance_while cond skip fuel lexer = some r → scan_progress lexer r := by
  intro fuel
  induction fuel with
  | zero => intro lexer r h; simp [advance_while] at h
  | succ f ih =>
    intro lexer r h
    rw [advance_while] at h
    split at h
    · exact scan_progress_trans (scan_progress_advance lexer skip) (ih _ _ h)
    · cases h; exact scan_progress_refl _

theorem scan_progress_skip_sequence_area :
    ∀ (n : Nat) (lexer : TSLexer), scan_progress lexer (skip_sequence_area n lexer).2 := by
  intro n
  induction n with
  | zero => intro lexer; exact scan_progress_refl _
  | succ n ih =>
    intro lexer
    rw [skip_sequence_area]
    split
    · exact scan_progress_refl _
    · exact scan_progress_trans (scan_progress_advance lexer true) (ih _)

theorem scan_progress_scan_for_end_exec_from :
    ∀ (ks : List Nat) (matched : Nat) (lexer : TSLexer),
      scan_progress lexer (scan_for_end_exec_from ks matched lexer).2 := by
  intro ks
  induction ks with
  | nil =>
    intro matched lexer
    rw [scan_for_end_exec_from]
    split <;> exact scan_progress_refl _
  | cons k ks ih =>
    intro matched lexer
    rw [scan_for_end_exec_from]
    split
    · exact scan_progress_refl _
    · split
      · exact scan_progress_refl _
      · exact scan_progress_trans (scan_progress_advance lexer false) (ih _ _)

theorem scan_progress_start_with_word_loop :
    ∀ (fuel : Nat) (cands : List (List Nat × Bool)) (lexer l : TSLexer) (b : Bool),
      start_with_word_loop fuel cands lexer = some (b, l) → scan_progress lexer l := by
  intro fuel
  induction fuel with
  | zero => intro cands lexer l b h; simp [start_with_word_loop] at h
  | succ f ih =>
    intro cands lexer l b h
    rw [start_with_word_loop] at h
    split at h
    · cases h; exact scan_progress_refl _
    · split at h
      · simp only [Option.map_eq_some'] at h
        obtain ⟨a, ha, hb⟩ := h
        cases hb
        exact scan_progress_advance_while _ _ _ _ _ ha
      · simp only at h
        split at h
        · cases h; exact scan_progress_refl _
        · exact scan_progress_trans (scan_progress_advance lexer true) (ih _ _ _ _ h)

theorem scan_progress_start_with_word (fuel : Nat) (lexer l : TSLexer) (words : List (List Nat))
    (n : Nat) (b : Bool) (h : start_with_word fuel lexer words n = some (b, l)) :
    scan_progress lexer l := by
  rw [start_with_word] at h
  split at h
  · cases h
  · next l0 h0 =>
    exact scan_progress_trans (scan_progress_advance_while _ _ _ _ _ h0)
      (scan_progress_start_with_word_loop _ _ _ _ _ h)

theorem scan_progress_multiline_string_loop :
    ∀ (fuel : Nat) (lexer l : TSLexer) (b : Bool),
      multiline_string_loop fuel lexer = some (b, l) → scan_progress lexer l := by
  intro fuel
  induction fuel with
  | zero => intro lexer l b h; simp [multiline_string_loop] at h
  | succ f ih =>
    intro lexer l b h
    rw [multiline_string_loop] at h
    split at h
    · cases h; exact scan_progress_refl _
    · split at h
      · cases h
      · next l1 h1 =>
        have m1 := scan_progress_trans (scan_progress_advance lexer false)
          (scan_progress_advance_while _ _ _ _ _ h1)
        split at h
        · cases h
          exact scan_progress_trans m1 (scan_progress_trans (scan_progress_set_result _ _)
            (scan_progress_trans (scan_progress_advance _ false) (scan_progress_mark_end _)))
        · split at h
          · cases h
          · next l2 h2 =>
            have m2 := scan_progress_trans m1 (scan_progress_advance_while _ _ _ _ _ h2)
            split at h
            · cases h; exact m2
            · have m3 := scan_progress_trans m2 (scan_progress_trans
                (scan_progress_advance l2 true) (scan_progress_skip_sequence_area 6 _))
              split at h
              · next l3 h3 =>
                rw [h3] at m3
                cases h; exact m3
              · next l3 h3 =>
                rw [h3] at m3
                split at h
                · cases h; exact m3
                · split at h
                  · cases h
                  · next l4 h4 =>
                    exact scan_progress_trans m3 (scan_progress_trans
                      (scan_progress_trans (scan_progress_advance l3 true)
                        (scan_progress_advance_while _ _ _ _ _ h4)) (ih _ _ _ h))

theorem scan_progress_exec_block_content_loop :
    ∀ (fuel : Nat) (has_content : Bool) (lexer l : TSLexer) (b : Bool),
      exec_block_content_loop fuel has_content lexer = some (b, l) → scan_progress lexer l := by
  intro fuel
  induction fuel with
  | zero => intro hc lexer l b h; simp [exec_block_content_loop] at h
  | succ f ih =>
    intro hc lexer l b h
    have hstep : ∀ hc2, exec_block_content_loop f hc2 (lexer.advance false).mark_end = some (b, l) →
        scan_progress lexer l := fun hc2 h2 =>
      scan_progress_trans (scan_progress_trans (scan_progress_advance lexer false)
        (scan_progress_mark_end _)) (ih _ _ _ _ h2)
    rw [exec_block_content_loop] at h
    split at h
    · split at h
      · cases h; exact scan_progress_set_result _ _
      · cases h; exact scan_progress_refl _
    · split at h
      · exact hstep _ h
      · split at h
        · split at h
          · cases h
          · next l1 h1 =>
            exact scan_progress_trans (scan_progress_advance_while _ _ _ _ _ h1) (ih _ _ _ _ h)
        · split at h
          · split at h
            next matched l1 hs =>
            have m1 : scan_progress lexer l1 := by
              have := scan_progress_scan_for_end_exec_from end_exec_keyword 0 lexer.mark_end
              rw [← scan_for_end_exec, hs] at this
              exact scan_progress_trans (scan_progress_mark_end lexer) this
            split at h
            · cases h; exact scan_progress_trans m1 (scan_progress_set_result _ _)
            · exact scan_progress_trans m1
                (scan_progress_trans (scan_progress_mark_end l1) (ih _ _ _ _ h))
          · exact hstep _ h

/-- Every scan that returns has read forward and put its commit positions in
order. -/
theorem scan_progress_scan (fuel : Nat) (lexer l : TSLexer) (valid_symbols : TokenType → Bool)
    (b : Bool)
    (h : tree_sitter_COBOL_external_scanner_scan fuel lexer valid_symbols = some (b, l)) :
    scan_progress lexer l := by
  have hmap : ∀ (cond : TSLexer → Bool) (t : TokenType),
      (advance_while cond true fuel lexer).map
        (fun l => (true, (l.set_result t).mark_end)) = some (b, l) → scan_progress lexer l := by
    intro cond t hm
    simp only [Option.map_eq_some'] at hm
    obtain ⟨a, ha, hb⟩ := hm
    cases hb
    exact scan_progress_trans (scan_progress_advance_while _ _ _ _ _ ha)
      (scan_progress_trans (scan_progress_set_result _ _) (scan_progress_mark_end _))
  rw [tree_sitter_COBOL_external_scanner_scan] at h
  split at h
  · cases h; exact scan_progress_refl _
  · split at h
    · exact hmap _ _ h
    · split at h
      · exact hmap _ _ h
      · split at h
        · split at h
          · exact hmap _ _ h
          · cases h
            exact scan_progress_trans (scan_progress_advance lexer true) (scan_progress_mark_end _)
        · split at h
          · exact hmap _ _ h
          · split at h
            · split at h
              · cases h
              · next l0 hs =>
                cases h
                exact scan_progress_trans (scan_progress_start_with_word _ _ _ _ _ _ hs)
                  (scan_progress_trans (scan_progress_mark_end _) (scan_progress_set_result _ _))
              · next l0 hs =>
                cases h
                exact scan_progress_start_with_word _ _ _ _ _ _ hs
            · split at h
              · exact scan_progress_multiline_string_loop _ _ _ _ h
              · split at h
                · exact scan_progress_exec_block_content_loop _ _ _ _ _ h
                · cases h; exact scan_progress_refl _

/-! ## Lemmas on the return of the scan -/

theorem TSLexer.advance_rest_length_le (lexer : TSLexer) (skip : Bool) :
    (lexer.advance skip).rest.length ≤ lexer.rest.length := by
  unfold TSLexer.advance
  split
  · exact Nat.le_refl _
  · next c cs h => simp [h]

theorem skip_sequence_area_rest_length :
    ∀ (n : Nat) (lexer : TSLexer),
      (skip_sequence_area n lexer).2.rest.length ≤ lexer.rest.length := by
  intro n
  induction n with
  | zero => intro lexer; exact Nat.le_refl _
  | succ n ih =>
    intro lexer
    rw [skip_sequence_area]
    split
    · exact Nat.le_refl _
    · exact Nat.le_trans (ih _) (lexer.advance_rest_length_le true)

theorem lookahead_ne_zero_rest (l : TSLexer) (h : l.lookahead ≠ 0) : l.rest ≠ [] := by
  intro he; exact h (by simp [TSLexer.lookahead, he])

/-- The loop of the string scanner returns. -/
theorem multiline_string_loop_returns :
    ∀ (fuel : Nat) (lexer : TSLexer), lexer.rest.length + 1 < fuel →
      ∃ b l, multiline_string_loop fuel lexer = some (b, l) := by
  intro fuel
  induction fuel with
  | zero => intro lexer h; omega
  | succ f ih =>
    intro lexer h
    rw [multiline_string_loop]
    split
    · exact ⟨_, _, rfl⟩
    · next hq =>
      have hne : lexer.rest ≠ [] := by
        apply lookahead_ne_zero_rest
        intro h0
        apply hq
        simp [h0]
      have hadv := lexer.advance_rest_length false hne
      obtain ⟨l1, h1, hl1, _⟩ := advance_while_returns
        (fun l => l.lookahead != 34 && l.lookahead != 0 && decide (l.get_column < 72)) false
        (by
          intro l hl
          simp only [Bool.and_eq_true, bne_iff_ne] at hl
          exact lookahead_ne_zero_rest l hl.1.2)
        f (lexer.advance false) (by omega)
      rw [h1]
      simp only
      split
      · exact ⟨_, _, rfl⟩
      · obtain ⟨l2, h2, hl2, _⟩ := advance_while_returns
          (fun l => l.lookahead != 0 && l.lookahead != 10) true
          (by
            intro l hl
            simp only [Bool.and_eq_true, bne_iff_ne] at hl
            exact lookahead_ne_zero_rest l hl.1)
          f l1 (by omega)
        rw [h2]
        simp only
        split
        · exact ⟨_, _, rfl⟩
        · have hs := skip_sequence_area_rest_length 6 (l2.advance true)
          have ha2 := l2.advance_rest_length_le true
          split
          · exact ⟨_, _, rfl⟩
          · next l3 h3 =>
            rw [h3] at hs
            simp only at hs
            split
            · exact ⟨_, _, rfl⟩
            · have ha3 := l3.advance_rest_length_le true
              obtain ⟨l4, h4, hl4, _⟩ := advance_while_returns
                (fun l => l.lookahead == 32 && decide (l.get_column < 72)) true
                (by
                  intro l hl
                  simp only [Bool.and_eq_true, beq_iff_eq] at hl
                  exact lookahead_ne_zero_rest l (by rw [hl.1]; decide))
                f (l3.advance true) (by omega)
              rw [h4]
              simp only
              exact ih l4 (by omega)

/-- The loop of the block scanner returns. -/
theorem exec_block_content_loop_returns :
    ∀ (fuel : Nat) (has_content : Bool) (lexer : TSLexer), lexer.rest.length + 1 < fuel →
      ∃ r, exec_block_content_loop fuel has_content lexer = some r := by
  intro fuel
  induction fuel with
  | zero => intro hc lexer h; omega
  | succ f ih =>
    intro hc lexer h
    rw [exec_block_content_loop]
    cases hr : lexer.rest with
    | nil =>
      simp only [TSLexer.eof, hr, List.isEmpty_nil, if_true]
      split <;> exact ⟨_, rfl⟩
    | cons x xs =>
      have heof : lexer.eof = false := by simp [TSLexer.eof, hr]
      have hne : lexer.rest ≠ [] := by simp [hr]
      have hadv := lexer.advance_rest_length false hne
      have hstep : ∃ r, exec_block_content_loop f true (lexer.advance false).mark_end = some r :=
        ih _ _ (by simp only [TSLexer.mark_end]; omega)
      simp only [heof, Bool.false_eq_true, if_false]
      split
      · exact hstep
      · next hnl =>
        split
        · have hc1 : (fun l : TSLexer => l.lookahead != 10 && !l.eof) lexer = true := by
            simp only [heof]; simpa using hnl
          obtain ⟨l, hl, _, hlt⟩ := advance_while_returns
            (fun l => l.lookahead != 10 && !l.eof) false
            (by intro l hl; simp [TSLexer.eof] at hl; exact hl.2)
            f lexer (by omega)
          rw [hl]
          exact ih _ l (by have := hlt hc1; omega)
        · split
          · next he =>
            have hscan := scan_for_end_exec_eq lexer.mark_end
            have hmrest : lexer.mark_end.rest = lexer.rest := rfl
            rw [hmrest] at hscan
            generalize hk : match_length end_exec_keyword lexer.rest = k at hscan
            have hk1 : 1 ≤ k := by
              rw [← hk, hr]
              have : towlower x = 101 := by
                simpa [TSLexer.lookahead, hr] using he
              simp [end_exec_keyword, match_length, this]
            have hkle : k ≤ lexer.rest.length := by
              rw [← hk]; exact match_length_le_input _ _
            rw [hscan]
            simp only
            split
            · exact ⟨_, rfl⟩
            · apply ih
              simp only [TSLexer.mark_end, TSLexer.moved, List.length_drop]
              omega
          · exact hstep

/-- The keyword matcher returns. -/
theorem start_with_word_returns (fuel : Nat) (lexer : TSLexer) (words : List (List Nat))
    (n : Nat) (h : lexer.rest.length + 1 < fuel) :
    ∃ b l, start_with_word fuel lexer words n = some (b, l) := by
  obtain ⟨l0, h0, hl0, _⟩ := advance_while_returns
    (fun l => l.lookahead == 32 || l.lookahead == 9) true
    (by
      intro l hl
      simp only [Bool.or_eq_true, beq_iff_eq] at hl
      apply lookahead_ne_zero_rest
      rcases hl with h | h <;> rw [h] <;> decide)
    fuel lexer (by omega)
  rw [start_with_word, h0]
  exact start_with_word_loop_returns fuel _ l0 (by omega)

/-- The scan returns, with fuel for the rest of the input, unless it enters the
loop over the sequence-number area. -/
theorem scan_returns (fuel : Nat) (lexer : TSLexer) (valid_symbols : TokenType → Bool)
    (hpre : valid_symbols .LINE_PREFIX_COMMENT = false ∨ 5 < lexer.get_column)
    (h : lexer.rest.length + 1 < fuel) :
    ∃ b l, tree_sitter_COBOL_external_scanner_scan fuel lexer valid_symbols = some (b, l) := by
  have hloop : ∀ (cond : TSLexer → Bool) (t : TokenType),
      (∀ l, cond l = true → l.rest ≠ []) →
      ∃ b l, (advance_while cond true fuel lexer).map
        (fun l => (true, (l.set_result t).mark_end)) = some (b, l) := by
    intro cond t hc
    obtain ⟨r, hr, _, _⟩ := advance_while_returns cond true hc fuel lexer (by omega)
    exact ⟨_, _, by rw [hr]; rfl⟩
  have hline : ∀ l : TSLexer, (l.lookahead != 10 && l.lookahead != 0) = true → l.rest ≠ [] := by
    intro l hl
    simp only [Bool.and_eq_true, bne_iff_ne] at hl
    exact lookahead_ne_zero_rest l hl.2
  rw [tree_sitter_COBOL_external_scanner_scan]
  split
  · exact ⟨_, _, rfl⟩
  · split
    · apply hloop
      intro l hl
      apply lookahead_ne_zero_rest
      intro h0
      rw [h0] at hl
      exact absurd hl (by decide)
    · split
      · next hc =>
        exfalso
        simp only [Bool.and_eq_true, decide_eq_true_eq] at hc
        rcases hpre with hp | hp
        · rw [hp] at hc; exact absurd hc.1 (by decide)
        · omega
      · split
        · split
          · exact hloop _ _ hline
          · exact ⟨_, _, rfl⟩
        · split
          · exact hloop _ _ hline
          · split
            · obtain ⟨b, l, hs⟩ := start_with_word_returns fuel lexer any_content_keyword
                number_of_comment_entry_keywords h
              rw [hs]
              cases b
              · exact ⟨_, _, rfl⟩
              · exact ⟨_, _, rfl⟩
            · split
              · exact multiline_string_loop_returns fuel lexer h
              · split
                · obtain ⟨r, hr⟩ := exec_block_content_loop_returns fuel false lexer h
                  exact ⟨r.1, r.2, hr⟩
                · exact ⟨_, _, rfl⟩

/-! ### C18: the commit boundary never moves backward -/

/-- Claim C18: for every input and admissible set, in a scan that returns the
positions given to `mark_end` during the call, in the order of the calls, do
not decrease: `added`, the positions put before those of the start (latest
first), has every later position at or after every earlier one, between the
read positions of the start and of the return. The scan does return, with
fuel for the rest of the input, unless it enters the loop over the
sequence-number area, which calls `mark_end` only once, after the loop. -/
theorem C18_commit_boundary_monotone (fuel : Nat) (lexer : TSLexer)
    (valid_symbols : TokenType → Bool) :
    (∀ b l, tree_sitter_COBOL_external_scanner_scan fuel lexer valid_symbols = some (b, l) →
      ∃ added : List Nat, l.marks = added ++ lexer.marks ∧
        added.Pairwise (fun later earlier => earlier ≤ later) ∧
        ∀ m ∈ added, lexer.pos ≤ m ∧ m ≤ l.pos) ∧
    ((valid_symbols .LINE_PREFIX_COMMENT = false ∨ 5 < lexer.get_column) →
      lexer.rest.length + 1 < fuel →
      ∃ b l, tree_sitter_COBOL_external_scanner_scan fuel lexer valid_symbols = some (b, l)) :=
  ⟨fun b l h => (scan_progress_scan fuel lexer l valid_symbols b h).2.2.2,
    fun hpre hfuel => scan_returns fuel lexer valid_symbols hpre hfuel⟩

/-- Claim C18 on the block `END-END-EXEC`, whose scan calls `mark_end` eleven
times. -/
theorem C18_commit_boundary_monotone_witness :
    (∃ added : List Nat,
      ({ pos := 12, rest := [], column := 12, token_start := 0,
         marks := [12, 11, 10, 10, 9, 8, 8, 7, 6, 5, 0],
         result_symbol := some .EXEC_BLOCK_CONTENT } : TSLexer).marks =
          added ++ (TSLexer.start (codes "END-END-EXEC") 0).marks ∧
        added.Pairwise (fun later earlier => earlier ≤ later) ∧
        ∀ m ∈ added, (TSLexer.start (codes "END-END-EXEC") 0).pos ≤ m ∧
          m ≤ ({ pos := 12, rest := [], column := 12, token_start := 0,
                 marks := [12, 11, 10, 10, 9, 8, 8, 7, 6, 5, 0],
                 result_symbol := some .EXEC_BLOCK_CONTENT } : TSLexer).pos) ∧
    ∃ b l, tree_sitter_COBOL_external_scanner_scan 20 (TSLexer.start (codes "END-END-EXEC") 0)
        (only .EXEC_BLOCK_CONTENT) = some (b, l) :=
  ⟨(C18_commit_boundary_monotone 20 (TSLexer.start (codes "END-END-EXEC") 0)
      (only .EXEC_BLOCK_CONTENT)).1 true _ (by decide),
    (C18_commit_boundary_monotone 20 (TSLexer.start (codes "END-END-EXEC") 0)
      (only .EXEC_BLOCK_CONTENT)).2 (by decide) (by decide)⟩

/-! ## Lemmas: more fuel gives the same result -/

theorem advance_while_mono (cond : TSLexer → Bool) (skip : Bool) :
    ∀ (fuel fuel' : Nat) (lexer r : TSLexer), fuel ≤ fuel' →
      advance_while cond skip fuel lexer = some r →
      advance_while cond skip fuel' lexer = some r := by
  intro fuel
  induction fuel with
  | zero => intro fuel' lexer r _ h; simp [advance_while] at h
  | succ f ih =>
    intro fuel' lexer r hle h
    obtain ⟨f', rfl⟩ : ∃ f', fuel' = f' + 1 := ⟨fuel' - 1, by omega⟩
    rw [advance_while] at h ⊢
    split at h
    · next hc => rw [if_pos hc]; exact ih f' _ _ (by omega) h
    · next hc => rw [if_neg hc]; exact h

theorem start_with_word_loop_mono :
    ∀ (fuel fuel' : Nat) (cands : List (List Nat × Bool)) (lexer : TSLexer) (r : Bool × TSLexer),
      fuel ≤ fuel' → start_with_word_loop fuel cands lexer = some r →
      start_with_word_loop fuel' cands lexer = some r := by
  intro fuel
  induction fuel with
  | zero => intro fuel' cands lexer r _ h; simp [start_with_word_loop] at h
  | succ f ih =>
    intro fuel' cands lexer r hle h
    obtain ⟨f', rfl⟩ : ∃ f', fuel' = f' + 1 := ⟨fuel' - 1, by omega⟩
    rw [start_with_word_loop] at h ⊢
    split at h
    · next hc => rw [if_pos hc]; exact h
    · next hc =>
      rw [if_neg hc]
      split at h
      · next hd =>
        rw [if_pos hd]
        simp only [Option.map_eq_some'] at h ⊢
        obtain ⟨a, ha, hb⟩ := h
        exact ⟨a, advance_while_mono _ _ _ _ _ _ (by omega) ha, hb⟩
      · next hd =>
        rw [if_neg hd]
        simp only at h ⊢
        split at h
        · next ha => rw [if_pos ha]; exact h
        · next ha => rw [if_neg ha]; exact ih f' _ _ _ (by omega) h

theorem start_with_word_mono (fuel fuel' : Nat) (lexer : TSLexer) (words : List (List Nat))
    (n : Nat) (r : Bool × TSLexer) (hle : fuel ≤ fuel')
    (h : start_with_word fuel lexer words n = some r) :
    start_with_word fuel' lexer words n = some r := by
  rw [start_with_word] at h ⊢
  split at h
  · cases h
  · next l0 h0 =>
    rw [advance_while_mono _ _ _ _ _ _ hle h0]
    exact start_with_word_loop_mono _ _ _ _ _ hle h

theorem multiline_string_loop_mono :
    ∀ (fuel fuel' : Nat) (lexer : TSLexer) (r : Bool × TSLexer), fuel ≤ fuel' →
      multiline_string_loop fuel lexer = some r → multiline_string_loop fuel' lexer = some r := by
  intro fuel
  induction fuel with
  | zero => intro fuel' lexer r _ h; simp [multiline_string_loop] at h
  | succ f ih =>
    intro fuel' lexer r hle h
    obtain ⟨f', rfl⟩ : ∃ f', fuel' = f' + 1 := ⟨fuel' - 1, by omega⟩
    have hf : f ≤ f' := by omega
    rw [multiline_string_loop] at h ⊢
    split at h
    · next hc => rw [if_pos hc]; exact h
    · next hc =>
      rw [if_neg hc]
      split at h
      · cases h
      · next l1 h1 =>
        rw [advance_while_mono _ _ _ _ _ _ hf h1]
        simp only
        split at h
        · next hq => rw [if_pos hq]; exact h
        · next hq =>
          rw [if_neg hq]
          split at h
          · cases h
          · next l2 h2 =>
            rw [advance_while_mono _ _ _ _ _ _ hf h2]
            simp only
            split at h
            · next h0 => rw [if_pos h0]; exact h
            · next h0 =>
              rw [if_neg h0]
              split at h
              · next l3 h3 => exact h
              · next l3 h3 =>
                split at h
                · next hd => rw [if_pos hd]; exact h
                · next hd =>
                  rw [if_neg hd]
                  split at h
                  · cases h
                  · next l4 h4 =>
                    rw [advance_while_mono _ _ _ _ _ _ hf h4]
                    exact ih f' _ _ hf h

theorem exec_block_content_loop_mono :
    ∀ (fuel fuel' : Nat) (has_content : Bool) (lexer : TSLexer) (r : Bool × TSLexer),
      fuel ≤ fuel' → exec_block_content_loop fuel has_content lexer = some r →
      exec_block_content_loop fuel' has_content lexer = some r := by
  intro fuel
  induction fuel with
  | zero => intro fuel' hc lexer r _ h; simp [exec_block_content_loop] at h
  | succ f ih =>
    intro fuel' hc lexer r hle h
    obtain ⟨f', rfl⟩ : ∃ f', fuel' = f' + 1 := ⟨fuel' - 1, by omega⟩
    have hf : f ≤ f' := by omega
    rw [exec_block_content_loop] at h ⊢
    split at h
    · next he => rw [if_pos he]; exact h
    · next he =>
      rw [if_neg he]
      split at h
      · next hn => rw [if_pos hn]; exact ih f' _ _ _ hf h
      · next hn =>
        rw [if_neg hn]
        split at h
        · next h72 =>
          rw [if_pos h72]
          split at h
          · cases h
          · next l1 h1 =>
            rw [advance_while_mono _ _ _ _ _ _ hf h1]
            exact ih f' _ _ _ hf h
        · next h72 =>
          rw [if_neg h72]
          split at h
          · next hee =>
            rw [if_pos hee]
            split at h
            next matched l1 hs =>
            split at h
            · next h8 => rw [if_pos h8]; exact h
            · next h8 => rw [if_neg h8]; exact ih f' _ _ _ hf h
          · next hee =>
            rw [if_neg hee]
            exact ih f' _ _ _ hf h

/-- More fuel gives the same result of the scan. -/
theorem scan_mono (fuel fuel' : Nat) (lexer : TSLexer) (valid_symbols : TokenType → Bool)
    (r : Bool × TSLexer) (hle : fuel ≤ fuel')
    (h : tree_sitter_COBOL_external_scanner_scan fuel lexer valid_symbols = some r) :
    tree_sitter_COBOL_external_scanner_scan fuel' lexer valid_symbols = some r := by
  have hmap : ∀ (cond : TSLexer → Bool) (t : TokenType),
      (advance_while cond true fuel lexer).map
        (fun l => (true, (l.set_result t).mark_end)) = some r →
      (advance_while cond true fuel' lexer).map
        (fun l => (true, (l.set_result t).mark_end)) = some r := by
    intro cond t hm
    simp only [Option.map_eq_some'] at hm ⊢
    obtain ⟨a, ha, hb⟩ := hm
    exact ⟨a, advance_while_mono _ _ _ _ _ _ hle ha, hb⟩
  rw [tree_sitter_COBOL_external_scanner_scan] at h ⊢
  split at h
  · next hc => rw [if_pos hc]; exact h
  · next hc =>
    rw [if_neg hc]
    split at h
    · next hw => rw [if_pos hw]; exact hmap _ _ h
    · next hw =>
      rw [if_neg hw]
      split at h
      · next hp => rw [if_pos hp]; exact hmap _ _ h
      · next hp =>
        rw [if_neg hp]
        split at h
        · next hl =>
          rw [if_pos hl]
          split at h
          · next hs => rw [if_pos hs]; exact hmap _ _ h
          · next hs => rw [if_neg hs]; exact h
        · next hl =>
          rw [if_neg hl]
          split at h
          · next hs => rw [if_pos hs]; exact hmap _ _ h
          · next hs =>
            rw [if_neg hs]
            split at h
            · next hce =>
              rw [if_pos hce]
              split at h
              · cases h
              · next l0 h0 => rw [start_with_word_mono _ _ _ _ _ _ hle h0]; exact h
              · next l0 h0 => rw [start_with_word_mono _ _ _ _ _ _ hle h0]; exact h
            · next hce =>
              rw [if_neg hce]
              split at h
              · next hm => rw [if_pos hm]; exact multiline_string_loop_mono _ _ _ _ hle h
              · next hm =>
                rw [if_neg hm]
                split at h
                · next hx =>
                  rw [if_pos hx]
                  exact exec_block_content_loop_mono _ _ _ _ _ hle h
                · next hx => rw [if_neg hx]; exact h

/-! ## Lemmas: the scan of an input cut at the commit boundary -/

theorem TSLexer.cut_lookahead (lexer : TSLexer) (B : Nat) (h : lexer.pos < B) :
    (lexer.cut B).lookahead = lexer.lookahead := by
  obtain ⟨n, hn⟩ : ∃ n, B - lexer.pos = n + 1 := ⟨B - lexer.pos - 1, by omega⟩
  cases hr : lexer.rest with
  | nil => simp [TSLexer.cut, TSLexer.lookahead, hr]
  | cons x xs => simp [TSLexer.cut, TSLexer.lookahead, hr, hn]

theorem TSLexer.cut_eof (lexer : TSLexer) (B : Nat) (h : lexer.pos < B) :
    (lexer.cut B).eof = lexer.eof := by
  obtain ⟨n, hn⟩ : ∃ n, B - lexer.pos = n + 1 := ⟨B - lexer.pos - 1, by omega⟩
  cases hr : lexer.rest with
  | nil => simp [TSLexer.cut, TSLexer.eof, hr]
  | cons x xs => simp [TSLexer.cut, TSLexer.eof, hr, hn]

theorem TSLexer.cut_advance (lexer : TSLexer) (B : Nat) (skip : Bool) (h : lexer.pos < B) :
    (lexer.cut B).advance skip = (lexer.advance skip).cut B := by
  obtain ⟨n, hn⟩ : ∃ n, B - lexer.pos = n + 1 := ⟨B - lexer.pos - 1, by omega⟩
  cases hr : lexer.rest with
  | nil => simp [TSLexer.cut, TSLexer.advance, hr]
  | cons x xs =>
    have : B - (lexer.pos + 1) = n := by omega
    simp [TSLexer.cut, TSLexer.advance, hr, hn, this]

theorem TSLexer.cut_rest_nil (lexer : TSLexer) (B : Nat) (h : B ≤ lexer.pos) :
    (lexer.cut B).rest = [] := by
  have : B - lexer.pos = 0 := by omega
  simp [TSLexer.cut, this]

theorem TSLexer.advance_pos (lexer : TSLexer) (skip : Bool) (h : lexer.rest ≠ []) :
    (lexer.advance skip).pos = lexer.pos + 1 := by
  cases hr : lexer.rest with
  | nil => exact absurd hr h
  | cons x xs => simp [TSLexer.advance, hr]

/-- A loop that returns where it started has read nothing. -/
theorem advance_while_pos_eq (cond : TSLexer → Bool) (skip : Bool) :
    ∀ (fuel : Nat) (lexer r : TSLexer),
      advance_while cond skip fuel lexer = some r → r.pos = lexer.pos → r = lexer := by
  intro fuel
  cases fuel with
  | zero => intro lexer r h; simp [advance_while] at h
  | succ f =>
    intro lexer r h hp
    rw [advance_while] at h
    split at h
    · next hc =>
      exfalso
      by_cases hr : lexer.rest = []
      · have hadv : lexer.advance skip = lexer := by simp [TSLexer.advance, hr]
        rw [hadv, advance_while_stuck cond skip f lexer hr hc] at h
        cases h
      · have h1 := lexer.advance_pos skip hr
        have h2 := (scan_progress_advance_while cond skip f _ _ h).1
        omega
    · cases h; rfl

/-- A loop `while (cond) advance` does the same on the input cut at `B`, when
it stops at `B` or before and `cond`, a matter of the lookahead, the column
and the end of input, fails at the end of input where it failed before. -/
theorem advance_while_cut (cond : TSLexer → Bool) (skip : Bool) (B : Nat)
    (hloc : ∀ l l' : TSLexer, l.lookahead = l'.lookahead → l.column = l'.column →
      l.eof = l'.eof → cond l = cond l')
    (hend : ∀ l l' : TSLexer, l'.rest = [] → l'.column = l.column → cond l = false →
      cond l' = false) :
    ∀ (fuel : Nat) (lexer r : TSLexer),
      advance_while cond skip fuel lexer = some r → r.pos ≤ B →
      advance_while cond skip fuel (lexer.cut B) = some (r.cut B) := by
  intro fuel
  induction fuel with
  | zero => intro lexer r h; simp [advance_while] at h
  | succ f ih =>
    intro lexer r h hB
    rw [advance_while] at h ⊢
    split at h
    · next hc =>
      have hr : lexer.rest ≠ [] := by
        intro hr
        have hadv : lexer.advance skip = lexer := by simp [TSLexer.advance, hr]
        rw [hadv, advance_while_stuck cond skip f lexer hr hc] at h
        cases h
      have h1 := lexer.advance_pos skip hr
      have h2 := (scan_progress_advance_while cond skip f _ _ h).1
      have hlt : lexer.pos < B := by omega
      have hc2 : cond (lexer.cut B) = true := by
        rw [← hc]
        exact hloc _ _ (lexer.cut_lookahead B hlt) rfl (lexer.cut_eof B hlt)
      rw [if_pos hc2, lexer.cut_advance B skip hlt]
      exact ih _ _ h hB
    · next hc =>
      cases h
      have hc1 : cond lexer = false := by simpa using hc
      have hc2 : cond (lexer.cut B) = false := by
        by_cases hlt : lexer.pos < B
        · rw [← hc1]
          exact hloc _ _ (lexer.cut_lookahead B hlt) rfl (lexer.cut_eof B hlt)
        · exact hend lexer _ (lexer.cut_rest_nil B (by omega)) rfl hc1
      simp [hc2]

theorem skip_sequence_area_cut (B : Nat) :
    ∀ (n : Nat) (lexer : TSLexer), (skip_sequence_area n lexer).2.pos < B →
      skip_sequence_area n (lexer.cut B) =
        ((skip_sequence_area n lexer).1, (skip_sequence_area n lexer).2.cut B) := by
  intro n
  induction n with
  | zero => intro lexer _; rfl
  | succ n ih =>
    intro lexer hB
    have hp := (scan_progress_skip_sequence_area (n + 1) lexer).1
    have hlt : lexer.pos < B := by omega
    rw [skip_sequence_area] at hB ⊢
    rw [skip_sequence_area, lexer.cut_lookahead B hlt]
    split
    · rfl
    · next hc =>
      rw [if_neg hc] at hB
      rw [lexer.cut_advance B true hlt]
      exact ih _ hB

theorem TSLexer.lookahead_of_rest_nil (l : TSLexer) (h : l.rest = []) : l.lookahead = 0 := by
  simp [TSLexer.lookahead, h]

theorem TSLexer.cut_set_result (lexer : TSLexer) (B : Nat) (t : TokenType) :
    (lexer.cut B).set_result t = (lexer.set_result t).cut B := rfl

theorem TSLexer.cut_mark_end (lexer : TSLexer) (B : Nat) :
    (lexer.cut B).mark_end = lexer.mark_end.cut B := rfl

/-- The loop of the keyword matcher, when it reports no keyword, does the same
on the input cut where it stopped. -/
theorem start_with_word_loop_cut :
    ∀ (fuel : Nat) (cands : List (List Nat × Bool)) (lexer l : TSLexer),
      start_with_word_loop fuel cands lexer = some (false, l) →
      start_with_word_loop fuel cands (lexer.cut l.pos) = some (false, l.cut l.pos) := by
  intro fuel
  induction fuel with
  | zero => intro cands lexer l h; simp [start_with_word_loop] at h
  | succ f ih =>
    intro cands lexer l h
    have hprog := (scan_progress_start_with_word_loop _ _ _ _ _ h).1
    have hcol : (lexer.cut l.pos).get_column = lexer.get_column := rfl
    rw [start_with_word_loop] at h
    -- at the end of the cut input the guard of the loop fires
    have hstop : lexer.pos = l.pos → l = lexer →
        start_with_word_loop (f + 1) cands (lexer.cut l.pos) = some (false, l.cut l.pos) := by
      intro hp he
      subst he
      have hnil := l.cut_rest_nil l.pos (Nat.le_refl _)
      have hla := (l.cut l.pos).lookahead_of_rest_nil hnil
      rw [start_with_word_loop]
      simp [hla]
    split at h
    · next hg =>
      cases h
      exact hstop rfl rfl
    · next hg =>
      by_cases hlt : lexer.pos < l.pos
      · have hla := lexer.cut_lookahead l.pos hlt
        rw [start_with_word_loop]
        simp only [hla, hcol]
        rw [if_neg hg]
        split at h
        · next hd =>
          rw [if_pos hd]
          simp only [Option.map_eq_some', Prod.mk.injEq, true_and] at h ⊢
          obtain ⟨a, ha, rfl⟩ := h
          refine ⟨_, advance_while_cut _ true a.pos ?_ ?_ f lexer a ha (Nat.le_refl _), rfl⟩
          · intro l1 l2 h1 h2 _
            simp [TSLexer.get_column, h1, h2]
          · intro l1 l2 h1 _ _
            simp [l2.lookahead_of_rest_nil h1]
        · next hd =>
          rw [if_neg hd]
          simp only at h ⊢
          split at h
          · cases h
          · next ha =>
            rw [if_neg ha, lexer.cut_advance l.pos true hlt]
            exact ih _ _ _ h
      · have hp : lexer.pos = l.pos := by omega
        apply hstop hp
        split at h
        · simp only [Option.map_eq_some', Prod.mk.injEq, true_and] at h
          obtain ⟨a, ha, rfl⟩ := h
          exact advance_while_pos_eq _ _ _ _ _ ha hp.symm
        · simp only at h
          split at h
          · cases h
          · exfalso
            have hne : lexer.rest ≠ [] := by
              intro he
              apply hg
              simp [TSLexer.lookahead, he]
            have h1 := lexer.advance_pos true hne
            have h2 := (scan_progress_start_with_word_loop _ _ _ _ _ h).1
            omega

theorem start_with_word_cut (fuel : Nat) (lexer l : TSLexer) (words : List (List Nat))
    (n : Nat) (h : start_with_word fuel lexer words n = some (false, l)) :
    start_with_word fuel (lexer.cut l.pos) words n = some (false, l.cut l.pos) := by
  rw [start_with_word] at h ⊢
  split at h
  · cases h
  · next l0 h0 =>
    have hp := (scan_progress_start_with_word_loop _ _ _ _ _ h).1
    have hc := advance_while_cut (fun l => l.lookahead == 32 || l.lookahead == 9) true l.pos
      (by intro l1 l2 h1 _ _; simp [h1])
      (by intro l1 l2 h1 _ _; simp [l2.lookahead_of_rest_nil h1])
      fuel lexer l0 h0 hp
    rw [hc]
    exact start_with_word_loop_cut _ _ _ _ h

/-- The loop of the string scanner, when it finds the closing quote, does the
same on the input cut after that quote. -/
theorem multiline_string_loop_cut :
    ∀ (fuel : Nat) (lexer l : TSLexer),
      multiline_string_loop fuel lexer = some (true, l) →
      multiline_string_loop fuel (lexer.cut l.pos) = some (true, l.cut l.pos) := by
  intro fuel
  induction fuel with
  | zero => intro lexer l h; simp [multiline_string_loop] at h
  | succ f ih =>
    intro lexer l h
    have hprog := (scan_progress_multiline_string_loop _ _ _ _ h).1
    rw [multiline_string_loop] at h
    split at h
    · cases h
    · next hq =>
      have hne : lexer.rest ≠ [] := by
        apply lookahead_ne_zero_rest
        intro h0
        apply hq
        simp [h0]
      have hp0 := lexer.advance_pos false hne
      split at h
      · cases h
      · next l1 h1 =>
        have hp1 := (scan_progress_advance_while _ _ _ _ _ h1).1
        have hloc1 : ∀ a b : TSLexer, a.lookahead = b.lookahead → a.column = b.column →
            a.eof = b.eof →
            (fun l : TSLexer => l.lookahead != 34 && l.lookahead != 0 &&
              decide (l.get_column < 72)) a =
            (fun l : TSLexer => l.lookahead != 34 && l.lookahead != 0 &&
              decide (l.get_column < 72)) b := by
          intro a b e1 e2 _
          simp [TSLexer.get_column, e1, e2]
        have hend1 : ∀ a b : TSLexer, b.rest = [] → b.column = a.column →
            (fun l : TSLexer => l.lookahead != 34 && l.lookahead != 0 &&
              decide (l.get_column < 72)) a = false →
            (fun l : TSLexer => l.lookahead != 34 && l.lookahead != 0 &&
              decide (l.get_column < 72)) b = false := by
          intro a b e1 _ _
          simp [b.lookahead_of_rest_nil e1]
        split at h
        · next hq1 =>
          -- the closing quote
          cases h
          have hne1 : l1.rest ≠ [] := by
            apply lookahead_ne_zero_rest
            intro h0
            rw [h0] at hq1
            exact absurd hq1 (by decide)
          have hpos : ((((l1.set_result .multiline_string).advance false).mark_end)).pos =
              l1.pos + 1 := (l1.set_result .multiline_string).advance_pos false hne1
          rw [hpos] at hprog ⊢
          have hlt : lexer.pos < l1.pos + 1 := by omega
          have hc1 := advance_while_cut _ false (l1.pos + 1) hloc1 hend1 f _ l1 h1 (by omega)
          have hla1 := l1.cut_lookahead (l1.pos + 1) (by omega)
          rw [multiline_string_loop, lexer.cut_lookahead _ hlt, if_neg hq,
            lexer.cut_advance _ false hlt, hc1]
          simp only [hla1]
          rw [if_pos hq1, TSLexer.cut_set_result,
            (l1.set_result .multiline_string).cut_advance (l1.pos + 1) false (by
              show l1.pos < l1.pos + 1
              omega),
            TSLexer.cut_mark_end]
        · next hq1 =>
          split at h
          · cases h
          · next l2 h2 =>
            have hp2 := (scan_progress_advance_while _ _ _ _ _ h2).1
            split at h
            · cases h
            · next h0 =>
              have hne2 : l2.rest ≠ [] := by
                apply lookahead_ne_zero_rest
                intro e
                apply h0
                simp [e]
              have hp2a := l2.advance_pos true hne2
              have hp3 := (scan_progress_skip_sequence_area 6 (l2.advance true)).1
              split at h
              · cases h
              · next l3 h3 =>
                rw [h3] at hp3
                simp only at hp3
                split at h
                · cases h
                · next hd =>
                  have hne3 : l3.rest ≠ [] := by
                    apply lookahead_ne_zero_rest
                    intro e
                    apply hd
                    simp [e]
                  have hp3a := l3.advance_pos true hne3
                  split at h
                  · cases h
                  · next l4 h4 =>
                    have hp4 := (scan_progress_advance_while _ _ _ _ _ h4).1
                    have hp5 := (scan_progress_multiline_string_loop _ _ _ _ h).1
                    have hc1 := advance_while_cut _ false l.pos hloc1 hend1 f _ l1 h1 (by omega)
                    have hc2 := advance_while_cut
                      (fun l => l.lookahead != 0 && l.lookahead != 10) true l.pos
                      (by intro a b e1 _ _; simp [e1])
                      (by intro a b e1 _ _; simp [b.lookahead_of_rest_nil e1])
                      f l1 l2 h2 (by omega)
                    have hc3 := skip_sequence_area_cut l.pos 6 (l2.advance true)
                      (by rw [h3]; show l3.pos < l.pos; omega)
                    rw [h3] at hc3
                    simp only at hc3
                    have hc4 := advance_while_cut
                      (fun l => l.lookahead == 32 && decide (l.get_column < 72)) true l.pos
                      (by intro a b e1 e2 _; simp [TSLexer.get_column, e1, e2])
                      (by intro a b e1 _ _; simp [b.lookahead_of_rest_nil e1])
                      f _ l4 h4 (by omega)
                    rw [multiline_string_loop, lexer.cut_lookahead _ (by omega), if_neg hq,
                      lexer.cut_advance _ false (by omega), hc1]
                    simp only
                    rw [l1.cut_lookahead _ (by omega), if_neg hq1, hc2]
                    simp only
                    rw [l2.cut_lookahead _ (by omega), if_neg h0,
                      l2.cut_advance _ true (by omega), hc3]
                    simp only
                    rw [l3.cut_lookahead _ (by omega), if_neg hd,
                      l3.cut_advance _ true (by omega), hc4]
                    exact ih _ _ h

/-! ## Lemmas: the scan with one admissible kind -/

theorem scan_only_white_spaces (fuel : Nat) (lexer : TSLexer) :
    tree_sitter_COBOL_external_scanner_scan fuel lexer (only .WHITE_SPACES) =
      if lexer.lookahead == 0 then some (false, lexer)
      else if is_white_space lexer.lookahead then
        (advance_while (fun l => is_white_space l.lookahead) true fuel lexer).map
          (fun l => (true, (l.set_result .WHITE_SPACES).mark_end))
      else some (false, lexer) := by
  simp [tree_sitter_COBOL_external_scanner_scan, only]

theorem scan_only_line_prefix_comment (fuel : Nat) (lexer : TSLexer) :
    tree_sitter_COBOL_external_scanner_scan fuel lexer (only .LINE_PREFIX_COMMENT) =
      if lexer.lookahead == 0 then some (false, lexer)
      else if decide (lexer.get_column ≤ 5) then
        (advance_while (fun l => decide (l.get_column ≤ 5)) true fuel lexer).map
          (fun l => (true, (l.set_result .LINE_PREFIX_COMMENT).mark_end))
      else some (false, lexer) := by
  simp [tree_sitter_COBOL_external_scanner_scan, only]

theorem scan_only_line_comment (fuel : Nat) (lexer : TSLexer) :
    tree_sitter_COBOL_external_scanner_scan fuel lexer (only .LINE_COMMENT) =
      if lexer.lookahead == 0 then some (false, lexer)
      else if lexer.get_column == 6 then
        if lexer.lookahead == 42 || lexer.lookahead == 47 then
          (advance_while (fun l => l.lookahead != 10 && l.lookahead != 0) true fuel lexer).map
            (fun l => (true, (l.set_result .LINE_COMMENT).mark_end))
        else some (false, (lexer.advance true).mark_end)
      else some (false, lexer) := by
  simp [tree_sitter_COBOL_external_scanner_scan, only]

theorem scan_only_line_suffix_comment (fuel : Nat) (lexer : TSLexer) :
    tree_sitter_COBOL_external_scanner_scan fuel lexer (only .LINE_SUFFIX_COMMENT) =
      if lexer.lookahead == 0 then some (false, lexer)
      else if decide (lexer.get_column ≥ 72) then
        (advance_while (fun l => l.lookahead != 10 && l.lookahead != 0) true fuel lexer).map
          (fun l => (true, (l.set_result .LINE_SUFFIX_COMMENT).mark_end))
      else some (false, lexer) := by
  simp [tree_sitter_COBOL_external_scanner_scan, only]

theorem scan_only_comment_entry (fuel : Nat) (lexer : TSLexer) :
    tree_sitter_COBOL_external_scanner_scan fuel lexer (only .COMMENT_ENTRY) =
      if lexer.lookahead == 0 then some (false, lexer)
      else
        match start_with_word fuel lexer any_content_keyword number_of_comment_entry_keywords with
        | none => none
        | some (false, l) => some (true, (l.mark_end).set_result .COMMENT_ENTRY)
        | some (true, l) => some (false, l) := by
  simp only [tree_sitter_COBOL_external_scanner_scan, only]
  by_cases h0 : (lexer.lookahead == 0) = true
  · simp [h0]
  · simp only [h0, if_false]
    cases start_with_word fuel lexer any_content_keyword number_of_comment_entry_keywords with
    | none => simp
    | some p =>
      obtain ⟨b, l⟩ := p
      cases b <;> simp

/-- A loop followed by `result_symbol = t; mark_end; return true`, on the
input cut where the loop stopped. -/
theorem advance_while_map_cut (cond : TSLexer → Bool) (t : TokenType)
    (hloc : ∀ l l' : TSLexer, l.lookahead = l'.lookahead → l.column = l'.column →
      l.eof = l'.eof → cond l = cond l')
    (hend : ∀ l l' : TSLexer, l'.rest = [] → l'.column = l.column → cond l = false →
      cond l' = false)
    (fuel : Nat) (lexer l : TSLexer)
    (h : (advance_while cond true fuel lexer).map
      (fun l => (true, (l.set_result t).mark_end)) = some (true, l)) :
    l.commit_boundary = l.pos ∧
    (advance_while cond true fuel (lexer.cut l.pos)).map
      (fun l => (true, (l.set_result t).mark_end)) = some (true, l.cut l.pos) := by
  simp only [Option.map_eq_some', Prod.mk.injEq, true_and] at h
  obtain ⟨a, ha, rfl⟩ := h
  refine ⟨rfl, ?_⟩
  have hc := advance_while_cut cond true a.pos hloc hend fuel lexer a ha (Nat.le_refl _)
  show (advance_while cond true fuel (lexer.cut a.pos)).map _ = _
  rw [hc]
  rfl

/-- The string scanner moves the commit boundary to where it stops. -/
theorem multiline_string_loop_matched_boundary :
    ∀ (fuel : Nat) (lexer l : TSLexer),
      multiline_string_loop fuel lexer = some (true, l) → l.commit_boundary = l.pos := by
  intro fuel
  induction fuel with
  | zero => intro lexer l h; simp [multiline_string_loop] at h
  | succ f ih =>
    intro lexer l h
    rw [multiline_string_loop] at h
    split at h
    · cases h
    · split at h
      · cases h
      · split at h
        · cases h; rfl
        · split at h
          · cases h
          · split at h
            · cases h
            · split at h
              · cases h
              · split at h
                · cases h
                · split at h
                  · cases h
                  · exact ih _ _ h

/-- A scan that matches a kind other than `EXEC_BLOCK_CONTENT` commits all it
has read, and does the same on the input cut at the commit boundary. -/
theorem scan_cut_matched (k : TokenType) (hk : k ≠ .EXEC_BLOCK_CONTENT)
    (fuel : Nat) (lexer l : TSLexer)
    (h : tree_sitter_COBOL_external_scanner_scan fuel lexer (only k) = some (true, l)) :
    l.commit_boundary = l.pos ∧
    (lexer.pos < l.pos →
      tree_sitter_COBOL_external_scanner_scan fuel (lexer.cut l.pos) (only k) =
        some (true, l.cut l.pos)) := by
  have hla1 : ∀ a b : TSLexer, a.lookahead = b.lookahead → a.column = b.column →
      a.eof = b.eof → (fun l : TSLexer => l.lookahead != 10 && l.lookahead != 0) a =
        (fun l : TSLexer => l.lookahead != 10 && l.lookahead != 0) b := by
    intro a b e1 _ _
    simp [e1]
  have hla2 : ∀ a b : TSLexer, b.rest = [] → b.column = a.column →
      (fun l : TSLexer => l.lookahead != 10 && l.lookahead != 0) a = false →
      (fun l : TSLexer => l.lookahead != 10 && l.lookahead != 0) b = false := by
    intro a b e1 _ _
    simp [b.lookahead_of_rest_nil e1]
  have hcol : (lexer.cut l.pos).get_column = lexer.get_column := rfl
  cases k with
  | WHITE_SPACES =>
    rw [scan_only_white_spaces] at h
    split at h
    · cases h
    · next h0 =>
      split at h
      · next hw =>
        have hm := advance_while_map_cut (fun l => is_white_space l.lookahead) .WHITE_SPACES
          (by intro a b e1 _ _; simp [e1])
          (by intro a b e1 _ _; simp [b.lookahead_of_rest_nil e1, is_white_space, iswspace])
          fuel lexer l h
        refine ⟨hm.1, fun hlt => ?_⟩
        rw [scan_only_white_spaces, lexer.cut_lookahead _ hlt, if_neg h0, if_pos hw]
        exact hm.2
      · cases h
  | LINE_PREFIX_COMMENT =>
    rw [scan_only_line_prefix_comment] at h
    split at h
    · cases h
    · next h0 =>
      split at h
      · next hw =>
        have hm := advance_while_map_cut (fun l => decide (l.get_column ≤ 5))
          .LINE_PREFIX_COMMENT
          (by intro a b _ e2 _; simp [TSLexer.get_column, e2])
          (by intro a b _ e2 e3; simpa [TSLexer.get_column, e2] using e3)
          fuel lexer l h
        refine ⟨hm.1, fun hlt => ?_⟩
        rw [scan_only_line_prefix_comment, lexer.cut_lookahead _ hlt, if_neg h0, hcol,
          if_pos hw]
        exact hm.2
      · cases h
  | LINE_SUFFIX_COMMENT =>
    rw [scan_only_line_suffix_comment] at h
    split at h
    · cases h
    · next h0 =>
      split at h
      · next hw =>
        have hm := advance_while_map_cut _ .LINE_SUFFIX_COMMENT hla1 hla2 fuel lexer l h
        refine ⟨hm.1, fun hlt => ?_⟩
        rw [scan_only_line_suffix_comment, lexer.cut_lookahead _ hlt, if_neg h0, hcol,
          if_pos hw]
        exact hm.2
      · cases h
  | LINE_COMMENT =>
    rw [scan_only_line_comment] at h
    split at h
    · cases h
    · next h0 =>
      split at h
      · next hw =>
        split at h
        · next hs =>
          have hm := advance_while_map_cut _ .LINE_COMMENT hla1 hla2 fuel lexer l h
          refine ⟨hm.1, fun hlt => ?_⟩
          rw [scan_only_line_comment, lexer.cut_lookahead _ hlt, if_neg h0, hcol,
            if_pos hw, if_pos hs]
          exact hm.2
        · cases h
      · cases h
  | COMMENT_ENTRY =>
    rw [scan_only_comment_entry] at h
    split at h
    · cases h
    · next h0 =>
      split at h
      · cases h
      · next a ha =>
        cases h
        refine ⟨rfl, fun hlt => ?_⟩
        have hc := start_with_word_cut _ _ _ _ _ ha
        rw [scan_only_comment_entry, lexer.cut_lookahead _ hlt, if_neg h0]
        show (match start_with_word fuel (lexer.cut a.pos) any_content_keyword
            number_of_comment_entry_keywords with
          | none => none
          | some (false, l) => some (true, (l.mark_end).set_result .COMMENT_ENTRY)
          | some (true, l) => some (false, l)) = _
        rw [hc]
        rfl
      · cases h
  | multiline_string =>
    rw [scan_only_multiline_string] at h
    split at h
    · cases h
    · next h0 =>
      refine ⟨multiline_string_loop_matched_boundary _ _ _ h, fun hlt => ?_⟩
      rw [scan_only_multiline_string, lexer.cut_lookahead _ hlt, if_neg h0]
      exact multiline_string_loop_cut _ _ _ h
  | EXEC_BLOCK_CONTENT => exact absurd rfl hk

/-- The content scanner matches whenever it starts before column 72 on a
character: it reads that character as content, or finds the terminator. -/
theorem exec_block_content_loop_first (fuel : Nat) (lexer : TSLexer)
    (heof : lexer.eof = false) (hcol : lexer.get_column < 72)
    (hfuel : lexer.rest.length + 3 ≤ fuel) :
    ∃ r, exec_block_content_loop fuel false lexer = some (true, r) ∧
      r.result_symbol = some .EXEC_BLOCK_CONTENT := by
  obtain ⟨f, rfl⟩ : ∃ f, fuel = f + 1 := ⟨fuel - 1, by omega⟩
  have hadv : ((lexer.advance false).mark_end).rest.length + 1 < f := by
    have := lexer.advance_rest_length_le false
    show (lexer.advance false).rest.length + 1 < f
    omega
  rw [exec_block_content_loop]
  simp only [heof, Bool.false_eq_true, if_false]
  split
  · exact exec_block_content_loop_has_content f _ hadv
  · rw [if_neg (by simpa using hcol)]
    split
    · have hp := scan_progress_scan_for_end_exec_from end_exec_keyword 0 lexer.mark_end
      have hlen : (scan_for_end_exec lexer.mark_end).2.rest.length ≤ lexer.rest.length := by
        have h3 := hp.2.2.1
        show (scan_for_end_exec_from end_exec_keyword 0 lexer.mark_end).2.rest.length ≤ _
        rw [h3]
        simp [TSLexer.mark_end]
      split
      · exact ⟨_, rfl, rfl⟩
      · exact exec_block_content_loop_has_content f _ (by
          show (scan_for_end_exec lexer.mark_end).2.rest.length + 1 < f
          omega)
    · exact exec_block_content_loop_has_content f _ hadv

/-! ## Lemmas: the start of the token -/

theorem TSLexer.advance_skip_token_start (l : TSLexer) (h : l.token_start = l.pos) :
    (l.advance true).token_start = (l.advance true).pos := by
  cases hr : l.rest with
  | nil => simpa [TSLexer.advance, hr] using h
  | cons x xs => simp [TSLexer.advance, hr]

theorem TSLexer.advance_token_start (l : TSLexer) :
    (l.advance false).token_start = l.token_start := by
  cases hr : l.rest with
  | nil => simp [TSLexer.advance, hr]
  | cons x xs => simp [TSLexer.advance, hr]

theorem advance_while_skip_token_start (cond : TSLexer → Bool) :
    ∀ (fuel : Nat) (lexer r : TSLexer), advance_while cond true fuel lexer = some r →
      lexer.token_start = lexer.pos → r.token_start = r.pos := by
  intro fuel
  induction fuel with
  | zero => intro lexer r h; simp [advance_while] at h
  | succ f ih =>
    intro lexer r h hs
    rw [advance_while] at h
    split at h
    · exact ih _ _ h (lexer.advance_skip_token_start hs)
    · cases h; exact hs

theorem advance_while_token_start (cond : TSLexer → Bool) :
    ∀ (fuel : Nat) (lexer r : TSLexer), advance_while cond false fuel lexer = some r →
      r.token_start = lexer.token_start := by
  intro fuel
  induction fuel with
  | zero => intro lexer r h; simp [advance_while] at h
  | succ f ih =>
    intro lexer r h
    rw [advance_while] at h
    split at h
    · rw [ih _ _ h, TSLexer.advance_token_start]
    · cases h; rfl

theorem start_with_word_loop_token_start :
    ∀ (fuel : Nat) (cands : List (List Nat × Bool)) (lexer l : TSLexer) (b : Bool),
      start_with_word_loop fuel cands lexer = some (b, l) →
      lexer.token_start = lexer.pos → l.token_start = l.pos := by
  intro fuel
  induction fuel with
  | zero => intro cands lexer l b h; simp [start_with_word_loop] at h
  | succ f ih =>
    intro cands lexer l b h hs
    rw [start_with_word_loop] at h
    split at h
    · cases h; exact hs
    · split at h
      · simp only [Option.map_eq_some', Prod.mk.injEq] at h
        obtain ⟨a, ha, _, rfl⟩ := h
        exact advance_while_skip_token_start _ _ _ _ ha hs
      · simp only at h
        split at h
        · cases h; exact hs
        · exact ih _ _ _ _ h (lexer.advance_skip_token_start hs)

theorem start_with_word_token_start (fuel : Nat) (lexer l : TSLexer) (words : List (List Nat))
    (n : Nat) (b : Bool) (h : start_with_word fuel lexer words n = some (b, l))
    (hs : lexer.token_start = lexer.pos) : l.token_start = l.pos := by
  rw [start_with_word] at h
  split at h
  · cases h
  · next l0 h0 =>
    exact start_with_word_loop_token_start _ _ _ _ _ h
      (advance_while_skip_token_start _ _ _ _ h0 hs)

theorem skip_sequence_area_token_start :
    ∀ (n : Nat) (lexer : TSLexer), lexer.token_start = lexer.pos →
      (skip_sequence_area n lexer).2.token_start = (skip_sequence_area n lexer).2.pos := by
  intro n
  induction n with
  | zero => intro lexer hs; simpa [skip_sequence_area] using hs
  | succ n ih =>
    intro lexer hs
    rw [skip_sequence_area]
    split
    · exact hs
    · exact ih _ (lexer.advance_skip_token_start hs)

theorem scan_for_end_exec_from_token_start :
    ∀ (ks : List Nat) (matched : Nat) (lexer : TSLexer),
      (scan_for_end_exec_from ks matched lexer).2.token_start = lexer.token_start := by
  intro ks
  induction ks with
  | nil =>
    intro matched lexer
    rw [scan_for_end_exec_from]
    split <;> rfl
  | cons k ks ih =>
    intro matched lexer
    rw [scan_for_end_exec_from]
    split
    · rfl
    · split
      · rfl
      · rw [ih, TSLexer.advance_token_start]

theorem exec_block_content_loop_token_start :
    ∀ (fuel : Nat) (has_content : Bool) (lexer l : TSLexer) (b : Bool),
      exec_block_content_loop fuel has_content lexer = some (b, l) →
      l.token_start = lexer.token_start := by
  intro fuel
  induction fuel with
  | zero => intro hc lexer l b h; simp [exec_block_content_loop] at h
  | succ f ih =>
    intro hc lexer l b h
    rw [exec_block_content_loop] at h
    split at h
    · split at h <;> cases h <;> rfl
    · split at h
      · rw [ih _ _ _ _ h]
        exact lexer.advance_token_start
      · split at h
        · split at h
          · cases h
          · next a ha =>
            rw [ih _ _ _ _ h, advance_while_token_start _ _ _ _ ha]
        · split at h
          · split at h
            next m l0 hs0 =>
            have hs := scan_for_end_exec_from_token_start end_exec_keyword 0 lexer.mark_end
            have hs' : l0.token_start = lexer.token_start := by
              have e : (scan_for_end_exec lexer.mark_end).2 = l0 := by rw [hs0]
              rw [← e]
              exact hs
            split at h
            · cases h
              exact hs'
            · rw [ih _ _ _ _ h]
              exact hs'
          · rw [ih _ _ _ _ h]
            exact lexer.advance_token_start

/-- The recognizers that read every character with `skip` leave no token
text: the token starts where the scan stopped. -/
theorem scan_matched_token_start (k : TokenType) (hk : k ≠ .EXEC_BLOCK_CONTENT)
    (hm : k ≠ .multiline_string) (fuel : Nat) (lexer l : TSLexer)
    (h : tree_sitter_COBOL_external_scanner_scan fuel lexer (only k) = some (true, l))
    (hs : lexer.token_start = lexer.pos) : l.token_start = l.pos := by
  have hmap : ∀ (cond : TSLexer → Bool) (t : TokenType),
      (advance_while cond true fuel lexer).map
        (fun l => (true, (l.set_result t).mark_end)) = some (true, l) →
      l.token_start = l.pos := by
    intro cond t h
    simp only [Option.map_eq_some', Prod.mk.injEq, true_and] at h
    obtain ⟨a, ha, rfl⟩ := h
    exact advance_while_skip_token_start cond fuel lexer a ha hs
  cases k with
  | WHITE_SPACES =>
    rw [scan_only_white_spaces] at h
    split at h
    · cases h
    · split at h
      · exact hmap _ _ h
      · cases h
  | LINE_PREFIX_COMMENT =>
    rw [scan_only_line_prefix_comment] at h
    split at h
    · cases h
    · split at h
      · exact hmap _ _ h
      · cases h
  | LINE_SUFFIX_COMMENT =>
    rw [scan_only_line_suffix_comment] at h
    split at h
    · cases h
    · split at h
      · exact hmap _ _ h
      · cases h
  | LINE_COMMENT =>
    rw [scan_only_line_comment] at h
    split at h
    · cases h
    · split at h
      · split at h
        · exact hmap _ _ h
        · cases h
      · cases h
  | COMMENT_ENTRY =>
    rw [scan_only_comment_entry] at h
    split at h
    · cases h
    · split at h
      · cases h
      · next a ha =>
        cases h
        exact start_with_word_token_start fuel lexer a _ _ false ha hs
      · cases h
  | multiline_string => exact absurd rfl hm
  | EXEC_BLOCK_CONTENT => exact absurd rfl hk

/-! ## Lemmas: the string scanner on the text of its token -/

/-- The loop that looks for the closing quote finds it again on the text up
to that quote, read from a column that is not larger. -/
theorem advance_while_quote_shift :
    ∀ (fuel : Nat) (lexer l1 lexer' : TSLexer),
      advance_while
        (fun l => l.lookahead != 34 && l.lookahead != 0 && decide (l.get_column < 72))
        false fuel lexer = some l1 →
      l1.lookahead = 34 →
      lexer'.rest = lexer.rest.take (l1.pos + 1 - lexer.pos) →
      lexer'.column ≤ lexer.column →
      ∃ l1', advance_while
        (fun l => l.lookahead != 34 && l.lookahead != 0 && decide (l.get_column < 72))
        false fuel lexer' = some l1' ∧ l1'.lookahead = 34 := by
  intro fuel
  induction fuel with
  | zero => intro lexer l1 lexer' h; simp [advance_while] at h
  | succ f ih =>
    intro lexer l1 lexer' h hq hrest hcol
    have hprog := (scan_progress_advance_while _ _ _ _ _ h).1
    rw [advance_while] at h
    split at h
    · next hc =>
      simp only [Bool.and_eq_true, bne_iff_ne, ne_eq, decide_eq_true_eq,
        TSLexer.get_column] at hc
      obtain ⟨⟨h34, h0⟩, hc72⟩ := hc
      have hne := lookahead_ne_zero_rest lexer h0
      have hp1 := lexer.advance_pos false hne
      have hp2 := (scan_progress_advance_while _ _ _ _ _ h).1
      obtain ⟨n, hn⟩ : ∃ n, l1.pos + 1 - lexer.pos = n + 1 + 1 := ⟨l1.pos - lexer.pos - 1, by omega⟩
      cases hr : lexer.rest with
      | nil => exact absurd hr hne
      | cons x xs =>
        have hx : lexer.lookahead = x := by simp [TSLexer.lookahead, hr]
        rw [hr, hn, List.take_succ_cons] at hrest
        have hx' : lexer'.lookahead = x := by simp [TSLexer.lookahead, hrest]
        have hcond : (lexer'.lookahead != 34 && lexer'.lookahead != 0 &&
            decide (lexer'.get_column < 72)) = true := by
          rw [hx', ← hx]
          simp only [Bool.and_eq_true, bne_iff_ne, ne_eq, decide_eq_true_eq,
            TSLexer.get_column]
          exact ⟨⟨h34, h0⟩, by omega⟩
        rw [advance_while]
        simp only [hcond, if_true]
        apply ih _ _ _ h hq
        · have e1 : (lexer.advance false).rest = xs := by simp [TSLexer.advance, hr]
          have e2 : (lexer'.advance false).rest = xs.take (n + 1) := by
            simp [TSLexer.advance, hrest]
          have e3 : l1.pos + 1 - (lexer.advance false).pos = n + 1 := by omega
          rw [e1, e2, e3]
        · have e1 : (lexer.advance false).column = if x = 10 then 0 else lexer.column + 1 := by
            simp [TSLexer.advance, hr]
          have e2 : (lexer'.advance false).column =
              if x = 10 then 0 else lexer'.column + 1 := by
            simp [TSLexer.advance, hrest]
          rw [e1, e2]
          split <;> omega
    · cases h
      have hne := lookahead_ne_zero_rest lexer (by rw [hq]; decide)
      cases hr : lexer.rest with
      | nil => exact absurd hr hne
      | cons x xs =>
        have hx : x = 34 := by simpa [TSLexer.lookahead, hr] using hq
        have e : lexer.pos + 1 - lexer.pos = 1 := by omega
        rw [hr, e, hx] at hrest
        have hx' : lexer'.lookahead = 34 := by simp [TSLexer.lookahead, hrest]
        refine ⟨lexer', ?_, hx'⟩
        rw [advance_while]
        simp [hx']

/-- The string scanner, when it matches, matches again on the text of its
token alone: the last line of the literal, from the quote that opens it to
the quote that closes it. -/
theorem multiline_string_loop_rescan :
    ∀ (fuel : Nat) (lexer l : TSLexer),
      multiline_string_loop fuel lexer = some (true, l) →
      lexer.token_start = lexer.pos →
      lexer.pos ≤ l.token_start ∧ l.token_start ≤ l.pos ∧
      ∃ l', multiline_string_loop fuel
          (TSLexer.start ((lexer.rest.drop (l.token_start - lexer.pos)).take
            (l.pos - l.token_start)) 0) = some (true, l') ∧
        l'.result_symbol = some .multiline_string := by
  intro fuel
  induction fuel with
  | zero => intro lexer l h; simp [multiline_string_loop] at h
  | succ f ih =>
    intro lexer l h hs
    rw [multiline_string_loop] at h
    split at h
    · cases h
    · next hq =>
      have hq34 : lexer.lookahead = 34 := by simpa using hq
      have hne : lexer.rest ≠ [] := lookahead_ne_zero_rest lexer (by rw [hq34]; decide)
      have hp0 := lexer.advance_pos false hne
      split at h
      · cases h
      · next l1 h1 =>
        have hg1 := scan_progress_advance_while _ _ _ _ _ h1
        have hp1 := hg1.1
        split at h
        · next hq1 =>
          cases h
          have hq1' : l1.lookahead = 34 := by simpa using hq1
          have hne1 : l1.rest ≠ [] := lookahead_ne_zero_rest l1 (by rw [hq1']; decide)
          have hpos : ((((l1.set_result .multiline_string).advance false).mark_end)).pos =
              l1.pos + 1 := (l1.set_result .multiline_string).advance_pos false hne1
          have hts : ((((l1.set_result .multiline_string).advance false).mark_end)).token_start =
              lexer.pos := by
            show ((l1.set_result .multiline_string).advance false).token_start = lexer.pos
            rw [TSLexer.advance_token_start]
            show l1.token_start = lexer.pos
            rw [advance_while_token_start _ _ _ _ h1, TSLexer.advance_token_start, hs]
          rw [hpos, hts]
          refine ⟨Nat.le_refl _, by omega, ?_⟩
          rw [Nat.sub_self, List.drop_zero]
          cases hr : lexer.rest with
          | nil => exact absurd hr hne
          | cons x xs =>
            have hx : x = 34 := by simpa [TSLexer.lookahead, hr] using hq34
            subst hx
            obtain ⟨n, hn⟩ : ∃ n, l1.pos + 1 - lexer.pos = n + 1 :=
              ⟨l1.pos - lexer.pos, by omega⟩
            rw [hn, List.take_succ_cons]
            obtain ⟨l1', hl1', hq1''⟩ := advance_while_quote_shift f (lexer.advance false) l1
              ((TSLexer.start (34 :: xs.take n) 0).advance false) h1 hq1'
              (by
                have e1 : (lexer.advance false).rest = xs := by simp [TSLexer.advance, hr]
                have e3 : l1.pos + 1 - (lexer.advance false).pos = n := by omega
                rw [e1, e3]
                simp [TSLexer.advance, TSLexer.start])
              (by
                have e1 : (lexer.advance false).column = lexer.column + 1 := by
                  simp [TSLexer.advance, hr]
                rw [e1]
                simp [TSLexer.advance, TSLexer.start])
            refine ⟨((l1'.set_result .multiline_string).advance false).mark_end, ?_, ?_⟩
            · rw [multiline_string_loop]
              have hla : (TSLexer.start (34 :: xs.take n) 0).lookahead = 34 := by
                simp [TSLexer.lookahead, TSLexer.start]
              rw [if_neg (by simp [hla]), hl1']
              simp only
              rw [if_pos (by simp [hq1''])]
            · show ((l1'.set_result .multiline_string).advance false).result_symbol = _
              rw [TSLexer.advance_result_symbol]
              rfl
        · next hq1 =>
          split at h
          · cases h
          · next l2 h2 =>
            have hg2 := scan_progress_advance_while _ _ _ _ _ h2
            split at h
            · cases h
            · next h0 =>
              have hg2a := scan_progress_advance l2 true
              have hg3 := scan_progress_skip_sequence_area 6 (l2.advance true)
              split at h
              · cases h
              · next l3 h3 =>
                rw [h3] at hg3
                simp only at hg3
                split at h
                · cases h
                · next hd =>
                  have hne3 : l3.rest ≠ [] := by
                    apply lookahead_ne_zero_rest
                    intro e
                    apply hd
                    simp [e]
                  have hg3a := scan_progress_advance l3 true
                  have hts3 : (l3.advance true).token_start = (l3.advance true).pos := by
                    cases hr : l3.rest with
                    | nil => exact absurd hr hne3
                    | cons x xs => simp [TSLexer.advance, hr]
                  split at h
                  · cases h
                  · next l4 h4 =>
                    have hg4 := scan_progress_advance_while _ _ _ _ _ h4
                    have hts4 := advance_while_skip_token_start _ _ _ _ h4 hts3
                    have hg : scan_progress lexer l4 :=
                      scan_progress_trans (scan_progress_advance lexer false)
                        (scan_progress_trans hg1 (scan_progress_trans hg2
                          (scan_progress_trans hg2a (scan_progress_trans hg3
                            (scan_progress_trans hg3a hg4)))))
                    obtain ⟨i1, i2, l', hl', hres⟩ := ih _ _ h hts4
                    have hle := hg.1
                    refine ⟨by omega, i2, l', ?_, hres⟩
                    have hrest := hg.2.2.1
                    rw [hrest, List.drop_drop] at hl'
                    have e : l4.pos - lexer.pos + (l.token_start - l4.pos) =
                        l.token_start - lexer.pos := by omega
                    rw [e] at hl'
                    exact multiline_string_loop_mono f (f + 1) _ _ (Nat.le_succ f) hl'

/-! ## Claim C19: the scan of the token text alone -/

theorem scan_at_end (fuel : Nat) (valid_symbols : TokenType → Bool) :
    tree_sitter_COBOL_external_scanner_scan fuel (TSLexer.start [] 0) valid_symbols =
      some (false, TSLexer.start [] 0) := by
  simp [tree_sitter_COBOL_external_scanner_scan, TSLexer.lookahead, TSLexer.start]

theorem scan_only_matched_kind (k : TokenType) (fuel : Nat) (lexer l : TSLexer)
    (h : tree_sitter_COBOL_external_scanner_scan fuel lexer (only k) = some (true, l)) :
    l.result_symbol = some k := by
  have hk := scan_matched_kind fuel lexer l (only k) h
  simp only [only, decide_eq_true_eq] at hk
  rcases hk with ⟨e, r⟩ | ⟨e, r⟩ | ⟨e, r⟩ | ⟨e, r⟩ | ⟨e, r⟩ | ⟨e, _, r⟩ | ⟨e, _, _, r⟩ <;>
    rw [r, e]

theorem scan_matched_lookahead (fuel : Nat) (lexer l : TSLexer)
    (valid_symbols : TokenType → Bool)
    (h : tree_sitter_COBOL_external_scanner_scan fuel lexer valid_symbols = some (true, l)) :
    lexer.lookahead ≠ 0 := by
  intro h0
  rw [tree_sitter_COBOL_external_scanner_scan, if_pos (by simp [h0])] at h
  cases h

/-- Claim C19, amended: for every token kind `k` and every input, when the
scan started at column 0 with only `k` admissible returns matched, it is
matched(`k`), and when the committed token text `t` is not empty the scan of
`t` alone from column 0 with only `k` admissible returns matched(`k`) too,
for every fuel that is large enough. The token text is read both ways: as the
span from the start of the scan to the commit boundary, and as the text the
host keeps, the span without the characters read with `skip`. -/
theorem C19_rescan_of_token_text (k : TokenType) (input : List Nat) (fuel : Nat)
    (l : TSLexer)
    (h : tree_sitter_COBOL_external_scanner_scan fuel (TSLexer.start input 0) (only k) =
      some (true, l)) :
    l.result_symbol = some k ∧
    ∀ t : List Nat, t = token_span input l ∨ t = token_text input l → t ≠ [] →
      ∀ fuel', fuel + t.length + 3 ≤ fuel' →
        ∃ l', tree_sitter_COBOL_external_scanner_scan fuel' (TSLexer.start t 0) (only k) =
            some (true, l') ∧
          l'.result_symbol = some k := by
  refine ⟨scan_only_matched_kind k fuel _ l h, ?_⟩
  have hla := scan_matched_lookahead fuel _ l _ h
  -- the span, for the kinds that commit all they read
  have hspan : k ≠ .EXEC_BLOCK_CONTENT → ∀ t : List Nat, t = token_span input l → t ≠ [] →
      ∀ fuel', fuel + t.length + 3 ≤ fuel' →
        ∃ l', tree_sitter_COBOL_external_scanner_scan fuel' (TSLexer.start t 0) (only k) =
            some (true, l') ∧
          l'.result_symbol = some k := by
    intro hk t ht hne fuel' hf
    obtain ⟨hb, hcut⟩ := scan_cut_matched k hk fuel _ l h
    rw [token_span, hb] at ht
    have hpos : 0 < l.pos := by
      rcases Nat.eq_zero_or_pos l.pos with h0 | h0
      · rw [h0] at ht
        exact absurd ht hne
      · exact h0
    have hc := hcut hpos
    have hstart : (TSLexer.start input 0).cut l.pos = TSLexer.start t 0 := by
      rw [ht]
      rfl
    rw [hstart] at hc
    exact ⟨l.cut l.pos, scan_mono fuel fuel' _ _ _ (by omega) hc,
      scan_only_matched_kind k fuel _ l h⟩
  intro t ht hne fuel' hf
  by_cases hk : k = .EXEC_BLOCK_CONTENT
  · -- the content scanner never skips, and matches on any text
    subst hk
    rw [scan_only_exec_block_content, if_neg (by simpa using hla)] at h
    have hts : l.token_start = 0 := exec_block_content_loop_token_start _ _ _ _ _ h
    have ht' : t = input.take l.commit_boundary := by
      rcases ht with ht | ht
      · exact ht
      · rw [ht, token_text, hts, List.drop_zero]
    have hhead : (TSLexer.start t 0).lookahead = (TSLexer.start input 0).lookahead := by
      rw [ht'] at hne ⊢
      cases input with
      | nil => simp at hne
      | cons x xs =>
        cases hB : l.commit_boundary with
        | zero => rw [hB] at hne; simp at hne
        | succ n => simp [TSLexer.lookahead, TSLexer.start]
    have heof : (TSLexer.start t 0).eof = false := by
      cases t with
      | nil => exact absurd rfl hne
      | cons x xs => rfl
    rw [scan_only_exec_block_content, if_neg (by rw [hhead]; simpa using hla)]
    exact exec_block_content_loop_first fuel' _ heof (Nat.zero_lt_succ 71) (by
      show t.length + 3 ≤ fuel'
      omega)
  · rcases ht with ht | ht
    · exact hspan hk t ht hne fuel' hf
    · by_cases hm : k = .multiline_string
      · -- the text is the last line of the literal
        subst hm
        rw [scan_only_multiline_string, if_neg (by simpa using hla)] at h
        obtain ⟨_, _, l', hl', hres⟩ := multiline_string_loop_rescan fuel _ l h rfl
        have hb := multiline_string_loop_matched_boundary _ _ _ h
        have ht' : t = (input.drop l.token_start).take (l.pos - l.token_start) := by
          rw [ht, token_text, hb, List.drop_take]
        have hl2 : multiline_string_loop fuel (TSLexer.start t 0) = some (true, l') := by
          rw [ht']
          exact hl'
        have hq : (TSLexer.start t 0).lookahead ≠ 0 := by
          intro h0
          cases fuel with
          | zero => simp [multiline_string_loop] at hl2
          | succ f =>
            rw [multiline_string_loop, if_pos (by simp [h0])] at hl2
            cases hl2
        refine ⟨l', ?_, hres⟩
        rw [scan_only_multiline_string, if_neg (by simpa using hq)]
        exact multiline_string_loop_mono fuel fuel' _ _ (by omega) hl2
      · -- the other kinds skip all they read: the text is empty
        exfalso
        have hts := scan_matched_token_start k hk hm fuel _ l h rfl
        obtain ⟨hb, _⟩ := scan_cut_matched k hk fuel _ l h
        apply hne
        rw [ht, token_text, hb, hts]
        apply List.drop_eq_nil_of_le
        rw [List.length_take]
        exact Nat.min_le_left _ _

/-- Claim C19, amended, on the block `AB END-EXEC`: the scan commits the
content `AB `, and the scan of `AB ` alone is matched too. -/
theorem C19_rescan_of_token_text_witness :
    token_span (codes "AB END-EXEC")
      { pos := 11, rest := [], column := 11, token_start := 0, marks := [3, 3, 2, 1],
        result_symbol := some .EXEC_BLOCK_CONTENT } = codes "AB " ∧
    ∃ l', tree_sitter_COBOL_external_scanner_scan 40 (TSLexer.start (codes "AB ") 0)
        (only .EXEC_BLOCK_CONTENT) = some (true, l') ∧
      l'.result_symbol = some .EXEC_BLOCK_CONTENT :=
  ⟨by decide,
    (C19_rescan_of_token_text .EXEC_BLOCK_CONTENT (codes "AB END-EXEC") 20
      { pos := 11, rest := [], column := 11, token_start := 0, marks := [3, 3, 2, 1],
        result_symbol := some .EXEC_BLOCK_CONTENT } (by decide)).2
      (codes "AB ") (Or.inl (by decide)) (by decide) 40 (by decide)⟩

/-- Claim C19 fails as stated: on `END-EXEC` the content scanner matches with
the commit boundary at the start, so the token text is empty, and on a line
feed before `A` the comment-entry recognizer does the same; on the empty
text every scan declines. -/
theorem C19_counterexample :
    tree_sitter_COBOL_external_scanner_scan 20 (TSLexer.start (codes "END-EXEC") 0)
        (only .EXEC_BLOCK_CONTENT) =
      some (true,
        { pos := 8, rest := [], column := 8, token_start := 0, marks := [0],
          result_symbol := some .EXEC_BLOCK_CONTENT }) ∧
    token_span (codes "END-EXEC")
      { pos := 8, rest := [], column := 8, token_start := 0, marks := [0],
        result_symbol := some .EXEC_BLOCK_CONTENT } = [] ∧
    token_text (codes "END-EXEC")
      { pos := 8, rest := [], column := 8, token_start := 0, marks := [0],
        result_symbol := some .EXEC_BLOCK_CONTENT } = [] ∧
    tree_sitter_COBOL_external_scanner_scan 20 (TSLexer.start [10, 65] 0)
        (only .COMMENT_ENTRY) =
      some (true,
        { pos := 0, rest := [10, 65], column := 0, token_start := 0, marks := [0],
          result_symbol := some .COMMENT_ENTRY }) ∧
    token_span [10, 65]
      { pos := 0, rest := [10, 65], column := 0, token_start := 0, marks := [0],
        result_symbol := some .COMMENT_ENTRY } = [] ∧
    ∀ (fuel : Nat) (k : TokenType),
      tree_sitter_COBOL_external_scanner_scan fuel (TSLexer.start [] 0) (only k) =
        some (false, TSLexer.start [] 0) :=
  ⟨by decide, by decide, by decide, by decide, by decide, fun fuel k => scan_at_end fuel (only k)⟩

end CobolScanner
